import Mathlib

/-!
# Dennix kernel core: file vnode, process table and scheduler

A shallow embedding of `kernel/src/file.cpp` and `kernel/src/process.cpp`.

* Bytes are `Fin 256`; buffers and file storage are lists of bytes.
* `size_t` is the 32-bit unsigned type of the x86 target (`SIZE_MAX = 2^32 - 1`)
  and `ssize_t` the signed type of the same width; a count returned as
  `ssize_t` is the `size_t` value converted (`toSsize`).
* `off_t` is declared in a header that is not part of the sources at hand; its
  width `offBits` is a parameter wherever the C semantics depends on it.
* Undefined behaviour of the C++ code (reading outside an object, dereferencing
  a null pointer) is the result `none`.
* Pointers to `Process`, `FileDescription`, `Vnode` and `AddressSpace` objects
  are indices into arenas held by the kernel state; `nullptr` is `none`.
-/

namespace Dennix

/-! ## Basic types -/

abbrev Byte := Fin 256

/-- The error numbers the core reports through `errno`. -/
inductive Errno where
  | EINVAL
  | ENOSPC
  | EMFILE
deriving DecidableEq, Repr

deriving instance DecidableEq for Except

/-- Largest value of `size_t` on the 32-bit target. -/
def SIZE_MAX : Nat := 4294967295

/-- Largest value of `ssize_t` on the 32-bit target. -/
def SSIZE_MAX : Nat := 2147483647

/-- The conversion of a `size_t` value to `ssize_t` that a `return` of
`pread` and `pwrite` performs: values up to `SSIZE_MAX` keep their value, the
values above wrap to the negative numbers (`0xFFFFFFFF` becomes `-1`). -/
def toSsize (n : Nat) : Int :=
  ((n : Int) + 2147483648) % 4294967296 - 2147483648

/-- Largest value of a signed `off_t` that is `offBits` wide. -/
def OFF_MAX (offBits : Nat) : Int := 2 ^ (offBits - 1) - 1

/-! ## Allocator -/

/-- Modelled from the spec: the kernel allocator behind `malloc` and `realloc`
(the C runtime, outside the sources at hand). The spec only says that growing
the storage can fail; `avail n` tells whether a request for `n` bytes is
served, and `junk j` is the indeterminate byte found at index `j` of storage
that the allocator hands out without initialising it. -/
structure Heap where
  avail : Nat → Bool
  junk : Nat → Byte

/-- The call `realloc(data, newSize)`: `none` is the null result, which leaves
the old block as it was; otherwise the block keeps its first
`min(old length, newSize)` bytes and the bytes beyond are whatever the
allocator left there. -/
def realloc (heap : Heap) (data : List Byte) (newSize : Nat) : Option (List Byte) :=
  if heap.avail newSize then
    some (data.take newSize ++
      (List.range (newSize - data.length)).map (fun j => heap.junk (data.length + j)))
  else none

/-- The call `memcpy(dst + off, src, n)` on byte lists. The C contract asks
for `n ≤ src.length` and `off + n ≤ dst.length`. -/
def memcpy (dst : List Byte) (off : Nat) (src : List Byte) (n : Nat) : List Byte :=
  dst.take off ++ src.take n ++ dst.drop (off + n)

/-! ## FileVnode (file.cpp) -/

/-- The fields `data` and `fileSize` of a `FileVnode`. -/
structure FileVnode where
  data : List Byte
  fileSize : Nat
deriving DecidableEq

/-- The constructor `FileVnode::FileVnode(data, size, mode)`: `malloc(size)`,
`memcpy`, `fileSize = size`. The result of `malloc` is not checked by the
source, so a failed allocation is undefined behaviour. -/
def FileVnode.create (heap : Heap) (data : List Byte) (size : Nat) : Option FileVnode :=
  if heap.avail size then
    some { data := memcpy ((List.range size).map heap.junk) 0 data size, fileSize := size }
  else none

/-- The value of the C expression `offset + i` for `offset : off_t` and
`i : size_t` under the usual arithmetic conversions: when `off_t` is no wider
than `size_t` both operands become 32-bit unsigned and the sum wraps;
otherwise the sum is taken in the signed `off_t`, where overflow is
undefined. -/
def offsetPlus (offBits : Nat) (offset : Int) (i : Nat) : Option Int :=
  if offBits ≤ 32 then some ((offset + (i : Int)) % 4294967296)
  else if offset + (i : Int) ≤ OFF_MAX offBits then some (offset + (i : Int))
  else none

/-- The loop of `FileVnode::pread`, with `fuel = size - i` iterations left:
the `size_t` value handed to `return` and the buffer afterwards. -/
def FileVnode.preadLoop (offBits : Nat) (self : FileVnode) (size : Nat) (offset : Int) :
    Nat → Nat → List Byte → Option (Nat × List Byte)
  | 0, _, buf => some (size, buf)
  | fuel + 1, i, buf =>
    match offsetPlus offBits offset i with
    | none => none
    | some idx =>
      if idx ≥ (self.fileSize : Int) then some (i, buf)
      else if idx < 0 then none
      else
        match self.data[idx.toNat]? with
        | none => none
        | some b =>
          if i < buf.length then preadLoop offBits self size offset fuel (i + 1) (buf.set i b)
          else none

/-- The method `FileVnode::pread(buffer, size, offset)`: the `ssize_t` value
returned (the number of bytes copied, converted) and the buffer afterwards. -/
def FileVnode.pread (offBits : Nat) (self : FileVnode) (buffer : List Byte) (size : Nat)
    (offset : Int) : Option (Int × List Byte) :=
  match self.preadLoop offBits size offset size 0 buffer with
  | none => none
  | some (count, buf) => some (toSsize count, buf)

/-- The method `FileVnode::pwrite(buffer, size, offset)`: the result (`-1` with
`errno`, or `size` converted to `ssize_t`) and the node afterwards. -/
def FileVnode.pwrite (heap : Heap) (self : FileVnode) (buffer : List Byte) (size : Nat)
    (offset : Int) : Except Errno Int × FileVnode :=
  if offset < 0 then (.error .EINVAL, self)
  else
    let newSize := offset.toNat + size
    if newSize > SIZE_MAX then (.error .ENOSPC, self)
    else if newSize > self.fileSize then
      match realloc heap self.data newSize with
      | none => (.error .ENOSPC, self)
      | some newData =>
        (.ok (toSsize size),
          { data := memcpy newData offset.toNat buffer size, fileSize := newSize })
    else (.ok (toSsize size), { self with data := memcpy self.data offset.toNat buffer size })

/-- The method `FileVnode::isSeekable`. -/
def FileVnode.isSeekable (_self : FileVnode) : Bool := true


/-- A sequence of `pwrite` calls on one node, each call writing a whole byte
string at its offset; `none` as soon as one of the calls fails. -/
def FileVnode.pwriteAll (heap : Heap) (self : FileVnode) :
    List (Int × List Byte) → Option FileVnode
  | [] => some self
  | w :: rest =>
    match self.pwrite heap w.2 w.2.length w.1 with
    | (.ok _, f) => f.pwriteAll heap rest
    | (.error _, _) => none

/-- Position `p` of the file lies in the range written by the call `w`. -/
def covers (w : Int × List Byte) (p : Nat) : Prop :=
  w.1 ≤ (p : Int) ∧ (p : Int) < w.1 + (w.2.length : Int)

/-- The ranges written by the calls `a` and `b` do not overlap. -/
def disjointWrites (a b : Int × List Byte) : Prop :=
  a.1 + (a.2.length : Int) ≤ b.1 ∨ b.1 + (b.2.length : Int) ≤ a.1

/-- An allocator that serves every request a `size_t` can express and hands
out zeroed storage. -/
def zeroedHeap : Heap := ⟨fun n => decide (n ≤ SIZE_MAX), fun _ => 0⟩

/-- An allocator that serves every request a `size_t` can express and hands
out storage still holding the byte `0xAA`. -/
def staleHeap : Heap := ⟨fun n => decide (n ≤ SIZE_MAX), fun _ => 170⟩

/-- An allocator that refuses every request. -/
def exhaustedHeap : Heap := ⟨fun _ => false, fun _ => 0⟩

/-! ## Process table and scheduler (process.cpp) -/

/-- An address of an object: an index into the arena of its type. -/
abbrev Ptr := Nat

/-- The saved register image `InterruptContext`, with the fields the source
assigns in `execute` and `regfork`. -/
structure InterruptContext where
  eax : Nat
  ebx : Nat
  ecx : Nat
  edx : Nat
  esi : Nat
  edi : Nat
  ebp : Nat
  interrupt : Nat
  error : Nat
  eip : Nat
  cs : Nat
  eflags : Nat
  esp : Nat
  ss : Nat
deriving DecidableEq, Repr

/-- An all-zero register image (`new InterruptContext()`, `memset(.., 0, ..)`). -/
def InterruptContext.zero : InterruptContext :=
  { eax := 0
    ebx := 0
    ecx := 0
    edx := 0
    esi := 0
    edi := 0
    ebp := 0
    interrupt := 0
    error := 0
    eip := 0
    cs := 0
    eflags := 0
    esp := 0
    ss := 0 }

/-- Protection bits of a mapping (`PROT_READ | PROT_WRITE | PROT_EXEC`). -/
structure Prot where
  read : Bool
  write : Bool
  exec : Bool
deriving DecidableEq, Repr

/-- A reserved range `[base, base + size)` of an address space. -/
structure Mapping where
  base : Nat
  size : Nat
  prot : Prot
deriving DecidableEq, Repr

/-- Modelled from the spec: the `AddressSpace` collaborator (its code is not
among the sources at hand), "a virtual-memory container addressable by virtual
page": the ranges reserved in it and the bytes its addresses hold. -/
structure AddressSpace where
  mappings : List Mapping
  memory : Nat → Byte

/-- Modelled from the spec: a fresh `AddressSpace()`. Nothing is mapped, and
the byte an address shows once a range over it is mapped is the byte its frame
holds: `frames`, indeterminate, since nothing clears a frame that is handed
out. -/
def AddressSpace.empty (frames : Nat → Byte) : AddressSpace :=
  { mappings := [], memory := frames }

/-- The ELF header fields `loadELF` reads. -/
structure ElfHeader where
  e_entry : Nat
  e_phoff : Nat
  e_phnum : Nat
deriving DecidableEq, Repr

/-- The program header fields `loadELF` reads. -/
structure ProgramHeader where
  p_type : Nat
  p_offset : Nat
  p_paddr : Nat
  p_filesz : Nat
  p_memsz : Nat
deriving DecidableEq, Repr

/-- The program header type of a loadable segment. -/
def PT_LOAD : Nat := 1

/-- An ELF image in memory as `loadELF` sees it through the `ElfHeader` and
`ProgramHeader` declarations: the header at `elf`, the table at
`elf + e_phoff`, and the bytes from `elf` on. -/
structure ElfImage where
  header : ElfHeader
  programHeader : List ProgramHeader
  bytes : List Byte
deriving DecidableEq

/-- The parts of the kernel that `process.cpp` uses and that are declared
outside the sources at hand: the constant `OPEN_MAX`, the layout of the ELF
declarations (as the view `decode` of a byte image), and the address
`mapMemory(size, prot)` picks in a container. -/
structure Platform where
  openMax : Nat
  decode : List Byte → ElfImage
  pick : AddressSpace → Nat → Nat

/-- A `FileDescription`: a reference to a vnode. -/
structure FileDescription where
  vnode : Ptr
deriving DecidableEq, Repr

/-- The vnodes of the core: the terminal and regular files. -/
inductive Vnode where
  | terminal
  | file (f : FileVnode)
deriving DecidableEq

/-- The fields of a `Process` record. -/
structure Process where
  addressSpace : Option Ptr
  interruptContext : Option InterruptContext
  prev : Option Ptr
  next : Option Ptr
  kernelStack : Nat
  fd : List (Option Ptr)
  rootFd : Option Ptr
  cwdFd : Option Ptr
  pid : Nat
  contextChanged : Bool
  fdInitialized : Bool
deriving DecidableEq

/-- The kernel state `process.cpp` works on: the objects on the heap (one arena
per type, a pointer being an index), the globals `current`, `firstProcess`,
`idleProcess` and `nextPid`, what the calls into the CPU glue last set
(`activate`, `setKernelStack`), the objects handed to `delete`, the
indeterminate bytes that the frames of physical memory hold when they are
handed out (`frames`), and the lines `exit` sent to the log (pid and
status). -/
structure Kernel where
  procs : List Process
  spaces : List AddressSpace
  descriptions : List FileDescription
  vnodes : List Vnode
  current : Ptr
  firstProcess : Option Ptr
  idleProcess : Ptr
  nextPid : Nat
  activeSpace : Option Ptr
  kernelStackTop : Nat
  freedSpaces : List Ptr
  frames : Nat → Byte
  freedDescriptions : List Ptr := []
  log : List (Nat × Int) := []

/-- The global `kernelSpace`: the first object of the address-space arena. -/
def kernelSpace : Ptr := 0

/-- The global `terminal` vnode: the first object of the vnode arena. -/
def terminal : Ptr := 0

/-- The kernel before `Process::initialize`: no process record exists. The
frames of the examples hold the byte `0xCC`. -/
def Kernel.boot (vnodes : List Vnode) (descriptions : List FileDescription) : Kernel :=
  { procs := []
    spaces := [AddressSpace.empty (fun _ => 204)]
    descriptions := descriptions
    vnodes := Vnode.terminal :: vnodes
    current := 0
    firstProcess := none
    idleProcess := 0
    nextPid := 0
    activeSpace := some kernelSpace
    kernelStackTop := 0
    freedSpaces := []
    frames := fun _ => 204 }

/-- Largest value of `pid_t` (a 32-bit `int`). -/
def PID_MAX : Nat := 2147483647

/-- The constructor `Process::Process()` on a fresh record (`new Process()`):
the address of the record and the kernel afterwards. Incrementing `nextPid`
past the largest `pid_t` is a signed overflow. -/
def Process.create (env : Platform) (k : Kernel) : Option (Ptr × Kernel) :=
  if k.nextPid < PID_MAX then
    let self : Process :=
      { addressSpace := none
        interruptContext := none
        prev := none
        next := none
        kernelStack := 0
        fd := List.replicate env.openMax none
        rootFd := none
        cwdFd := none
        pid := k.nextPid
        contextChanged := false
        fdInitialized := false }
    some (k.procs.length, { k with procs := k.procs ++ [self], nextPid := k.nextPid + 1 })
  else none

/-- The static function `Process::initialize(rootFd)`. -/
def Process.initialize (env : Platform) (k : Kernel) (rootFd : Option Ptr) : Option Kernel :=
  match Process.create env k with
  | none => none
  | some (idle, k1) =>
    match k1.procs[idle]? with
    | none => none
    | some r =>
      let idleRecord : Process :=
        { r with addressSpace := some kernelSpace
                 interruptContext := some InterruptContext.zero
                 rootFd := rootFd }
      some { k1 with procs := k1.procs.set idle idleRecord
                     idleProcess := idle
                     current := idle
                     firstProcess := none }

/-- The static function `Process::addProcess(process)`. -/
def Process.addProcess (k : Kernel) (process : Ptr) : Option Kernel :=
  match k.procs[process]? with
  | none => none
  | some r =>
    let procs1 := k.procs.set process { r with next := k.firstProcess }
    match k.firstProcess with
    | none => some { k with procs := procs1, firstProcess := some process }
    | some nx =>
      match procs1[nx]? with
      | none => none
      | some rn =>
        some { k with procs := procs1.set nx { rn with prev := some process }
                      firstProcess := some process }

/-- The first statement of `schedule` on the record of `current`: store the
incoming frame unless `contextChanged` is set, in which case clear the flag. -/
def Process.saveContext (cur : Process) (context : InterruptContext) : Process :=
  if !cur.contextChanged then { cur with interruptContext := some context }
  else { cur with contextChanged := false }

/-- The process `schedule` switches to: `current->next`, else `firstProcess`,
else `idleProcess`. -/
def Process.successor (k : Kernel) (cur : Process) : Ptr :=
  match cur.next with
  | some n => n
  | none =>
    match k.firstProcess with
    | some first => first
    | none => k.idleProcess

/-- The static function `Process::schedule(context)`: the returned
`current->interruptContext` and the kernel afterwards. -/
def Process.schedule (k : Kernel) (context : InterruptContext) :
    Option (Option InterruptContext × Kernel) :=
  match k.procs[k.current]? with
  | none => none
  | some cur =>
    let cur1 := Process.saveContext cur context
    let procs1 := k.procs.set k.current cur1
    let next := Process.successor k cur1
    match procs1[next]? with
    | none => none
    | some r =>
      match r.addressSpace with
      | none => none
      | some space =>
        match k.spaces[space]? with
        | none => none
        | some _ =>
          some (r.interruptContext,
            { k with procs := procs1
                     current := next
                     kernelStackTop := (r.kernelStack + 4096) % 4294967296
                     activeSpace := some space })

/-- The state after `n` timer ticks, each calling `schedule` with the frame
`ctx n` of the interrupted process. -/
def Process.ticks (ctx : Nat → InterruptContext) : Nat → Kernel → Option Kernel
  | 0, k => some k
  | n + 1, k =>
    match Process.ticks ctx n k with
    | none => none
    | some k1 =>
      match Process.schedule k1 (ctx n) with
      | none => none
      | some (_, k2) => some k2

/-- Calls `addProcess` on each process of the list, first to last. -/
def Process.addAll : List Ptr → Kernel → Option Kernel
  | [], k => some k
  | p :: ps, k =>
    match Process.addProcess k p with
    | none => none
    | some k1 => Process.addAll ps k1

/-- The processes reached from `start` by following `next` are exactly those
of the list, in order, the last one having a null `next`. -/
def isChain (procs : List Process) : Option Ptr → List Ptr → Bool
  | none, [] => true
  | some p, q :: rest =>
    p == q &&
      match procs[p]? with
      | none => false
      | some r => isChain procs r.next rest
  | _, _ => false

/-- The process `p` can be switched to: its record exists and its address
space is an object of the kernel. -/
def Kernel.runnable (k : Kernel) (p : Ptr) : Bool :=
  match k.procs[p]? with
  | none => false
  | some r =>
    match r.addressSpace with
    | none => false
    | some space => decide (space < k.spaces.length)

/-- The runnable list of the kernel, from `firstProcess` along `next`, is `l`,
and each process on it can be switched to. -/
structure Kernel.Listed (k : Kernel) (l : List Ptr) : Prop where
  chain : isChain k.procs k.firstProcess l = true
  canRun : ∀ p ∈ l, k.runnable p = true

/-- Modelled from the spec: the macro `ALIGNUP(value, alignment)`, declared in
a header outside the sources at hand: `alignUp`, the least multiple of the
alignment that is not below the value. -/
def ALIGNUP (value alignment : Nat) : Nat :=
  (value + alignment - 1) / alignment * alignment

/-- The protection `PROT_READ | PROT_WRITE | PROT_EXEC`. -/
def Prot.rwx : Prot := { read := true, write := true, exec := true }

/-- The protection `PROT_READ | PROT_WRITE`. -/
def Prot.rw : Prot := { read := true, write := true, exec := false }

/-- Modelled from the spec: `mapMemory(size, prot)` of the `AddressSpace`
collaborator, "vaddr picked by the container": the address picked and the
container with the range reserved. -/
def AddressSpace.mapMemory (env : Platform) (space : AddressSpace) (size : Nat) (prot : Prot) :
    Nat × AddressSpace :=
  (env.pick space size,
    { space with mappings := { base := env.pick space size, size := size, prot := prot }
                   :: space.mappings })

/-- The body of the loop of `loadELF` for one `PT_LOAD` program header: reserve
the page-aligned range in the target address space and, through the temporary
window onto it, zero `p_memsz` bytes at `p_paddr` and copy `p_filesz` bytes of
the image over them. Writing outside the window, or reading outside the
image, is undefined. -/
def Process.loadSegment (space : AddressSpace) (elf : ElfImage) (ph : ProgramHeader) :
    Option AddressSpace :=
  let loadAddressAligned := ph.p_paddr - ph.p_paddr % 4096
  let offset := ph.p_paddr - loadAddressAligned
  let size := ALIGNUP ((ph.p_memsz + offset) % 4294967296) 4096 % 4294967296
  if offset + ph.p_memsz ≤ size ∧ offset + ph.p_filesz ≤ size ∧
      ph.p_offset + ph.p_filesz ≤ elf.bytes.length then
    some
      { mappings := { base := loadAddressAligned, size := size, prot := Prot.rwx }
          :: space.mappings
        memory := fun a =>
          if ph.p_paddr ≤ a ∧ a < ph.p_paddr + ph.p_filesz then
            elf.bytes.getD (ph.p_offset + (a - ph.p_paddr)) 0
          else if ph.p_paddr ≤ a ∧ a < ph.p_paddr + ph.p_memsz then 0
          else space.memory a }
  else none

/-- The loop of `loadELF` over the program headers, with `fuel = e_phnum - i`
iterations left. -/
def Process.loadSegments (elf : ElfImage) : Nat → Nat → AddressSpace → Option AddressSpace
  | 0, _, space => some space
  | fuel + 1, i, space =>
    match elf.programHeader[i]? with
    | none => none
    | some ph =>
      if ph.p_type ≠ PT_LOAD then Process.loadSegments elf fuel (i + 1) space
      else
        match Process.loadSegment space elf ph with
        | none => none
        | some space1 => Process.loadSegments elf fuel (i + 1) space1

/-- The method `Process::loadELF(elf)` of the process `self`: the entry point
returned and the kernel afterwards. -/
def Process.loadELF (k : Kernel) (self : Ptr) (elf : ElfImage) : Option (Nat × Kernel) :=
  match k.procs[self]? with
  | none => none
  | some r =>
    let freed :=
      match r.addressSpace with
      | some old => old :: k.freedSpaces
      | none => k.freedSpaces
    match Process.loadSegments elf elf.header.e_phnum 0 (AddressSpace.empty k.frames) with
    | none => none
    | some loaded =>
      some (elf.header.e_entry % 4294967296,
        { k with procs := k.procs.set self { r with addressSpace := some k.spaces.length }
                 spaces := k.spaces ++ [loaded]
                 freedSpaces := freed })

/-- The frame `execute` writes at the top of the new kernel stack. -/
def Process.startContext (entry stack : Nat) : InterruptContext :=
  { InterruptContext.zero with
    eip := entry % 4294967296
    cs := 27
    eflags := 512
    esp := (stack % 4294967296 + 4096) % 4294967296
    ss := 35 }

/-- The block of `execute` that initialises the descriptors of a record whose
`fdInitialized` is unset: three handles on the terminal, and `rootFd` and
`cwdFd` cloned from the root handle of the idle process. -/
def Process.initDescriptors (k : Kernel) (r : Process) : Option (Process × Kernel) :=
  match k.procs[k.idleProcess]? with
  | none => none
  | some idle =>
    match idle.rootFd with
    | none => none
    | some idleRoot =>
      match k.descriptions[idleRoot]? with
      | none => none
      | some root =>
        let n := k.descriptions.length
        some ({ r with fd := ((r.fd.set 0 (some n)).set 1 (some (n + 1))).set 2 (some (n + 2))
                       rootFd := some (n + 3)
                       cwdFd := some (n + 4)
                       fdInitialized := true },
          { k with descriptions := k.descriptions ++
              [⟨terminal⟩, ⟨terminal⟩, ⟨terminal⟩, root, root] })

/-- The method `Process::execute(descr, argv, envp)` of the process `self`:
the value returned and the kernel afterwards. -/
def Process.execute (env : Platform) (k : Kernel) (self : Ptr) (descr : Ptr) :
    Option (Int × Kernel) :=
  match k.descriptions[descr]? with
  | none => none
  | some d =>
    match k.vnodes[d.vnode]? with
    | some (Vnode.file file) =>
      match Process.loadELF k self (env.decode file.data) with
      | none => none
      | some (entry, k1) =>
        match k1.procs[self]? with
        | none => none
        | some r =>
          match r.addressSpace with
          | none => none
          | some own =>
            match k1.spaces[own]? with
            | none => none
            | some space =>
              let (stack, space1) := AddressSpace.mapMemory env space 4096 Prot.rw
              let spaces1 := k1.spaces.set own space1
              match spaces1[kernelSpace]? with
              | none => none
              | some kspace =>
                let (kernelStack, kspace1) := AddressSpace.mapMemory env kspace 4096 Prot.rw
                let spaces2 := spaces1.set kernelSpace kspace1
                let r1 : Process :=
                  { r with kernelStack := kernelStack
                           interruptContext := some (Process.startContext entry stack) }
                let k2 := { k1 with spaces := spaces2 }
                match (if !r1.fdInitialized then Process.initDescriptors k2 r1
                       else some (r1, k2)) with
                | none => none
                | some (r2, k3) =>
                  let r3 : Process :=
                    if self = k.current then { r2 with contextChanged := true } else r2
                  some (0, { k3 with procs := k3.procs.set self r3 })
    | _ => none

/-- The loop of `registerFileDescriptor`, with `fuel = OPEN_MAX - i` iterations
left: the result and the table afterwards. -/
def Process.registerLoop (fd : List (Option Ptr)) (descr : Option Ptr) :
    Nat → Nat → Option (Except Errno Nat × List (Option Ptr))
  | 0, _ => some (.error .EMFILE, fd)
  | fuel + 1, i =>
    match fd[i]? with
    | none => none
    | some none => some (.ok i, fd.set i descr)
    | some (some _) => Process.registerLoop fd descr fuel (i + 1)

/-- The method `Process::registerFileDescriptor(descr)` on the record `self`:
the index of the slot (or `-1` with `errno = EMFILE`) and the record
afterwards. -/
def Process.registerFileDescriptor (env : Platform) (self : Process) (descr : Option Ptr) :
    Option (Except Errno Nat × Process) :=
  match Process.registerLoop self.fd descr env.openMax 0 with
  | none => none
  | some (result, fd) => some (result, { self with fd := fd })

/-! ## Concrete states for the examples -/

/-- A process record that has an address space and a saved all-zero frame. -/
def Process.sample (pid : Nat) (space : Ptr) (root : Option Ptr) : Process :=
  { addressSpace := some space
    interruptContext := some InterruptContext.zero
    prev := none
    next := none
    kernelStack := 0
    fd := [none, none, none, none]
    rootFd := root
    cwdFd := none
    pid := pid
    contextChanged := false
    fdInitialized := false }

/-- A kernel as `Process::initialize` leaves it (record 0 is the idle process,
the list is empty), with three further records 1, 2, 3 that are not yet on the
list, one handle (0) on the file vnode 1. -/
def sampleKernel : Kernel :=
  { procs := [Process.sample 0 0 (some 0), Process.sample 1 1 none, Process.sample 2 2 none,
      Process.sample 3 3 none]
    spaces := [AddressSpace.empty (fun _ => 204), AddressSpace.empty (fun _ => 204),
      AddressSpace.empty (fun _ => 204), AddressSpace.empty (fun _ => 204)]
    descriptions := [⟨1⟩]
    vnodes := [Vnode.terminal, Vnode.file ⟨[127, 69, 76, 70], 4⟩]
    current := 0
    firstProcess := none
    idleProcess := 0
    nextPid := 4
    activeSpace := some kernelSpace
    kernelStackTop := 0
    freedSpaces := []
    frames := fun _ => 204 }

/-- A platform for the examples: four descriptor slots, every image seen as an
ELF with entry point `0x400000` and one loadable segment, stacks picked at
fixed addresses. -/
def samplePlatform : Platform :=
  { openMax := 4
    decode := fun bytes =>
      { header := { e_entry := 4194304, e_phoff := 52, e_phnum := 1 }
        programHeader := [{ p_type := PT_LOAD, p_offset := 0, p_paddr := 4194304,
                            p_filesz := 2, p_memsz := 4 }]
        bytes := bytes }
    pick := fun _ _ => 1048576 }

/-- The frames of the examples: tick `n` interrupts with `eax = n + 1`. -/
def sampleFrames (n : Nat) : InterruptContext :=
  { InterruptContext.zero with eax := n + 1 }

/-- The scenario "process 2 is running next to process 1, calls `execute`,
and the timer ticks": the process running before the call, the process
selected by the tick after it, and the `eip` of the frame that tick returns. -/
def executeScenario : Option (Ptr × Ptr × Option Nat) :=
  match Process.addAll [1, 2] sampleKernel with
  | none => none
  | some k1 =>
    match Process.ticks sampleFrames 1 k1 with
    | none => none
    | some k2 =>
      match Process.execute samplePlatform k2 2 0 with
      | none => none
      | some (_, k3) =>
        match Process.schedule k3 (sampleFrames 1) with
        | none => none
        | some (ret, k4) => some (k2.current, k4.current, ret.map (·.eip))

/-! ## Sequences of calls on a file vnode -/

/-- A call of one of the two transfer methods of a `FileVnode`. -/
inductive FileCall where
  | pread (buffer : List Byte) (size : Nat) (offset : Int)
  | pwrite (buffer : List Byte) (size : Nat) (offset : Int)

/-- The buffer passed to a call holds at least `size` bytes, as the C contract
of the two methods asks. -/
def FileCall.adequate : FileCall → Prop
  | .pread buffer size _ => size ≤ buffer.length
  | .pwrite buffer size _ => size ≤ buffer.length

/-- The node after one call, whether the call succeeds or fails: `pread`
assigns to no field of the node, `pwrite` leaves the node it returns. -/
def FileVnode.afterCall (heap : Heap) (self : FileVnode) : FileCall → FileVnode
  | .pread _ _ _ => self
  | .pwrite buffer size offset => (self.pwrite heap buffer size offset).2

/-- The node after a sequence of calls. -/
def FileVnode.afterCalls (heap : Heap) (self : FileVnode) : List FileCall → FileVnode
  | [] => self
  | c :: rest => (self.afterCall heap c).afterCalls heap rest

/-! ## The arithmetic of a loadable segment -/

/-- The value `loadAddressAligned = p_paddr & ~0xFFF` of `loadELF`. -/
def Process.segmentBase (ph : ProgramHeader) : Nat :=
  ph.p_paddr - ph.p_paddr % 4096

/-- The value `offset = p_paddr - loadAddressAligned` of `loadELF`. -/
def Process.segmentOffset (ph : ProgramHeader) : Nat :=
  ph.p_paddr - Process.segmentBase ph

/-- The value `size = ALIGNUP(p_memsz + offset, 0x1000)` of `loadELF`, in the
32-bit arithmetic of `size_t`. -/
def Process.segmentSize (ph : ProgramHeader) : Nat :=
  ALIGNUP ((ph.p_memsz + Process.segmentOffset ph) % 4294967296) 4096 % 4294967296

/-- The address `a` lies in the `p_memsz` bytes of the segment at `p_paddr`. -/
def ProgramHeader.holds (ph : ProgramHeader) (a : Nat) : Prop :=
  ph.p_paddr ≤ a ∧ a < ph.p_paddr + ph.p_memsz

/-- A loadable segment that `loadELF` can place: its file part is not longer
than its memory part, the image holds its file part, and the pages it
occupies, from the page of `p_paddr` to the page end after `p_paddr + p_memsz`,
end inside the 32-bit address space. -/
def ProgramHeader.placeable (ph : ProgramHeader) (elf : ElfImage) : Prop :=
  ph.p_filesz ≤ ph.p_memsz ∧ ph.p_offset + ph.p_filesz ≤ elf.bytes.length ∧
    Process.segmentBase ph + ALIGNUP (ph.p_memsz + Process.segmentOffset ph) 4096 < 4294967296

/-- The pages of two segments, `[base, base + size)` each, do not overlap. -/
def ProgramHeader.disjointPages (a b : ProgramHeader) : Prop :=
  Process.segmentBase a + Process.segmentSize a ≤ Process.segmentBase b ∨
    Process.segmentBase b + Process.segmentSize b ≤ Process.segmentBase a

/-- The ELF image of end-to-end scenario 2 of the spec: one `PT_LOAD` header
with `p_offset = 0x1000`, `p_filesz = 0x100`, `p_memsz = 0x200`,
`p_paddr = 0x400000`, entry point `0x400000`, over an image of `0x1100` bytes
that are all `0x5A`. -/
def scenarioImage : ElfImage :=
  { header := { e_entry := 4194304, e_phoff := 52, e_phnum := 1 }
    programHeader := [{ p_type := PT_LOAD, p_offset := 4096, p_paddr := 4194304,
                        p_filesz := 256, p_memsz := 512 }]
    bytes := List.replicate 4352 90 }

/-! ## `exit` and `regfork` (process.cpp) -/

/-- The statement `if (next) next->prev = prev;` of `exit`, for the record `r`
of the exiting process. -/
def Process.unlinkNext (procs : List Process) (r : Process) : Option (List Process) :=
  match r.next with
  | none => some procs
  | some nx =>
    match procs[nx]? with
    | none => none
    | some rn => some (procs.set nx { rn with prev := r.prev })

/-- The statement `if (prev) prev->next = next;` of `exit`, for the record `r`
of the exiting process. -/
def Process.unlinkPrev (procs : List Process) (r : Process) : Option (List Process) :=
  match r.prev with
  | none => some procs
  | some pv =>
    match procs[pv]? with
    | none => none
    | some rp => some (procs.set pv { rp with next := r.next })

/-- The handles `exit` hands to `delete`: the present slots of the descriptor
table, then `rootFd` and `cwdFd`. -/
def Process.ownedDescriptions (r : Process) : List Ptr :=
  r.fd.filterMap id ++ r.rootFd.toList ++ r.cwdFd.toList

/-- The method `Process::exit(status)` of the process `self`. The record of
the process itself and its kernel stack are left as they are. -/
def Process.exit (k : Kernel) (self : Ptr) (status : Int) : Option Kernel :=
  match k.procs[self]? with
  | none => none
  | some r =>
    match Process.unlinkNext k.procs r with
    | none => none
    | some procs1 =>
      match Process.unlinkPrev procs1 r with
      | none => none
      | some procs2 =>
        some { k with procs := procs2
                      firstProcess := if k.firstProcess = some self then r.next
                                      else k.firstProcess
                      freedSpaces := r.addressSpace.toList ++ k.freedSpaces
                      freedDescriptions := Process.ownedDescriptions r ++ k.freedDescriptions
                      log := k.log ++ [(r.pid, status)] }

/-- The register image `struct regfork` passed to `regfork`. -/
structure Regfork where
  rf_eax : Nat
  rf_ebx : Nat
  rf_ecx : Nat
  rf_edx : Nat
  rf_esi : Nat
  rf_edi : Nat
  rf_ebp : Nat
  rf_eip : Nat
  rf_esp : Nat
deriving DecidableEq, Repr

/-- The frame `regfork` writes at the top of the kernel stack of the child. -/
def Process.forkContext (registers : Regfork) : InterruptContext :=
  { eax := registers.rf_eax
    ebx := registers.rf_ebx
    ecx := registers.rf_ecx
    edx := registers.rf_edx
    esi := registers.rf_esi
    edi := registers.rf_edi
    ebp := registers.rf_ebp
    interrupt := 0
    error := 0
    eip := registers.rf_eip
    cs := 27
    eflags := 512
    esp := registers.rf_esp
    ss := 35 }

/-- Modelled from the spec: the copy constructor `FileDescription(const
FileDescription&)`, whose class is declared outside the sources at hand:
"cloning produces a second handle to the same node". The new object is put at
the end of the arena; its address is returned. A null or dangling source is
undefined. -/
def FileDescription.clone (descriptions : List FileDescription) (source : Option Ptr) :
    Option (Ptr × List FileDescription) :=
  match source with
  | none => none
  | some h =>
    match descriptions[h]? with
    | none => none
    | some d => some (descriptions.length, descriptions ++ [d])

/-- The loop of `regfork` over the descriptor table `fd` of the parent, with
`fuel = OPEN_MAX - i` iterations left: the table of the child and the arena of
handles so far, and afterwards. -/
def Process.forkLoop (fd : List (Option Ptr)) :
    Nat → Nat → List (Option Ptr) × List FileDescription →
      Option (List (Option Ptr) × List FileDescription)
  | 0, _, acc => some acc
  | fuel + 1, i, (childFd, descriptions) =>
    match fd[i]? with
    | none => none
    | some none => Process.forkLoop fd fuel (i + 1) (childFd, descriptions)
    | some (some h) =>
      match FileDescription.clone descriptions (some h) with
      | none => none
      | some (h', descriptions1) =>
        Process.forkLoop fd fuel (i + 1) (childFd.set i (some h'), descriptions1)

/-- Modelled from the spec: the method `AddressSpace::fork()` of the
collaborator, "fresh AddressSpace that is a deep duplicate". -/
def AddressSpace.fork (space : AddressSpace) : AddressSpace :=
  { mappings := space.mappings, memory := space.memory }

/-- The part of `regfork` before the call of `addProcess`: the new record,
populated, and the kernel with it. -/
def Process.forkChild (env : Platform) (k : Kernel) (self : Ptr) (registers : Regfork) :
    Option (Ptr × Kernel) :=
  match k.procs[self]? with
  | none => none
  | some parent =>
    match Process.create env k with
    | none => none
    | some (process, k1) =>
      match k1.procs[process]?, k1.spaces[kernelSpace]? with
      | some c, some kspace =>
        let (kernelStack, kspace1) := AddressSpace.mapMemory env kspace 4096 Prot.rw
        let spaces1 := k1.spaces.set kernelSpace kspace1
        match parent.addressSpace with
        | none => none
        | some own =>
          match spaces1[own]? with
          | none => none
          | some space =>
            match Process.forkLoop parent.fd env.openMax 0 (c.fd, k1.descriptions) with
            | none => none
            | some (childFd, descriptions1) =>
              match FileDescription.clone descriptions1 parent.rootFd with
              | none => none
              | some (root, descriptions2) =>
                match FileDescription.clone descriptions2 parent.cwdFd with
                | none => none
                | some (cwd, descriptions3) =>
                  let child : Process :=
                    { c with kernelStack := kernelStack
                             interruptContext := some (Process.forkContext registers)
                             addressSpace := some spaces1.length
                             fd := childFd
                             rootFd := some root
                             cwdFd := some cwd
                             fdInitialized := true }
                  some (process,
                    { k1 with procs := k1.procs.set process child
                              spaces := spaces1 ++ [AddressSpace.fork space]
                              descriptions := descriptions3 })
      | _, _ => none

/-- The method `Process::regfork(flags, registers)` of the process `self`: the
address of the child and the kernel afterwards. -/
def Process.regfork (env : Platform) (k : Kernel) (self : Ptr) (registers : Regfork) :
    Option (Ptr × Kernel) :=
  match Process.forkChild env k self registers with
  | none => none
  | some (process, k1) =>
    match Process.addProcess k1 process with
    | none => none
    | some k2 => some (process, k2)

/-! ## Invariants of the process table -/

/-- P1 for the list `l`: following `next` from `first` gives exactly `l`, no
process occurs twice, the first process has a null `prev`, and every other one
has the process before it as `prev`. -/
structure WellLinked (procs : List Process) (first : Option Ptr) (l : List Ptr) : Prop where
  chain : isChain procs first l = true
  nodup : l.Nodup
  prevs : ∀ i p, l[i]? = some p →
    ∃ r, procs[p]? = some r ∧ r.prev = if i = 0 then none else l[i - 1]?

/-- One operation of the process table on the kernel. With `own` set, `exit`
is called on the current process only. -/
inductive Step (env : Platform) (own : Bool) : Kernel → Kernel → Prop where
  | add (k k1 k2 : Kernel) (p : Ptr) :
      Process.create env k = some (p, k1) → Process.addProcess k1 p = some k2 →
      Step env own k k2
  | fork (k k1 : Kernel) (self child : Ptr) (registers : Regfork) :
      Process.regfork env k self registers = some (child, k1) → Step env own k k1
  | execute (k k1 : Kernel) (self descr : Ptr) (rv : Int) :
      Process.execute env k self descr = some (rv, k1) → Step env own k k1
  | exit (k k1 : Kernel) (p : Ptr) (status : Int) (l : List Ptr) :
      isChain k.procs k.firstProcess l = true → p ∈ l → (own = true → p = k.current) →
      Process.exit k p status = some k1 → Step env own k k1
  | tick (k k1 : Kernel) (context : InterruptContext) (ret : Option InterruptContext) :
      Process.schedule k context = some (ret, k1) → Step env own k k1

/-- The states reached from `Process::initialize`, called when no process
record exists yet and `nextPid` is 0, by the operations of `Step`. -/
inductive Reachable (env : Platform) (own : Bool) : Kernel → Prop where
  | init (kb k0 : Kernel) (rootFd : Option Ptr) :
      kb.procs = [] → kb.nextPid = 0 → Process.initialize env kb rootFd = some k0 →
      Reachable env own k0
  | step (k k1 : Kernel) : Reachable env own k → Step env own k k1 → Reachable env own k1

/-- The current process has left the list through `exit` and not been
switched away from yet: it is neither on the list `l` nor the idle process,
and its `next` is null or on the list. -/
def Kernel.currentExited (k : Kernel) (l : List Ptr) : Prop :=
  k.current ∉ l ∧ k.current ≠ k.idleProcess ∧
    ∃ r, k.procs[k.current]? = some r ∧ (r.next = none ∨ ∃ q ∈ l, r.next = some q)

/-- The links and the pid of a record: what `schedule` and `execute` never
assign to. -/
def Process.core (r : Process) : Option Ptr × Option Ptr × Nat :=
  (r.next, r.prev, r.pid)

/-- The state of the process table is sound for the list `l`: P1 holds for
`l`, the idle process exists, has a null `next` and is not on the list, and
every pid is below `nextPid` and belongs to one record only. -/
structure Kernel.Sound (k : Kernel) (l : List Ptr) : Prop where
  linked : WellLinked k.procs k.firstProcess l
  idle : ∃ ri, k.procs[k.idleProcess]? = some ri ∧ ri.next = none
  idleOff : k.idleProcess ∉ l
  pidBound : ∀ (q : Ptr) (r : Process), k.procs[q]? = some r → r.pid < k.nextPid
  pidInj : ∀ (q q' : Ptr) (r r' : Process), k.procs[q]? = some r → k.procs[q']? = some r' →
    r.pid = r'.pid → q = q'

/-- P2 for the list `l`, with the one exception the code makes: the current
process is the idle process, or on the list, or has just left the list through
`exit`. -/
def Kernel.currentPlaced (k : Kernel) (l : List Ptr) : Prop :=
  k.current = k.idleProcess ∨ k.current ∈ l ∨ k.currentExited l

/-- The check of `prev` along a list: the first process has `expected` as
`prev`, every other one the process before it. -/
def linkedPrevs (procs : List Process) : Option Ptr → List Ptr → Bool
  | _, [] => true
  | expected, p :: rest =>
    match procs[p]? with
    | none => false
    | some r => r.prev == expected && linkedPrevs procs (some p) rest

/-- The sample kernel with the processes 1, 2, 3 added in that order: the list
is 3, 2, 1. -/
def linkedKernel : Kernel :=
  (Process.addAll [1, 2, 3] sampleKernel).getD sampleKernel

/-- The kernel of the scenario before `Process::initialize`: one regular file
and one handle to it. -/
def scenarioBoot : Kernel :=
  Kernel.boot [Vnode.file ⟨[127, 69, 76, 70], 4⟩] [⟨1⟩]

/-- The scenario after `Process::initialize`: the idle process alone. -/
def scenarioInit : Kernel :=
  Option.getD ( Process.initialize samplePlatform scenarioBoot (some 0)) scenarioBoot

/-- The scenario after `new Process()`: the record 1 exists. -/
def scenarioCreated : Kernel :=
  ((Process.create samplePlatform scenarioInit).map Prod.snd).getD scenarioInit

/-- The scenario after `addProcess` of the process 1. -/
def scenarioAdded : Kernel :=
  (Process.addProcess scenarioCreated 1).getD scenarioCreated

/-- The scenario after the process 1 has executed the image of the handle 0. -/
def scenarioExecuted : Kernel :=
  ((Process.execute samplePlatform scenarioAdded 1 0).map Prod.snd).getD scenarioAdded

/-- The scenario after the first tick: the process 1 is running. -/
def scenarioTicked : Kernel :=
  ((Process.schedule scenarioExecuted (sampleFrames 0)).map Prod.snd).getD scenarioExecuted

/-- The scenario after the running process 1 has called `exit(0)`. -/
def scenarioExited : Kernel :=
  (Process.exit scenarioTicked 1 0).getD scenarioTicked

/-- The scenario after the running process 1 has called `regfork` instead. -/
def scenarioForked : Kernel :=
  ((Process.regfork samplePlatform scenarioTicked 1 ⟨1, 2, 3, 4, 5, 6, 7, 8, 9⟩).map
    Prod.snd).getD scenarioTicked

/-- The record of the running process 1 of the scenario, before it forks. -/
def scenarioParent : Process :=
  scenarioTicked.procs.getD 1 (Process.sample 1 1 none)
/-! ## Facts about the file vnode -/

theorem two_pow_le_of_narrow (offBits : Nat) (h : offBits ≤ 32) :
    OFF_MAX offBits < 4294967296 := by
  have h1 : (2 : Int) ^ (offBits - 1) ≤ 2 ^ 31 :=
    pow_le_pow_right₀ (by norm_num) (by omega)
  have h2 : (2 : Int) ^ 31 = 2147483648 := by norm_num
  unfold OFF_MAX
  omega

theorem two_pow_ge_of_wide (offBits : Nat) (h : ¬ offBits ≤ 32) :
    4294967295 ≤ OFF_MAX offBits := by
  have h1 : (2 : Int) ^ 32 ≤ 2 ^ (offBits - 1) :=
    pow_le_pow_right₀ (by norm_num) (by omega)
  have h2 : (2 : Int) ^ 32 = 4294967296 := by norm_num
  unfold OFF_MAX
  omega

theorem offsetPlus_zero (offBits : Nat) (o : Nat) (hmax : (o : Int) ≤ OFF_MAX offBits) :
    offsetPlus offBits (o : Int) 0 = some (o : Int) := by
  unfold offsetPlus
  by_cases hb : offBits ≤ 32
  · have := two_pow_le_of_narrow offBits hb
    simp only [hb, if_true, Nat.cast_zero, add_zero]
    congr 1
    omega
  · simp [hb, hmax]

theorem offsetPlus_small (offBits : Nat) (o i : Nat) (h : o + i < 4294967296) :
    offsetPlus offBits (o : Int) i = some ((o + i : Nat) : Int) := by
  unfold offsetPlus
  by_cases hb : offBits ≤ 32
  · simp only [hb, if_true]
    congr 1
    omega
  · have := two_pow_ge_of_wide offBits hb
    have h3 : (o : Int) + (i : Int) ≤ OFF_MAX offBits := by omega
    simp [hb, h3]

theorem preadLoop_inside (offBits : Nat) (f : FileVnode) (size o : Nat)
    (hwf : f.data.length = f.fileSize) (hfs : f.fileSize ≤ SIZE_MAX ∨ o + size ≤ SIZE_MAX) :
    ∀ (fuel i : Nat) (buf : List Byte), i + fuel = size → o + i ≤ f.fileSize →
      size ≤ buf.length →
      ∃ buf', f.preadLoop offBits size (o : Int) fuel i buf
          = some (min size (f.fileSize - o), buf') ∧
        buf'.length = buf.length ∧
        ∀ j, buf'[j]? = if i ≤ j ∧ j < min size (f.fileSize - o) then f.data[o + j]? else buf[j]? := by
  intro fuel
  induction fuel with
  | zero =>
    intro i buf hi ho _
    refine ⟨buf, ?_, rfl, ?_⟩
    · simp only [FileVnode.preadLoop]
      congr 2
      omega
    · intro j
      have : ¬ (i ≤ j ∧ j < min size (f.fileSize - o)) := by omega
      rw [if_neg this]
  | succ fuel ih =>
    intro i buf hi ho hb
    have hsm : o + i < 4294967296 := by unfold SIZE_MAX at hfs; omega
    simp only [FileVnode.preadLoop, offsetPlus_small offBits o i hsm]
    by_cases hge : ((o + i : Nat) : Int) ≥ (f.fileSize : Int)
    · have heq : o + i = f.fileSize := by omega
      refine ⟨buf, ?_, rfl, ?_⟩
      · simp only [hge, if_true]
        congr 2
        omega
      · intro j
        have : ¬ (i ≤ j ∧ j < min size (f.fileSize - o)) := by omega
        rw [if_neg this]
    · have hlt : o + i < f.data.length := by omega
      have hnn : ¬ (((o + i : Nat) : Int) < 0) := by omega
      have hib : i < buf.length := by omega
      simp only [hge, if_false, hnn, Int.toNat_ofNat, List.getElem?_eq_getElem hlt, hib, if_true]
      obtain ⟨buf', h1, h2, h3⟩ := ih (i + 1) (buf.set i (f.data[o + i])) (by omega) (by omega)
        (by simpa using hb)
      refine ⟨buf', h1, by simpa using h2, ?_⟩
      intro j
      rw [h3 j, List.getElem?_set]
      by_cases hj : i = j
      · subst hj
        have c1 : ¬ (i + 1 ≤ i ∧ i < min size (f.fileSize - o)) := by omega
        have c2 : i ≤ i ∧ i < min size (f.fileSize - o) := by omega
        rw [if_neg c1, if_pos c2]
        simp [hib, List.getElem?_eq_getElem hlt]
      · by_cases c : i ≤ j ∧ j < min size (f.fileSize - o)
        · have c1 : i + 1 ≤ j ∧ j < min size (f.fileSize - o) := by omega
          rw [if_pos c, if_pos c1]
        · have c1 : ¬ (i + 1 ≤ j ∧ j < min size (f.fileSize - o)) := by omega
          rw [if_neg c, if_neg c1]
          simp [hj]

theorem toSsize_of_le (n : Nat) (h : n ≤ SSIZE_MAX) : toSsize n = (n : Int) := by
  unfold SSIZE_MAX at h
  unfold toSsize
  omega

/-- What the loop of `pread` hands to `return` for a non-negative offset: the
clamped count and the buffer with its first bytes replaced by the file
contents at the offset. -/
theorem preadLoop_eq (offBits : Nat) (f : FileVnode) (buffer : List Byte) (size o : Nat)
    (hwf : f.data.length = f.fileSize) (hfs : f.fileSize ≤ SIZE_MAX ∨ o + size ≤ SIZE_MAX)
    (hmax : o ≤ f.fileSize ∨ (o : Int) ≤ OFF_MAX offBits) (hbuf : size ≤ buffer.length) :
    f.preadLoop offBits size (o : Int) size 0 buffer
      = some (min size (f.fileSize - o),
          (f.data.drop o).take (min size (f.fileSize - o))
            ++ buffer.drop (min size (f.fileSize - o))) := by
  by_cases hin : o ≤ f.fileSize
  · obtain ⟨buf', h1, h2, h3⟩ :=
      preadLoop_inside offBits f size o hwf hfs size 0 buffer (by omega) (by omega) hbuf
    rw [h1]
    congr 2
    apply List.ext_getElem?
    intro j
    rw [h3 j, List.getElem?_append, List.getElem?_take, List.getElem?_drop, List.getElem?_drop]
    have hl : ((f.data.drop o).take (min size (f.fileSize - o))).length
        = min size (f.fileSize - o) := by
      simp [List.length_take, List.length_drop, hwf]
    rw [hl]
    by_cases c : j < min size (f.fileSize - o)
    · have c2 : 0 ≤ j ∧ j < min size (f.fileSize - o) := ⟨Nat.zero_le _, c⟩
      rw [if_pos c2, if_pos c, if_pos c]
    · have c2 : ¬ (0 ≤ j ∧ j < min size (f.fileSize - o)) := fun h => c h.2
      rw [if_neg c2, if_neg c]
      congr 1
      omega
  · have hz : f.fileSize - o = 0 := by omega
    rw [hz]
    cases size with
    | zero => simp [FileVnode.preadLoop]
    | succ n =>
      have hge : (o : Int) ≥ (f.fileSize : Int) := by omega
      have hmax2 : (o : Int) ≤ OFF_MAX offBits := by
        rcases hmax with h | h
        · exact absurd h hin
        · exact h
      simp [FileVnode.preadLoop, offsetPlus_zero offBits o hmax2, hge]

/-- What `pread` returns for a non-negative offset: the clamped count as an
`ssize_t` and the buffer with its first bytes replaced by the file contents at
the offset. -/
theorem pread_eq (offBits : Nat) (f : FileVnode) (buffer : List Byte) (size o : Nat)
    (hwf : f.data.length = f.fileSize) (hfs : f.fileSize ≤ SIZE_MAX ∨ o + size ≤ SIZE_MAX)
    (hmax : o ≤ f.fileSize ∨ (o : Int) ≤ OFF_MAX offBits) (hbuf : size ≤ buffer.length) :
    f.pread offBits buffer size (o : Int)
      = some (toSsize (min size (f.fileSize - o)),
          (f.data.drop o).take (min size (f.fileSize - o))
            ++ buffer.drop (min size (f.fileSize - o))) := by
  unfold FileVnode.pread
  rw [preadLoop_eq offBits f buffer size o hwf hfs hmax hbuf]

theorem memcpy_length (dst src : List Byte) (off n : Nat) (h : off + n ≤ dst.length)
    (hs : n ≤ src.length) : (memcpy dst off src n).length = dst.length := by
  simp only [memcpy, List.length_append, List.length_take, List.length_drop]
  omega

theorem memcpy_getElem? (dst src : List Byte) (off n : Nat) (h : off + n ≤ dst.length)
    (hs : n ≤ src.length) (p : Nat) :
    (memcpy dst off src n)[p]? = if off ≤ p ∧ p < off + n then src[p - off]? else dst[p]? := by
  have hl1 : (dst.take off).length = off := by rw [List.length_take]; omega
  have hl2 : (src.take n).length = n := by rw [List.length_take]; omega
  unfold memcpy
  rw [List.append_assoc, List.getElem?_append, hl1]
  by_cases c1 : p < off
  · have c2 : ¬ (off ≤ p ∧ p < off + n) := by omega
    rw [if_pos c1, if_neg c2, List.getElem?_take, if_pos c1]
  · rw [if_neg c1, List.getElem?_append, hl2]
    by_cases c3 : p - off < n
    · have c2 : off ≤ p ∧ p < off + n := by omega
      rw [if_pos c3, if_pos c2, List.getElem?_take, if_pos c3]
    · have c2 : ¬ (off ≤ p ∧ p < off + n) := by omega
      rw [if_neg c3, if_neg c2, List.getElem?_drop]
      congr 1
      omega

theorem grow_length (junk : Nat → Byte) (data : List Byte) (n : Nat) (h : data.length ≤ n) :
    (data.take n ++ (List.range (n - data.length)).map (fun j => junk (data.length + j))).length
      = n := by
  simp only [List.length_append, List.length_take, List.length_map, List.length_range]
  omega

theorem grow_getElem? (junk : Nat → Byte) (data : List Byte) (n : Nat) (h : data.length ≤ n)
    (p : Nat) :
    (data.take n ++ (List.range (n - data.length)).map (fun j => junk (data.length + j)))[p]?
      = if p < data.length then data[p]? else if p < n then some (junk p) else none := by
  rw [List.take_of_length_le h, List.getElem?_append]
  by_cases c1 : p < data.length
  · rw [if_pos c1, if_pos c1]
  · rw [if_neg c1, if_neg c1, List.getElem?_map]
    by_cases c2 : p < n
    · have c3 : p - data.length < n - data.length := by omega
      rw [if_pos c2, List.getElem?_range c3]
      simp only [Option.map_some']
      congr 2
      omega
    · rw [if_neg c2, List.getElem?_eq_none (by simp; omega)]
      rfl

theorem pwrite_fst (heap : Heap) (f : FileVnode) (buffer : List Byte) (size : Nat)
    (offset : Int) :
    (f.pwrite heap buffer size offset).1 =
      if offset < 0 then .error .EINVAL
      else if offset.toNat + size > SIZE_MAX then .error .ENOSPC
      else if offset.toNat + size > f.fileSize ∧ heap.avail (offset.toNat + size) = false
        then .error .ENOSPC
      else .ok (toSsize size) := by
  unfold FileVnode.pwrite realloc
  by_cases h1 : offset < 0
  · simp [h1]
  · by_cases h2 : offset.toNat + size > SIZE_MAX
    · simp [h1, h2]
    · by_cases h3 : offset.toNat + size > f.fileSize
      · cases h4 : heap.avail (offset.toNat + size) <;> simp [h1, h2, h3, h4]
      · simp [h1, h2, h3]

theorem pwrite_snd_of_error (heap : Heap) (f : FileVnode) (buffer : List Byte) (size : Nat)
    (offset : Int) (e : Errno) (h : (f.pwrite heap buffer size offset).1 = .error e) :
    (f.pwrite heap buffer size offset).2 = f := by
  unfold FileVnode.pwrite realloc at h ⊢
  by_cases h1 : offset < 0
  · simp [h1]
  · by_cases h2 : offset.toNat + size > SIZE_MAX
    · simp [h1, h2]
    · by_cases h3 : offset.toNat + size > f.fileSize
      · cases h4 : heap.avail (offset.toNat + size)
        · simp [h1, h2, h3, h4]
        · simp [h1, h2, h3, h4] at h
      · simp [h1, h2, h3] at h

/-- The node after a successful `pwrite` at offset `o`, byte by byte. -/
theorem pwrite_ok_data (heap : Heap) (f : FileVnode) (B : List Byte) (size o : Nat) (n : Int)
    (hwf : f.data.length = f.fileSize) (hsz : size ≤ B.length)
    (hok : (f.pwrite heap B size (o : Int)).1 = .ok n) :
    (f.pwrite heap B size (o : Int)).2.fileSize = max f.fileSize (o + size) ∧
    (f.pwrite heap B size (o : Int)).2.data.length = max f.fileSize (o + size) ∧
    o + size ≤ SIZE_MAX ∧
    ∀ p, (f.pwrite heap B size (o : Int)).2.data[p]? =
      if o ≤ p ∧ p < o + size then B[p - o]?
      else if p < f.fileSize then f.data[p]?
      else if p < o + size then some (heap.junk p)
      else none := by
  have hfst := pwrite_fst heap f B size (o : Int)
  rw [hok] at hfst
  have h1 : ¬ ((o : Int) < 0) := by omega
  simp only [h1, if_false, Int.toNat_ofNat] at hfst
  by_cases h2 : o + size > SIZE_MAX
  · simp [h2] at hfst
  · simp only [h2, if_false] at hfst
    unfold FileVnode.pwrite realloc
    simp only [h1, if_false, Int.toNat_ofNat, h2]
    by_cases h3 : o + size > f.fileSize
    · have h4 : heap.avail (o + size) = true := by
        cases h4 : heap.avail (o + size)
        · simp [h3, h4] at hfst
        · rfl
      have hle : f.data.length ≤ o + size := by omega
      have hgl := grow_length heap.junk f.data (o + size) hle
      simp only [h3, if_true, h4]
      refine ⟨by omega, ?_, by omega, ?_⟩
      · rw [memcpy_length _ _ _ _ (by omega) hsz, hgl]
        omega
      · intro p
        rw [memcpy_getElem? _ _ _ _ (by omega) hsz, grow_getElem? heap.junk f.data (o + size) hle,
          hwf]
    · simp only [h3, if_false]
      refine ⟨by omega, ?_, by omega, ?_⟩
      · rw [memcpy_length _ _ _ _ (by omega) hsz]
        omega
      · intro p
        rw [memcpy_getElem? _ _ _ _ (by omega) hsz]
        by_cases c : o ≤ p ∧ p < o + size
        · rw [if_pos c, if_pos c]
        · rw [if_neg c, if_neg c]
          by_cases c2 : p < f.fileSize
          · rw [if_pos c2]
          · have c3 : ¬ (p < o + size) := by omega
            rw [if_neg c2, if_neg c3, List.getElem?_eq_none (by omega)]

theorem pwriteAll_inv (heap : Heap) :
    ∀ (ws : List (Int × List Byte)) (f g : FileVnode),
      f.data.length = f.fileSize → f.fileSize ≤ SIZE_MAX → f.pwriteAll heap ws = some g →
      ws.Pairwise disjointWrites →
      g.data.length = g.fileSize ∧ g.fileSize ≤ SIZE_MAX ∧ f.fileSize ≤ g.fileSize ∧
      (∀ w ∈ ws, 0 ≤ w.1 ∧ w.1.toNat + w.2.length ≤ g.fileSize ∧
          ∀ j, j < w.2.length → g.data[w.1.toNat + j]? = w.2[j]?) ∧
      (∀ p, (∀ w ∈ ws, ¬ covers w p) →
          g.data[p]? = if p < f.fileSize then f.data[p]?
            else if p < g.fileSize then some (heap.junk p) else none) := by
  intro ws
  induction ws with
  | nil =>
    intro f g hwf hfs hrun _
    simp only [FileVnode.pwriteAll, Option.some.injEq] at hrun
    subst hrun
    refine ⟨hwf, hfs, le_refl _, by simp, ?_⟩
    intro p _
    by_cases c : p < f.fileSize
    · rw [if_pos c]
    · rw [if_neg c, if_neg c, List.getElem?_eq_none (by omega)]
  | cons w rest ih =>
    intro f g hwf hfs hrun hdis
    rw [List.pairwise_cons] at hdis
    obtain ⟨hdw, hdrest⟩ := hdis
    unfold FileVnode.pwriteAll at hrun
    have hfst := pwrite_fst heap f w.2 w.2.length w.1
    by_cases hneg : w.1 < 0
    · rw [if_pos hneg] at hfst
      generalize hq : f.pwrite heap w.2 w.2.length w.1 = q at hrun hfst
      obtain ⟨r, f1⟩ := q
      simp only at hfst
      subst hfst
      simp at hrun
    · obtain ⟨o, ho⟩ : ∃ o : Nat, w.1 = (o : Int) := ⟨w.1.toNat, by omega⟩
      generalize hq : f.pwrite heap w.2 w.2.length w.1 = q at hrun
      obtain ⟨r, f1⟩ := q
      cases r with
      | error e => simp at hrun
      | ok n =>
        simp only at hrun
        have hok : (f.pwrite heap w.2 w.2.length (o : Int)).1 = .ok n := by
          rw [← ho, hq]
        have hf1 : (f.pwrite heap w.2 w.2.length (o : Int)).2 = f1 := by
          rw [← ho, hq]
        obtain ⟨d1, d2, d3, d4⟩ := pwrite_ok_data heap f w.2 w.2.length o n hwf (le_refl _) hok
        rw [hf1] at d1 d2 d4
        obtain ⟨i1, i0, i2, i3, i4⟩ := ih f1 g (by omega) (by omega) hrun hdrest
        have hto : w.1.toNat = o := by omega
        refine ⟨i1, i0, by omega, ?_, ?_⟩
        · intro w' hw'
          rcases List.mem_cons.mp hw' with h | h
          · subst h
            refine ⟨by omega, by omega, ?_⟩
            intro j hj
            have hunc : ∀ v ∈ rest, ¬ covers v (o + j) := by
              intro v hv hc
              have := hdw v hv
              unfold disjointWrites at this
              unfold covers at hc
              omega
            have c1 : o + j < f1.fileSize := by omega
            have c2 : o ≤ o + j ∧ o + j < o + w'.2.length := by omega
            rw [hto, i4 (o + j) hunc, if_pos c1, d4 (o + j), if_pos c2]
            congr 1
            omega
          · exact i3 w' h
        · intro p hp
          have hp1 : ¬ (o ≤ p ∧ p < o + w.2.length) := by
            have := hp w (List.mem_cons_self _ _)
            unfold covers at this
            omega
          have hp2 : ∀ v ∈ rest, ¬ covers v p := fun v hv => hp v (List.mem_cons_of_mem _ hv)
          rw [i4 p hp2, d4 p, if_neg hp1]
          by_cases c1 : p < f.fileSize
          · have c2 : p < f1.fileSize := by omega
            rw [if_pos c1, if_pos c2, if_pos c1]
          · rw [if_neg c1, if_neg c1]
            by_cases c3 : p < o + w.2.length
            · have c2 : p < f1.fileSize := by omega
              have c4 : p < g.fileSize := by omega
              rw [if_pos c2, if_pos c3, if_pos c4]
            · have c2 : ¬ p < f1.fileSize := by omega
              rw [if_neg c2]

/-! ## Claims about the file vnode -/

/-- C1: on the target, where `off_t` is wider than the 32 bits of `size_t`,
and for a node whose `fileSize` is a `size_t` value, `pwrite(buffer, size,
offset)` fails with `EINVAL` exactly when `offset < 0`; it fails with `ENOSPC`
exactly when `offset ≥ 0` and either `offset + size` overflows `off_t` or the
storage cannot be grown to `offset + size` (growth is needed, and the new
length is no `size_t` value that `realloc` could be asked for, or the
allocator refuses it); in every other case it returns `size` as an `ssize_t`,
which is the number `size` whenever `size ≤ SSIZE_MAX`. -/
theorem pwrite_result_cases (offBits : Nat) (heap : Heap) (f : FileVnode)
    (buffer : List Byte) (size : Nat) (offset : Int)
    (hwide : 32 < offBits) (hfs : f.fileSize ≤ SIZE_MAX) :
    ((f.pwrite heap buffer size offset).1 = .error .EINVAL ↔ offset < 0) ∧
    ((f.pwrite heap buffer size offset).1 = .error .ENOSPC ↔
      0 ≤ offset ∧ (offset + (size : Int) > OFF_MAX offBits ∨
        ((f.fileSize : Int) < offset + (size : Int) ∧
          (offset + (size : Int) > (SIZE_MAX : Int) ∨
            heap.avail (offset.toNat + size) = false)))) ∧
    ((f.pwrite heap buffer size offset).1 ≠ .error .EINVAL →
      (f.pwrite heap buffer size offset).1 ≠ .error .ENOSPC →
      (f.pwrite heap buffer size offset).1 = .ok (toSsize size) ∧
      (size ≤ SSIZE_MAX → (f.pwrite heap buffer size offset).1 = .ok (size : Int))) := by
  have hge := two_pow_ge_of_wide offBits (by omega)
  unfold SIZE_MAX at hfs
  rw [pwrite_fst]
  by_cases h1 : offset < 0
  · simp only [if_pos h1]
    refine ⟨by simp [h1], ?_, fun h => absurd rfl h⟩
    constructor
    · intro h; cases h
    · intro h; omega
  · simp only [if_neg h1]
    by_cases h2 : offset.toNat + size > SIZE_MAX
    · simp only [if_pos h2]
      refine ⟨by simp [h1], ?_, fun _ h => absurd rfl h⟩
      constructor
      · intro _
        unfold SIZE_MAX at h2 ⊢
        exact ⟨by omega, Or.inr ⟨by omega, Or.inl (by omega)⟩⟩
      · intro _; trivial
    · simp only [if_neg h2]
      by_cases h3 : offset.toNat + size > f.fileSize ∧ heap.avail (offset.toNat + size) = false
      · simp only [if_pos h3]
        refine ⟨by simp [h1], ?_, fun _ h => absurd rfl h⟩
        constructor
        · intro _
          exact ⟨by omega, Or.inr ⟨by omega, Or.inr h3.2⟩⟩
        · intro _; trivial
      · simp only [if_neg h3]
        refine ⟨by simp [h1], ?_, fun _ _ => ⟨trivial, fun hs => by rw [toSsize_of_le size hs]⟩⟩
        constructor
        · intro h; cases h
        · unfold SIZE_MAX at h2 ⊢
          rintro ⟨_, h | ⟨h, h' | h'⟩⟩
          · omega
          · omega
          · exact absurd ⟨by omega, h'⟩ h3

/-- C1 (witness): with a 64-bit `off_t`, on a node of 2 bytes: a write of 2
bytes at offset 3 returns 2, a write at offset `-1` fails with `EINVAL`, and a
write of 4 bytes at `OFF_MAX - 2` fails with `ENOSPC`. -/
theorem pwrite_result_cases_witness :
    (FileVnode.pwrite staleHeap ⟨[1, 2], 2⟩ [7, 8] 2 3).1 = .ok 2 ∧
    (FileVnode.pwrite staleHeap ⟨[1, 2], 2⟩ [7, 8] 2 (-1)).1 = .error .EINVAL ∧
    (FileVnode.pwrite staleHeap ⟨[1, 2], 2⟩ [7, 8, 9, 10] 4 (OFF_MAX 64 - 2)).1
      = .error .ENOSPC :=
  ⟨((pwrite_result_cases 64 staleHeap ⟨[1, 2], 2⟩ [7, 8] 2 3 (by decide) (by decide)).2.2
      (by decide) (by decide)).2 (by decide),
    (pwrite_result_cases 64 staleHeap ⟨[1, 2], 2⟩ [7, 8] 2 (-1) (by decide)
      (by decide)).1.mpr (by decide),
    (pwrite_result_cases 64 staleHeap ⟨[1, 2], 2⟩ [7, 8, 9, 10] 4 (OFF_MAX 64 - 2) (by decide)
      (by decide)).2.1.mpr ⟨by unfold OFF_MAX; norm_num, Or.inl (by unfold OFF_MAX; norm_num)⟩⟩

/-- C2: for a node whose storage has length `fileSize` and an offset
`0 ≤ offset ≤ OFF_MAX`, `pread(buffer, size, offset)` copies
`n = min(size, max(0, fileSize - offset))` bytes and returns `n` as an
`ssize_t`, which is the number `n` whenever `n ≤ SSIZE_MAX`, as it is when the
buffer and the storage are two objects of the 32-bit address space; the first
`n` bytes of the buffer are `data[offset .. offset + n)`, the bytes from index
`n` on are untouched, and `n = 0` whenever `offset ≥ fileSize`. -/
theorem pread_clamped (offBits : Nat) (f : FileVnode) (buffer : List Byte) (size : Nat)
    (offset : Int) (hwf : f.data.length = f.fileSize) (hfs : f.fileSize ≤ SIZE_MAX)
    (h0 : 0 ≤ offset) (hmax : offset ≤ OFF_MAX offBits) (hbuf : size ≤ buffer.length) :
    ∃ (n : Nat) (buf' : List Byte),
      f.pread offBits buffer size offset = some (toSsize n, buf') ∧
      (n : Int) = min (size : Int) (max 0 ((f.fileSize : Int) - offset)) ∧
      (n ≤ SSIZE_MAX → f.pread offBits buffer size offset = some ((n : Int), buf')) ∧
      (buffer.length + f.data.length ≤ SIZE_MAX → n ≤ SSIZE_MAX) ∧
      buf'.take n = (f.data.drop offset.toNat).take n ∧
      ((f.data.drop offset.toNat).take n).length = n ∧
      buf'.drop n = buffer.drop n ∧
      buf'.length = buffer.length ∧
      ((f.fileSize : Int) ≤ offset → n = 0) := by
  obtain ⟨o, rfl⟩ : ∃ o : Nat, offset = (o : Int) := ⟨offset.toNat, by omega⟩
  have hlen : ((f.data.drop o).take (min size (f.fileSize - o))).length
      = min size (f.fileSize - o) := by
    rw [List.length_take, List.length_drop, hwf]
    omega
  have hrd := pread_eq offBits f buffer size o hwf (Or.inl hfs) (Or.inr hmax) hbuf
  refine ⟨min size (f.fileSize - o), _, hrd, by omega, ?_, ?_, ?_, ?_, ?_, ?_, ?_⟩
  · intro hn
    rw [hrd, toSsize_of_le _ hn]
  · intro hroom
    unfold SIZE_MAX at hroom
    unfold SSIZE_MAX
    omega
  · rw [Int.toNat_ofNat, List.take_append_of_le_length (by omega), List.take_take, min_self]
  · rw [Int.toNat_ofNat]
    exact hlen
  · rw [List.drop_append_of_le_length (by omega), List.drop_of_length_le (by omega),
      List.nil_append]
  · rw [List.length_append, hlen, List.length_drop]
    omega
  · intro h
    omega

/-- C2 (witness): reading 4 bytes at offset 3 of a 5-byte node returns 2. -/
theorem pread_clamped_witness :
    ∃ (n : Nat) (buf' : List Byte),
      FileVnode.pread 64 ⟨[10, 20, 30, 40, 50], 5⟩ [1, 2, 3, 4] 4 3 = some (toSsize n, buf') ∧
      (n : Int) = min ((4 : Nat) : Int) (max 0 (((5 : Nat) : Int) - 3)) ∧
      (n ≤ SSIZE_MAX →
        FileVnode.pread 64 ⟨[10, 20, 30, 40, 50], 5⟩ [1, 2, 3, 4] 4 3 = some ((n : Int), buf')) ∧
      (([1, 2, 3, 4] : List Byte).length + ([10, 20, 30, 40, 50] : List Byte).length ≤ SIZE_MAX →
        n ≤ SSIZE_MAX) ∧
      buf'.take n = (([10, 20, 30, 40, 50] : List Byte).drop (3 : Int).toNat).take n ∧
      ((([10, 20, 30, 40, 50] : List Byte).drop (3 : Int).toNat).take n).length = n ∧
      buf'.drop n = ([1, 2, 3, 4] : List Byte).drop n ∧
      buf'.length = ([1, 2, 3, 4] : List Byte).length ∧
      ((((5 : Nat) : Int)) ≤ 3 → n = 0) :=
  pread_clamped 64 ⟨[10, 20, 30, 40, 50], 5⟩ [1, 2, 3, 4] 4 3 (by decide) (by decide)
    (by decide) (by unfold OFF_MAX; norm_num) (by decide)

/-- C3: write/read round trip. If `pwrite(B, len(B), offset)` with
`offset ≥ 0` does not fail on a node whose storage has length `fileSize`, an
immediately following `pread(buf, len(B), offset)` copies `len(B)` bytes,
returns `len(B)` as an `ssize_t`, which is the number `len(B)` whenever
`len(B) ≤ SSIZE_MAX`, as it is when `B` and the storage written are two
objects of the 32-bit address space, and leaves the first `len(B)` bytes of
`buf` equal to `B` (the rest untouched). -/
theorem pwrite_pread_roundtrip (offBits : Nat) (heap : Heap) (f : FileVnode)
    (B buf : List Byte) (offset : Int) (n : Int)
    (hwf : f.data.length = f.fileSize) (h0 : 0 ≤ offset)
    (hok : (f.pwrite heap B B.length offset).1 = .ok n) (hbuf : B.length ≤ buf.length) :
    (f.pwrite heap B B.length offset).2.pread offBits buf B.length offset
      = some (toSsize B.length, B ++ buf.drop B.length) ∧
    (B.length ≤ SSIZE_MAX →
      (f.pwrite heap B B.length offset).2.pread offBits buf B.length offset
        = some ((B.length : Int), B ++ buf.drop B.length)) ∧
    (B.length + (f.pwrite heap B B.length offset).2.data.length ≤ SIZE_MAX →
      B.length ≤ SSIZE_MAX) := by
  obtain ⟨o, rfl⟩ : ∃ o : Nat, offset = (o : Int) := ⟨offset.toNat, by omega⟩
  obtain ⟨d1, d2, d3, d4⟩ := pwrite_ok_data heap f B B.length o n hwf (le_refl _) hok
  have hrd := pread_eq offBits (f.pwrite heap B B.length (o : Int)).2 buf B.length o
    (by omega) (Or.inr d3) (Or.inl (by omega)) hbuf
  have hmin : min B.length ((f.pwrite heap B B.length (o : Int)).2.fileSize - o) = B.length := by
    omega
  rw [hmin] at hrd
  have hB : List.take B.length (List.drop o (f.pwrite heap B B.length (o : Int)).2.data) = B := by
    apply List.ext_getElem?
    intro j
    rw [List.getElem?_take, List.getElem?_drop, d4 (o + j)]
    by_cases c : j < B.length
    · have c2 : o ≤ o + j ∧ o + j < o + B.length := by omega
      rw [if_pos c, if_pos c2]
      congr 1
      omega
    · rw [if_neg c, List.getElem?_eq_none (by omega)]
  rw [hB] at hrd
  refine ⟨hrd, ?_, ?_⟩
  · intro hn
    rw [hrd, toSsize_of_le _ hn]
  · intro hroom
    rw [d2] at hroom
    unfold SIZE_MAX at hroom
    unfold SSIZE_MAX
    omega

/-- C3 (witness): writing `abc` at offset 2 of a 4-byte node and reading it
back. -/
theorem pwrite_pread_roundtrip_witness :
    (FileVnode.pwrite zeroedHeap ⟨[1, 2, 3, 4], 4⟩ [97, 98, 99] 3 2).1 = .ok 3 ∧
    (FileVnode.pwrite zeroedHeap ⟨[1, 2, 3, 4], 4⟩ [97, 98, 99] 3 2).2.pread 64
        [0, 0, 0, 0] 3 2
      = some (3, [97, 98, 99] ++ ([0, 0, 0, 0] : List Byte).drop 3) :=
  ⟨by decide,
    (pwrite_pread_roundtrip 64 zeroedHeap ⟨[1, 2, 3, 4], 4⟩ [97, 98, 99] [0, 0, 0, 0] 2 3
      (by decide) (by decide) (by decide) (by decide)).2.1 (by decide)⟩

/-- C4 (counterexample): `pwrite` does not clear the storage it grows. On an
allocator whose fresh storage holds `0xAA`, a node created with size 0 and
written with `pwrite("abc", 3, 5)` (which returns 3) reads back, with
`pread(buf, 10, 0)`, 8 bytes whose first five are `0xAA`, not zero. -/
theorem pwrite_gap_not_zeroed :
    FileVnode.create staleHeap [] 0 = some ⟨[], 0⟩ ∧
    (FileVnode.pwrite staleHeap ⟨[], 0⟩ [97, 98, 99] 3 5).1 = .ok 3 ∧
    (FileVnode.pwrite staleHeap ⟨[], 0⟩ [97, 98, 99] 3 5).2.pread 64
        [0, 0, 0, 0, 0, 0, 0, 0, 0, 0] 10 0
      = some (8, [170, 170, 170, 170, 170, 97, 98, 99, 0, 0]) ∧
    ([170, 170, 170, 170, 170, 97, 98, 99, 0, 0] : List Byte).take 8
      ≠ [0, 0, 0, 0, 0, 97, 98, 99] := by
  decide

/-- C4 (amended): for a node created with initial size 0 and any sequence of
successful, pairwise non-overlapping `pwrite` calls, `pread` of
`[0, fileSize)` copies `fileSize` bytes, the node's whole contents, and returns
`fileSize` as an `ssize_t` (the number `fileSize` up to `SSIZE_MAX`); these hold
each written string at its offset and, at every position that was never
written, the byte the allocator left in the grown storage (`heap.junk`), which
is zero only when the allocator hands out zeroed storage. -/
theorem pwriteAll_contents (offBits : Nat) (heap : Heap) (d : List Byte) (f0 f : FileVnode)
    (ws : List (Int × List Byte)) (buf : List Byte)
    (hnew : FileVnode.create heap d 0 = some f0)
    (hrun : f0.pwriteAll heap ws = some f)
    (hdis : ws.Pairwise disjointWrites)
    (hbuf : f.fileSize ≤ buf.length) :
    f.pread offBits buf f.fileSize 0
      = some (toSsize f.fileSize, f.data ++ buf.drop f.fileSize) ∧
    (f.fileSize ≤ SSIZE_MAX →
      f.pread offBits buf f.fileSize 0
        = some ((f.fileSize : Int), f.data ++ buf.drop f.fileSize)) ∧
    f.data.length = f.fileSize ∧
    (∀ w ∈ ws, 0 ≤ w.1 ∧ w.1.toNat + w.2.length ≤ f.fileSize ∧
      ∀ j, j < w.2.length → f.data[w.1.toNat + j]? = w.2[j]?) ∧
    (∀ p, p < f.fileSize → (∀ w ∈ ws, ¬ covers w p) → f.data[p]? = some (heap.junk p)) := by
  have hf0 : f0 = ⟨[], 0⟩ := by
    unfold FileVnode.create at hnew
    by_cases ha : heap.avail 0
    · simp [ha, memcpy] at hnew
      exact hnew.symm
    · simp [ha] at hnew
  subst hf0
  obtain ⟨i1, i0, _, i3, i4⟩ :=
    pwriteAll_inv heap ws ⟨[], 0⟩ f rfl (Nat.zero_le _) hrun hdis
  have hrd := pread_eq offBits f buf f.fileSize 0 i1 (Or.inl i0) (Or.inl (by omega)) hbuf
  simp only [Nat.cast_zero, Nat.sub_zero, min_self, List.drop_zero] at hrd
  have htake : List.take f.fileSize f.data = f.data := by
    rw [← i1, List.take_length]
  rw [htake] at hrd
  refine ⟨hrd, ?_, i1, i3, ?_⟩
  · intro hn
    rw [hrd, toSsize_of_le _ hn]
  · intro p hp hunc
    have c1 : ¬ (p < (FileVnode.mk [] 0).fileSize) := by simp
    rw [i4 p hunc, if_neg c1, if_pos hp]

/-- C4 (witness): two non-overlapping writes, `abc` at offset 5 and `hi` at
offset 0, on a node created with size 0. -/
theorem pwriteAll_contents_witness :
    FileVnode.create staleHeap [] 0 = some ⟨[], 0⟩ ∧
    FileVnode.pwriteAll staleHeap ⟨[], 0⟩ [(5, [97, 98, 99]), (0, [104, 105])]
      = some ⟨[104, 105, 170, 170, 170, 97, 98, 99], 8⟩ ∧
    FileVnode.pread 64 ⟨[104, 105, 170, 170, 170, 97, 98, 99], 8⟩
        [0, 0, 0, 0, 0, 0, 0, 0] 8 0
      = some (8, [104, 105, 170, 170, 170, 97, 98, 99]
          ++ ([0, 0, 0, 0, 0, 0, 0, 0] : List Byte).drop 8) :=
  ⟨by decide, by decide,
    (pwriteAll_contents 64 staleHeap [] ⟨[], 0⟩ ⟨[104, 105, 170, 170, 170, 97, 98, 99], 8⟩
      [(5, [97, 98, 99]), (0, [104, 105])] [0, 0, 0, 0, 0, 0, 0, 0] (by decide) (by decide)
      (by simp [disjointWrites]) (by decide)).1⟩

/-- C5: failure atomicity of `pwrite`. Whenever the call returns an error
(`EINVAL`, or `ENOSPC` from the size test or from a refused reallocation) the
node is exactly what it was before the call; and when `off_t` is wider than
32 bits, `pwrite(buf, 4, OFF_MAX - 2)` is such a call: it returns `ENOSPC` and
leaves the node unchanged. -/
theorem pwrite_failure_atomic (offBits : Nat) (heap : Heap) (f : FileVnode)
    (buffer : List Byte) (size : Nat) (offset : Int) (e : Errno)
    (h : (f.pwrite heap buffer size offset).1 = .error e) :
    (f.pwrite heap buffer size offset).2 = f ∧
    (f.pwrite heap buffer size offset).2.data = f.data ∧
    (f.pwrite heap buffer size offset).2.fileSize = f.fileSize ∧
    (32 < offBits → f.pwrite heap buffer 4 (OFF_MAX offBits - 2) = (.error .ENOSPC, f)) := by
  have hs := pwrite_snd_of_error heap f buffer size offset e h
  refine ⟨hs, by rw [hs], by rw [hs], ?_⟩
  intro hw
  have hge := two_pow_ge_of_wide offBits (by omega)
  have h1 : ¬ (OFF_MAX offBits - 2 < 0) := by omega
  have h2 : (OFF_MAX offBits - 2).toNat + 4 > SIZE_MAX := by
    unfold SIZE_MAX
    omega
  unfold FileVnode.pwrite
  simp only [if_neg h1, if_pos h2]

/-- C5 (witness): a write that needs growth on an allocator that refuses it. -/
theorem pwrite_failure_atomic_witness :
    (FileVnode.pwrite exhaustedHeap ⟨[1, 2], 2⟩ [9] 1 5).1 = .error .ENOSPC ∧
    (FileVnode.pwrite exhaustedHeap ⟨[1, 2], 2⟩ [9] 1 5).2 = ⟨[1, 2], 2⟩ ∧
    FileVnode.pwrite exhaustedHeap ⟨[1, 2], 2⟩ [9] 4 (OFF_MAX 64 - 2)
      = (.error .ENOSPC, ⟨[1, 2], 2⟩) :=
  ⟨by decide,
    (pwrite_failure_atomic 64 exhaustedHeap ⟨[1, 2], 2⟩ [9] 1 5 .ENOSPC (by decide)).1,
    (pwrite_failure_atomic 64 exhaustedHeap ⟨[1, 2], 2⟩ [9] 1 5 .ENOSPC (by decide)).2.2.2
      (by decide)⟩

/-! ## Claims about the size of a file vnode -/

theorem pwrite_wf (heap : Heap) (f : FileVnode) (buffer : List Byte) (size : Nat)
    (offset : Int) (hwf : f.data.length = f.fileSize) (hsz : size ≤ buffer.length) :
    (f.pwrite heap buffer size offset).2.data.length
      = (f.pwrite heap buffer size offset).2.fileSize := by
  have hfst := pwrite_fst heap f buffer size offset
  by_cases hneg : offset < 0
  · rw [if_pos hneg] at hfst
    rw [pwrite_snd_of_error heap f buffer size offset _ hfst]
    exact hwf
  · obtain ⟨o, rfl⟩ : ∃ o : Nat, offset = (o : Int) := ⟨offset.toNat, by omega⟩
    cases hres : (f.pwrite heap buffer size (o : Int)).1 with
    | error e =>
      rw [pwrite_snd_of_error heap f buffer size _ e hres]
      exact hwf
    | ok n =>
      obtain ⟨d1, d2, _, _⟩ := pwrite_ok_data heap f buffer size o n hwf hsz hres
      rw [d1, d2]

theorem pwrite_fileSize (heap : Heap) (f : FileVnode) (buffer : List Byte) (size : Nat)
    (offset : Int) :
    (f.pwrite heap buffer size offset).2.fileSize =
      if (f.pwrite heap buffer size offset).1 = .ok (toSsize size) then
        max f.fileSize (offset.toNat + size)
      else f.fileSize := by
  unfold FileVnode.pwrite realloc
  by_cases h1 : offset < 0
  · simp [h1]
  · by_cases h2 : offset.toNat + size > SIZE_MAX
    · simp [h1, h2]
    · by_cases h3 : offset.toNat + size > f.fileSize
      · cases h4 : heap.avail (offset.toNat + size)
        · simp [h1, h2, h3, h4]
        · simp only [h1, h2, h3, h4, if_true, if_false]
          omega
      · simp only [h1, h2, h3, if_false, if_true]
        omega

theorem afterCall_wf (heap : Heap) (f : FileVnode) (c : FileCall)
    (hwf : f.data.length = f.fileSize) (hc : c.adequate) :
    (f.afterCall heap c).data.length = (f.afterCall heap c).fileSize := by
  cases c with
  | pread buffer size offset => exact hwf
  | pwrite buffer size offset => exact pwrite_wf heap f buffer size offset hwf hc

theorem afterCall_mono (heap : Heap) (f : FileVnode) (c : FileCall) :
    f.fileSize ≤ (f.afterCall heap c).fileSize := by
  cases c with
  | pread buffer size offset => exact le_refl _
  | pwrite buffer size offset =>
    simp only [FileVnode.afterCall]
    rw [pwrite_fileSize]
    split
    · exact le_max_left _ _
    · exact le_refl _

/-- C16: the length of the backing storage equals `fileSize` after
construction from `(data, size)` (the source holding `size` bytes), and after
every `pread` and every `pwrite` call, successful or not, on a node for which
it held before (each buffer holding the `size` bytes of its call); hence after
every sequence of such calls. -/
theorem storage_length_invariant (heap : Heap) (f : FileVnode) (calls : List FileCall)
    (hwf : f.data.length = f.fileSize) (hcalls : ∀ c ∈ calls, c.adequate) :
    (f.afterCalls heap calls).data.length = (f.afterCalls heap calls).fileSize ∧
    (∀ (buffer : List Byte) (size : Nat) (offset : Int), size ≤ buffer.length →
      (f.pwrite heap buffer size offset).2.data.length
        = (f.pwrite heap buffer size offset).2.fileSize) ∧
    (∀ (data : List Byte) (size : Nat) (g : FileVnode), size ≤ data.length →
      FileVnode.create heap data size = some g → g.data.length = g.fileSize) := by
  refine ⟨?_, fun buffer size offset hsz => pwrite_wf heap f buffer size offset hwf hsz, ?_⟩
  · induction calls generalizing f with
    | nil => exact hwf
    | cons c rest ih =>
      simp only [FileVnode.afterCalls]
      exact ih (f.afterCall heap c)
        (afterCall_wf heap f c hwf (hcalls c (List.mem_cons_self _ _)))
        (fun x hx => hcalls x (List.mem_cons_of_mem _ hx))
  · intro data size g hsz hg
    unfold FileVnode.create at hg
    by_cases ha : heap.avail size
    · simp only [ha, if_true, Option.some.injEq] at hg
      subst hg
      simp only
      rw [memcpy_length _ _ _ _ (by simp) hsz]
      simp
    · simp [ha] at hg

/-- C16 (witness): a node of 2 bytes after a failing write, a read and a
growing write. -/
theorem storage_length_invariant_witness :
    (FileVnode.afterCalls staleHeap ⟨[1, 2], 2⟩
        [.pwrite [9] 1 (-1), .pread [0, 0] 2 0, .pwrite [7, 8] 2 3]).data.length
      = (FileVnode.afterCalls staleHeap ⟨[1, 2], 2⟩
        [.pwrite [9] 1 (-1), .pread [0, 0] 2 0, .pwrite [7, 8] 2 3]).fileSize ∧
    FileVnode.afterCalls staleHeap ⟨[1, 2], 2⟩
        [.pwrite [9] 1 (-1), .pread [0, 0] 2 0, .pwrite [7, 8] 2 3]
      = ⟨[1, 2, 170, 7, 8], 5⟩ :=
  ⟨(storage_length_invariant staleHeap ⟨[1, 2], 2⟩
      [.pwrite [9] 1 (-1), .pread [0, 0] 2 0, .pwrite [7, 8] 2 3] (by decide)
      (by simp [FileCall.adequate])).1,
    by decide⟩

/-- C17: exact, monotone growth. After a successful `pwrite(buffer, size,
offset)` the new `fileSize` is `max(fileSize, offset + size)`; `fileSize` never
decreases under any sequence of `pread` and `pwrite` calls; and a write lying
entirely inside `[0, fileSize)` leaves `fileSize` unchanged. -/
theorem pwrite_grows_exactly (heap : Heap) (f : FileVnode) (buffer : List Byte) (size : Nat)
    (offset : Int) (n : Int) (hok : (f.pwrite heap buffer size offset).1 = .ok n) :
    ((f.pwrite heap buffer size offset).2.fileSize : Int)
      = max (f.fileSize : Int) (offset + (size : Int)) ∧
    (∀ (g : FileVnode) (calls : List FileCall),
      g.fileSize ≤ (g.afterCalls heap calls).fileSize) ∧
    (offset + (size : Int) ≤ (f.fileSize : Int) →
      (f.pwrite heap buffer size offset).2.fileSize = f.fileSize) := by
  have hfst := pwrite_fst heap f buffer size offset
  have hpos : 0 ≤ offset := by
    by_contra hneg
    rw [if_pos (by omega)] at hfst
    rw [hfst] at hok
    cases hok
  have hn : (f.pwrite heap buffer size offset).1 = .ok (toSsize size) := by
    rcases (show (f.pwrite heap buffer size offset).1 = .error .EINVAL ∨
        (f.pwrite heap buffer size offset).1 = .error .ENOSPC ∨
        (f.pwrite heap buffer size offset).1 = .ok (toSsize size) by
      rw [hfst]
      split
      · exact Or.inl rfl
      · split
        · exact Or.inr (Or.inl rfl)
        · split
          · exact Or.inr (Or.inl rfl)
          · exact Or.inr (Or.inr rfl)) with h | h | h
    · rw [h] at hok; cases hok
    · rw [h] at hok; cases hok
    · exact h
  have hsize := pwrite_fileSize heap f buffer size offset
  rw [if_pos hn] at hsize
  refine ⟨?_, ?_, ?_⟩
  · rw [hsize]
    omega
  · intro g calls
    induction calls generalizing g with
    | nil => exact le_refl _
    | cons c rest ih =>
      simp only [FileVnode.afterCalls]
      exact le_trans (afterCall_mono heap g c) (ih (g.afterCall heap c))
  · intro hin
    rw [hsize]
    omega

/-- C17 (witness): a write of 2 bytes at offset 3 of a 2-byte node grows it
to 5 bytes. -/
theorem pwrite_grows_exactly_witness :
    (FileVnode.pwrite staleHeap ⟨[1, 2], 2⟩ [7, 8] 2 3).1 = .ok 2 ∧
    (((FileVnode.pwrite staleHeap ⟨[1, 2], 2⟩ [7, 8] 2 3).2.fileSize : Nat) : Int)
      = max ((2 : Nat) : Int) (3 + ((2 : Nat) : Int)) :=
  ⟨by decide,
    (pwrite_grows_exactly staleHeap ⟨[1, 2], 2⟩ [7, 8] 2 3 2 (by decide)).1⟩

/-- C18 (failing input): with a 64-bit `off_t`, `pread(buf, 1, -1)` on a node
of 3 bytes. The sum `offset + i` is `-1` for `i = 0`, the signed test
`-1 >= fileSize` does not stop the loop, and the read `data[-1]` lies before
the storage (the result `none`); the same call through a 32-bit `off_t`
compares unsigned and returns 0. -/
theorem pread_negative_offset_leaves_storage :
    offsetPlus 64 (-1) 0 = some (-1) ∧
    ¬ ((-1 : Int) ≥ ((3 : Nat) : Int)) ∧
    FileVnode.pread 64 ⟨[1, 2, 3], 3⟩ [0] 1 (-1) = none ∧
    FileVnode.pread 32 ⟨[1, 2, 3], 3⟩ [0] 1 (-1) = some (0, [0]) := by
  decide

/-! ## Facts about the scheduler -/

theorem isChain_congr (procs procs' : List Process) :
    ∀ (l : List Ptr) (s : Option Ptr),
      (∀ q ∈ l, (procs'[q]?).map (·.next) = (procs[q]?).map (·.next)) →
      isChain procs' s l = isChain procs s l := by
  intro l
  induction l with
  | nil => intro s _; cases s <;> rfl
  | cons q rest ih =>
    intro s h
    cases s with
    | none => rfl
    | some p =>
      simp only [isChain]
      by_cases hpq : p = q
      · subst hpq
        have hp := h p (List.mem_cons_self _ _)
        have hrest : ∀ x ∈ rest, (procs'[x]?).map (·.next) = (procs[x]?).map (·.next) :=
          fun x hx => h x (List.mem_cons_of_mem _ hx)
        cases h1 : procs'[p]? with
        | none =>
          cases h2 : procs[p]? with
          | none => rfl
          | some r => rw [h1, h2] at hp; simp at hp
        | some r' =>
          cases h2 : procs[p]? with
          | none => rw [h1, h2] at hp; simp at hp
          | some r =>
            rw [h1, h2] at hp
            simp only [Option.map_some', Option.some.injEq] at hp
            simp only [hp, ih r.next hrest]
      · have hb : (p == q) = false := by simpa using hpq
        rw [hb, Bool.false_and, Bool.false_and]

theorem isChain_head (procs : List Process) (s : Option Ptr) (l : List Ptr)
    (h : isChain procs s l = true) : s = l.head? := by
  cases l with
  | nil => cases s with
    | none => rfl
    | some p => simp [isChain] at h
  | cons q rest => cases s with
    | none => simp [isChain] at h
    | some p =>
      simp only [isChain, Bool.and_eq_true, beq_iff_eq] at h
      simp [h.1]

theorem isChain_next (procs : List Process) :
    ∀ (l : List Ptr) (s : Option Ptr), isChain procs s l = true →
      ∀ i p, l[i]? = some p → ∃ r, procs[p]? = some r ∧ r.next = l[i + 1]? := by
  intro l
  induction l with
  | nil => intro s _ i p hi; simp at hi
  | cons q rest ih =>
    intro s h i p hi
    cases s with
    | none => simp [isChain] at h
    | some a =>
      simp only [isChain, Bool.and_eq_true, beq_iff_eq] at h
      obtain ⟨haq, h2⟩ := h
      subst haq
      cases hr : procs[a]? with
      | none => rw [hr] at h2; simp at h2
      | some r =>
        rw [hr] at h2
        simp only at h2
        cases i with
        | zero =>
          simp only [List.getElem?_cons_zero, Option.some.injEq] at hi
          subst hi
          refine ⟨r, hr, ?_⟩
          rw [isChain_head procs r.next rest h2]
          cases rest <;> simp
        | succ i =>
          simp only [List.getElem?_cons_succ] at hi
          simpa using ih r.next h2 i p hi

theorem saveContext_next (cur : Process) (context : InterruptContext) :
    (Process.saveContext cur context).next = cur.next := by
  unfold Process.saveContext
  cases cur.contextChanged <;> rfl

theorem saveContext_addressSpace (cur : Process) (context : InterruptContext) :
    (Process.saveContext cur context).addressSpace = cur.addressSpace := by
  unfold Process.saveContext
  cases cur.contextChanged <;> rfl

theorem successor_saveContext (k : Kernel) (cur : Process) (context : InterruptContext) :
    Process.successor k (Process.saveContext cur context) = Process.successor k cur := by
  unfold Process.successor
  rw [saveContext_next]

/-- Looking up a record after the record of `current` was saved. -/
theorem getElem?_set_saved (procs : List Process) (c : Ptr) (cur : Process)
    (context : InterruptContext) (hcur : procs[c]? = some cur) (q : Ptr) :
    (procs.set c (Process.saveContext cur context))[q]? =
      if q = c then some (Process.saveContext cur context) else procs[q]? := by
  have hlt : c < procs.length := by
    by_contra hn
    have hle : procs.length ≤ c := Nat.le_of_not_lt hn
    rw [List.getElem?_eq_none hle] at hcur
    cases hcur
  rw [List.getElem?_set]
  by_cases h : c = q
  · subst h
    simp [hlt]
  · have h' : ¬ q = c := fun e => h e.symm
    simp [h, h']

/-- What one call of `schedule` does, given that the current record exists
and the process it switches to can be switched to. -/
theorem schedule_eq (k : Kernel) (context : InterruptContext) (cur : Process)
    (hcur : k.procs[k.current]? = some cur)
    (hnext : k.runnable (Process.successor k cur) = true) :
    ∃ r space,
      (k.procs.set k.current (Process.saveContext cur context))[Process.successor k cur]?
        = some r ∧
      r.addressSpace = some space ∧ space < k.spaces.length ∧
      Process.schedule k context = some (r.interruptContext,
        { k with procs := k.procs.set k.current (Process.saveContext cur context)
                 current := Process.successor k cur
                 kernelStackTop := (r.kernelStack + 4096) % 4294967296
                 activeSpace := some space }) := by
  unfold Kernel.runnable at hnext
  cases hq : k.procs[Process.successor k cur]? with
  | none => rw [hq] at hnext; simp at hnext
  | some r0 =>
    rw [hq] at hnext
    simp only at hnext
    cases hs : r0.addressSpace with
    | none => rw [hs] at hnext; simp at hnext
    | some space =>
      rw [hs] at hnext
      simp only [decide_eq_true_eq] at hnext
      have hlook := getElem?_set_saved k.procs k.current cur context hcur (Process.successor k cur)
      have hsp : ∃ a, k.spaces[space]? = some a :=
        ⟨k.spaces[space], List.getElem?_eq_getElem hnext⟩
      obtain ⟨a, ha⟩ := hsp
      by_cases hc : Process.successor k cur = k.current
      · rw [if_pos hc] at hlook
        have hr0 : cur.addressSpace = some space := by
          rw [hc, hcur] at hq
          rw [Option.some.inj hq, hs]
        refine ⟨Process.saveContext cur context, space, hlook, ?_, hnext, ?_⟩
        · rw [saveContext_addressSpace, hr0]
        · unfold Process.schedule
          simp only [hcur, successor_saveContext, hlook, saveContext_addressSpace, hr0, ha]
      · rw [if_neg hc, hq] at hlook
        refine ⟨r0, space, hlook, hs, hnext, ?_⟩
        unfold Process.schedule
        simp only [hcur, successor_saveContext, hlook, hs, ha]

/-- The links and address spaces of all records are untouched by saving the
frame of `current`. -/
theorem saved_links (procs : List Process) (c : Ptr) (cur : Process)
    (context : InterruptContext) (hcur : procs[c]? = some cur) (q : Ptr) :
    ((procs.set c (Process.saveContext cur context))[q]?).map (·.next)
        = (procs[q]?).map (·.next) ∧
    ((procs.set c (Process.saveContext cur context))[q]?).map (·.addressSpace)
        = (procs[q]?).map (·.addressSpace) := by
  rw [getElem?_set_saved procs c cur context hcur q]
  by_cases h : q = c
  · subst h
    simp [hcur, saveContext_next, saveContext_addressSpace]
  · simp [h]

theorem runnable_congr (k k' : Kernel) (p : Ptr)
    (h1 : (k'.procs[p]?).map (·.addressSpace) = (k.procs[p]?).map (·.addressSpace))
    (h2 : k'.spaces.length = k.spaces.length) : k'.runnable p = k.runnable p := by
  unfold Kernel.runnable
  cases ha : k'.procs[p]? with
  | none =>
    cases hb : k.procs[p]? with
    | none => rfl
    | some r => rw [ha, hb] at h1; simp at h1
  | some r' =>
    cases hb : k.procs[p]? with
    | none => rw [ha, hb] at h1; simp at h1
    | some r =>
      rw [ha, hb] at h1
      simp only [Option.map_some', Option.some.injEq] at h1
      simp only [h1, h2]

/-- One call of `schedule` from a state whose runnable list is `l`: the call
returns, switches to the successor of `current` and keeps the list. -/
theorem schedule_listed (k : Kernel) (context : InterruptContext) (l : List Ptr)
    (cur : Process) (hL : k.Listed l) (hcur : k.procs[k.current]? = some cur)
    (hnext : k.runnable (Process.successor k cur) = true) :
    ∃ ret k', Process.schedule k context = some (ret, k') ∧ k'.Listed l ∧
      k'.current = Process.successor k cur ∧
      k'.firstProcess = k.firstProcess ∧ k'.idleProcess = k.idleProcess ∧
      k'.procs = k.procs.set k.current (Process.saveContext cur context) ∧
      ret = (k'.procs[k'.current]?).bind (·.interruptContext) := by
  obtain ⟨r, space, h1, h2, h3, h4⟩ := schedule_eq k context cur hcur hnext
  refine ⟨_, _, h4, ⟨?_, ?_⟩, rfl, rfl, rfl, rfl, ?_⟩
  · rw [isChain_congr k.procs _ l k.firstProcess
      (fun q _ => (saved_links k.procs k.current cur context hcur q).1)]
    exact hL.chain
  · intro p hp
    refine Eq.trans (runnable_congr k _ p ?_ rfl) (hL.canRun p hp)
    exact (saved_links k.procs k.current cur context hcur p).2
  · simp only [h1, Option.some_bind]

theorem getElem?_mem_of_some {α : Type} (l : List α) (i : Nat) (a : α) (h : l[i]? = some a) :
    a ∈ l := by
  obtain ⟨hlt, he⟩ := List.getElem?_eq_some.mp h
  rw [← he]
  exact List.getElem_mem hlt

theorem schedule_on_list (k : Kernel) (context : InterruptContext) (l : List Ptr) (i : Nat)
    (hL : k.Listed l) (hi : l[i]? = some k.current) :
    ∃ ret k', Process.schedule k context = some (ret, k') ∧ k'.Listed l ∧
      k'.firstProcess = k.firstProcess ∧ k'.idleProcess = k.idleProcess ∧
      l[(i + 1) % l.length]? = some k'.current := by
  obtain ⟨cur, hcur, hnx⟩ := isChain_next k.procs l k.firstProcess hL.chain i k.current hi
  obtain ⟨hlt, _⟩ := List.getElem?_eq_some.mp hi
  have hfirst := isChain_head k.procs k.firstProcess l hL.chain
  have hsucc : l[(i + 1) % l.length]? = some (Process.successor k cur) := by
    unfold Process.successor
    by_cases hlast : i + 1 < l.length
    · rw [Nat.mod_eq_of_lt hlast, hnx, List.getElem?_eq_getElem hlast]
    · have he : i + 1 = l.length := by omega
      rw [he, Nat.mod_self, hnx, he, List.getElem?_eq_none (le_refl _), hfirst]
      cases l with
      | nil => simp at hlt
      | cons a rest => simp
  have hmem : Process.successor k cur ∈ l := getElem?_mem_of_some l _ _ hsucc
  obtain ⟨ret, k', h1, h2, h3, h4, h5, _, _⟩ :=
    schedule_listed k context l cur hL hcur (hL.canRun _ hmem)
  exact ⟨ret, k', h1, h2, h4, h5, by rw [h3]; exact hsucc⟩

theorem schedule_from_idle (k : Kernel) (context : InterruptContext) (l : List Ptr)
    (idle : Process) (hL : k.Listed l) (hne : l ≠ [])
    (hidle : k.procs[k.current]? = some idle) (hnone : idle.next = none) :
    ∃ ret k', Process.schedule k context = some (ret, k') ∧ k'.Listed l ∧
      k'.firstProcess = k.firstProcess ∧ k'.idleProcess = k.idleProcess ∧
      l[0]? = some k'.current := by
  have hfirst := isChain_head k.procs k.firstProcess l hL.chain
  have hsucc : l[0]? = some (Process.successor k idle) := by
    unfold Process.successor
    rw [hnone, hfirst]
    cases l with
    | nil => exact absurd rfl hne
    | cons a rest => simp
  have hmem : Process.successor k idle ∈ l := getElem?_mem_of_some l _ _ hsucc
  obtain ⟨ret, k', h1, h2, h3, h4, h5, _, _⟩ :=
    schedule_listed k context l idle hL hidle (hL.canRun _ hmem)
  exact ⟨ret, k', h1, h2, h4, h5, by rw [h3]; exact hsucc⟩

/-- Ticks from a state whose current process is the idle process (not on the
list, null `next`) and whose runnable list `l` is not empty: tick `j + 1`
selects `l[j mod n]`. -/
theorem ticks_round_robin (ctx : Nat → InterruptContext) (k : Kernel) (l : List Ptr)
    (idle : Process) (hL : k.Listed l) (hne : l ≠ [])
    (hidle : k.procs[k.current]? = some idle) (hnone : idle.next = none) :
    ∀ j, ∃ k', Process.ticks ctx (j + 1) k = some k' ∧ k'.Listed l ∧
      k'.firstProcess = k.firstProcess ∧ k'.idleProcess = k.idleProcess ∧
      l[j % l.length]? = some k'.current := by
  have hpos : 0 < l.length := List.length_pos.mpr hne
  intro j
  induction j with
  | zero =>
    obtain ⟨ret, k', h1, h2, h3, h4, h5⟩ := schedule_from_idle k (ctx 0) l idle hL hne hidle hnone
    refine ⟨k', ?_, h2, h3, h4, ?_⟩
    · simp only [Process.ticks, h1]
    · rw [Nat.zero_mod]; exact h5
  | succ j ih =>
    obtain ⟨k1, t1, t2, t3, t4, t5⟩ := ih
    obtain ⟨ret, k', h1, h2, h3, h4, h5⟩ := schedule_on_list k1 (ctx (j + 1)) l _ t2 t5
    refine ⟨k', ?_, h2, by rw [h3, t3], by rw [h4, t4], ?_⟩
    · rw [Process.ticks, t1]
      simp only [h1]
    · rw [← h5]
      congr 1
      rw [Nat.add_mod j 1, Nat.add_mod (j % l.length) 1, Nat.mod_mod]

theorem getElem?_set_of_some (procs : List Process) (c : Ptr) (x y : Process)
    (hc : procs[c]? = some x) (q : Ptr) :
    (procs.set c y)[q]? = if q = c then some y else procs[q]? := by
  have hlt : c < procs.length := by
    by_contra hn
    have hle : procs.length ≤ c := Nat.le_of_not_lt hn
    rw [List.getElem?_eq_none hle] at hc
    cases hc
  rw [List.getElem?_set]
  by_cases h : c = q
  · subst h
    simp [hlt]
  · have h' : ¬ q = c := fun e => h e.symm
    simp [h, h']

/-- One `addProcess` of a process that is not on the list puts it in front. -/
theorem addProcess_chain (k : Kernel) (p : Ptr) (done : List Ptr) (r : Process)
    (hchain : isChain k.procs k.firstProcess done = true) (hp : p ∉ done)
    (hr : k.procs[p]? = some r) :
    ∃ k', Process.addProcess k p = some k' ∧
      isChain k'.procs k'.firstProcess (p :: done) = true ∧
      k'.current = k.current ∧ k'.idleProcess = k.idleProcess ∧ k'.spaces = k.spaces ∧
      (∀ q : Ptr, (k'.procs[q]?).map (·.addressSpace) = (k.procs[q]?).map (·.addressSpace)) ∧
      (∀ q : Ptr, q ≠ p → (k'.procs[q]?).map (·.next) = (k.procs[q]?).map (·.next)) := by
  have hhead := isChain_head k.procs k.firstProcess done hchain
  unfold Process.addProcess
  simp only [hr]
  cases hf : k.firstProcess with
  | none =>
    have hdone : done = [] := by
      rw [hf] at hhead
      cases done with
      | nil => rfl
      | cons a t => simp at hhead
    subst hdone
    refine ⟨_, rfl, ?_, rfl, rfl, rfl, ?_, ?_⟩
    · have hl := getElem?_set_of_some k.procs p r { r with next := none } hr p
      rw [if_pos rfl] at hl
      simp only [isChain, beq_self_eq_true, Bool.true_and, hl]
    · intro q
      simp only
      rw [getElem?_set_of_some k.procs p r _ hr q]
      by_cases h : q = p
      · subst h; simp [hr]
      · simp [h]
    · intro q hq
      simp only
      rw [getElem?_set_of_some k.procs p r _ hr q, if_neg hq]
  | some nx =>
    obtain ⟨rest, hdone⟩ : ∃ rest, done = nx :: rest := by
      rw [hf] at hhead
      cases done with
      | nil => simp at hhead
      | cons a t =>
        simp only [List.head?_cons, Option.some.injEq] at hhead
        exact ⟨t, by rw [hhead]⟩
    have hnxp : nx ≠ p := by
      intro e
      apply hp
      rw [hdone, e]
      exact List.mem_cons_self _ _
    obtain ⟨rn, hrn, _⟩ := isChain_next k.procs done k.firstProcess hchain 0 nx (by rw [hdone]; simp)
    have h1 : (k.procs.set p { r with next := some nx })[nx]? = some rn := by
      rw [getElem?_set_of_some k.procs p r _ hr nx, if_neg hnxp, hrn]
    simp only [h1]
    have hlook : ∀ q, ((k.procs.set p { r with next := some nx }).set nx
        { rn with prev := some p })[q]? =
        if q = nx then some { rn with prev := some p }
        else if q = p then some { r with next := some nx } else k.procs[q]? := by
      intro q
      rw [getElem?_set_of_some _ nx rn _ h1 q, getElem?_set_of_some k.procs p r _ hr q]
    refine ⟨_, rfl, ?_, rfl, rfl, rfl, ?_, ?_⟩
    · have hl := hlook p
      rw [if_neg (fun e => hnxp e.symm), if_pos rfl] at hl
      simp only [isChain, beq_self_eq_true, Bool.true_and, hl]
      rw [isChain_congr k.procs _ done (some nx), ← hf]
      · exact hchain
      · intro q hq
        have hqp : q ≠ p := fun e => hp (e ▸ hq)
        rw [hlook q]
        by_cases h : q = nx
        · subst h; simp [hrn]
        · simp [h, hqp]
    · intro q
      simp only
      rw [hlook q]
      by_cases h : q = nx
      · subst h; simp [hrn]
      · by_cases h2 : q = p
        · subst h2; simp [h, hr]
        · simp [h, h2]
    · intro q hq
      simp only
      rw [hlook q]
      by_cases h : q = nx
      · subst h; simp [hrn]
      · simp [h, hq]

theorem addAll_chain :
    ∀ (ps : List Ptr) (k : Kernel) (done : List Ptr),
      isChain k.procs k.firstProcess done = true →
      (∀ p ∈ ps, p ∉ done ∧ (k.procs[p]?).isSome = true) → ps.Nodup →
      ∃ k', Process.addAll ps k = some k' ∧
        isChain k'.procs k'.firstProcess (ps.reverse ++ done) = true ∧
        k'.current = k.current ∧ k'.idleProcess = k.idleProcess ∧ k'.spaces = k.spaces ∧
        (∀ q : Ptr, (k'.procs[q]?).map (·.addressSpace) = (k.procs[q]?).map (·.addressSpace)) ∧
        (∀ q : Ptr, q ∉ ps → (k'.procs[q]?).map (·.next) = (k.procs[q]?).map (·.next)) := by
  intro ps
  induction ps with
  | nil =>
    intro k done hchain _ _
    exact ⟨k, rfl, by simpa using hchain, rfl, rfl, rfl, fun _ => rfl, fun _ _ => rfl⟩
  | cons p ps ih =>
    intro k done hchain hfresh hnodup
    obtain ⟨hpd, hps⟩ := hfresh p (List.mem_cons_self _ _)
    obtain ⟨r, hr⟩ := Option.isSome_iff_exists.mp hps
    obtain ⟨k1, a1, a2, a3, a4, a5, a6, a7⟩ := addProcess_chain k p done r hchain hpd hr
    rw [List.nodup_cons] at hnodup
    have hfresh1 : ∀ q ∈ ps, q ∉ p :: done ∧ (k1.procs[q]?).isSome = true := by
      intro q hq
      obtain ⟨hqd, hqs⟩ := hfresh q (List.mem_cons_of_mem _ hq)
      refine ⟨?_, ?_⟩
      · intro hmem
        rcases List.mem_cons.mp hmem with e | e
        · exact hnodup.1 (e ▸ hq)
        · exact hqd e
      · have := a6 q
        obtain ⟨rq, hrq⟩ := Option.isSome_iff_exists.mp hqs
        rw [hrq] at this
        cases h : k1.procs[q]? with
        | none => rw [h] at this; simp at this
        | some _ => rfl
    obtain ⟨k2, b1, b2, b3, b4, b5, b6, b7⟩ := ih k1 (p :: done) a2 hfresh1 hnodup.2
    refine ⟨k2, ?_, ?_, by rw [b3, a3], by rw [b4, a4], by rw [b5, a5], ?_, ?_⟩
    · simp only [Process.addAll, a1, b1]
    · simpa using b2
    · intro q; rw [b6 q, a6 q]
    · intro q hq
      have hq1 : q ≠ p := fun e => hq (e ▸ List.mem_cons_self _ _)
      have hq2 : q ∉ ps := fun e => hq (List.mem_cons_of_mem _ e)
      rw [b7 q hq2, a7 q hq1]

/-! ## Facts about `execute` -/

theorem loadELF_spec (k : Kernel) (self : Ptr) (elf : ElfImage) (entry : Nat) (k1 : Kernel)
    (h : Process.loadELF k self elf = some (entry, k1)) :
    entry = elf.header.e_entry % 4294967296 ∧
    ∃ r, k.procs[self]? = some r ∧
      k1.procs = k.procs.set self { r with addressSpace := some k.spaces.length } ∧
      k1.spaces.length = k.spaces.length + 1 ∧
      k1.descriptions = k.descriptions ∧ k1.vnodes = k.vnodes ∧
      k1.current = k.current ∧ k1.firstProcess = k.firstProcess ∧
      k1.idleProcess = k.idleProcess ∧ k1.nextPid = k.nextPid := by
  unfold Process.loadELF at h
  cases hr : k.procs[self]? with
  | none => rw [hr] at h; simp at h
  | some r =>
    rw [hr] at h
    simp only at h
    cases hl : Process.loadSegments elf elf.header.e_phnum 0 (AddressSpace.empty k.frames) with
    | none => rw [hl] at h; simp at h
    | some loaded =>
      rw [hl] at h
      simp only [Option.some.injEq, Prod.mk.injEq] at h
      obtain ⟨h1, h2⟩ := h
      subst h2
      exact ⟨h1.symm, r, rfl, rfl, by simp, rfl, rfl, rfl, rfl, rfl, rfl⟩

theorem initDescriptors_spec (k : Kernel) (r r2 : Process) (k3 : Kernel)
    (h : Process.initDescriptors k r = some (r2, k3)) :
    r2.next = r.next ∧ r2.prev = r.prev ∧ r2.pid = r.pid ∧
    r2.interruptContext = r.interruptContext ∧ r2.contextChanged = r.contextChanged ∧
    r2.addressSpace = r.addressSpace ∧ r2.kernelStack = r.kernelStack ∧
    k3.procs = k.procs ∧ k3.spaces = k.spaces ∧ k3.current = k.current ∧
    k3.firstProcess = k.firstProcess ∧ k3.idleProcess = k.idleProcess := by
  unfold Process.initDescriptors at h
  split at h
  · simp at h
  · split at h
    · simp at h
    · split at h
      · simp at h
      · simp only [Option.some.injEq, Prod.mk.injEq] at h
        obtain ⟨h1, h2⟩ := h
        subst h1 h2
        exact ⟨rfl, rfl, rfl, rfl, rfl, rfl, rfl, rfl, rfl, rfl, rfl, rfl⟩

/-- What a returning call of `execute` leaves behind. -/
theorem execute_spec (env : Platform) (k : Kernel) (self descr : Ptr) (rv : Int) (k' : Kernel)
    (h : Process.execute env k self descr = some (rv, k')) :
    rv = 0 ∧
    ∃ (r r' : Process) (d : FileDescription) (file : FileVnode) (stack : Nat),
      k.procs[self]? = some r ∧ k.descriptions[descr]? = some d ∧
      k.vnodes[d.vnode]? = some (Vnode.file file) ∧
      k'.procs = k.procs.set self r' ∧
      r'.next = r.next ∧ r'.prev = r.prev ∧ r'.pid = r.pid ∧
      r'.interruptContext = some (Process.startContext
        ((env.decode file.data).header.e_entry % 4294967296) stack) ∧
      r'.contextChanged = (if self = k.current then true else r.contextChanged) ∧
      r'.addressSpace = some k.spaces.length ∧
      k'.spaces.length = k.spaces.length + 1 ∧
      k'.current = k.current ∧ k'.firstProcess = k.firstProcess ∧
      k'.idleProcess = k.idleProcess := by
  unfold Process.execute at h
  split at h
  · simp at h
  · rename_i d hd
    split at h
    · rename_i file hv
      split at h
      · simp at h
      · rename_i entry k1 hload
        obtain ⟨he, r, hr, l1, l2, l3, l4, l5, l6, l7, l8⟩ := loadELF_spec k self _ entry k1 hload
        split at h
        · simp at h
        · rename_i r0 hr0
          split at h
          · simp at h
          · rename_i own hown
            split at h
            · simp at h
            · rename_i space hspace
              simp only [AddressSpace.mapMemory] at h
              split at h
              · simp at h
              · rename_i kspace hkspace
                split at h
                · simp at h
                · rename_i r2 k3 hinit
                  simp only [Option.some.injEq, Prod.mk.injEq] at h
                  obtain ⟨h1, h2⟩ := h
                  have hr0' : r0 = { r with addressSpace := some k.spaces.length } := by
                    rw [l1, getElem?_set_of_some k.procs self r _ hr self, if_pos rfl] at hr0
                    exact (Option.some.inj hr0).symm
                  have hfacts : r2.next = r0.next ∧ r2.prev = r0.prev ∧ r2.pid = r0.pid ∧
                      r2.interruptContext
                        = some (Process.startContext entry (env.pick space 4096)) ∧
                      r2.contextChanged = r0.contextChanged ∧
                      r2.addressSpace = r0.addressSpace ∧
                      k3.procs = k1.procs ∧ k3.spaces.length = k1.spaces.length ∧
                      k3.current = k1.current ∧ k3.firstProcess = k1.firstProcess ∧
                      k3.idleProcess = k1.idleProcess := by
                    split at hinit
                    · obtain ⟨a1, a2, a3, a4, a5, a6, _, a8, a9, a10, a11, a12⟩ :=
                        initDescriptors_spec _ _ _ _ hinit
                      refine ⟨a1, a2, a3, a4, a5, a6, a8, ?_, a10, a11, a12⟩
                      rw [a9]
                      simp
                    · simp only [Option.some.injEq, Prod.mk.injEq] at hinit
                      obtain ⟨e1, e2⟩ := hinit
                      subst e1 e2
                      simp
                  obtain ⟨f1, f2, f3, f4, f5, f6, f7, f8, f9, f10, f11⟩ := hfacts
                  subst h2
                  refine ⟨h1.symm, r,
                    (if self = k.current then { r2 with contextChanged := true } else r2),
                    d, file, env.pick space 4096, hr, hd, hv, ?_, ?_, ?_, ?_, ?_, ?_, ?_, ?_,
                    ?_, ?_, ?_⟩
                  · simp only [f7, l1, List.set_set]
                  · by_cases hc : self = k.current <;> simp [hc, f1, hr0']
                  · by_cases hc : self = k.current <;> simp [hc, f2, hr0']
                  · by_cases hc : self = k.current <;> simp [hc, f3, hr0']
                  · by_cases hc : self = k.current <;> simp [hc, f4, he]
                  · by_cases hc : self = k.current <;> simp [hc, f5, hr0']
                  · by_cases hc : self = k.current <;> simp [hc, f6, hr0']
                  · simp only [f8, l2]
                  · simp only [f9, l5]
                  · simp only [f10, l6]
                  · simp only [f11, l7]
    · simp at h

/-! ## Claims about the scheduler and the process table -/

/-- C6: round-robin order. From a state as `Process::initialize` leaves it
(`current` is the idle process, whose `next` is null; the list is empty),
after `addProcess` of the distinct processes `ps = [p1, ..., pn]`, `n ≥ 1`,
none of them the idle process and each with an address space, tick `j + 1`
of `schedule` makes `current = p_(n - (j mod n))` (the list `ps` counts from
0, hence the index `n - 1 - j mod n`), never the idle process; and the
processes selected in any `n` consecutive ticks are `p1, ..., pn` in some
order, each once. -/
theorem round_robin_order (ctx : Nat → InterruptContext) (k0 : Kernel) (ps : List Ptr)
    (idle : Process)
    (hcur : k0.current = k0.idleProcess) (hfirst : k0.firstProcess = none)
    (hidle : k0.procs[k0.idleProcess]? = some idle) (hnext : idle.next = none)
    (hne : ps ≠ []) (hnodup : ps.Nodup)
    (hfresh : ∀ p ∈ ps, p ≠ k0.idleProcess ∧ k0.runnable p = true) :
    ∃ k1, Process.addAll ps k0 = some k1 ∧
      (∀ j, ∃ k2, Process.ticks ctx (j + 1) k1 = some k2 ∧
        ps[ps.length - 1 - j % ps.length]? = some k2.current ∧
        k2.current ≠ k0.idleProcess) ∧
      (∀ j0, List.Perm
        ((List.range ps.length).map
          (fun i => (Process.ticks ctx (j0 + i + 1) k1).map (·.current)))
        (ps.map some)) := by
  have hpos : 0 < ps.length := List.length_pos.mpr hne
  have hsome : ∀ p ∈ ps, p ∉ ([] : List Ptr) ∧ (k0.procs[p]?).isSome = true := by
    intro p hp
    refine ⟨List.not_mem_nil p, ?_⟩
    have := (hfresh p hp).2
    unfold Kernel.runnable at this
    cases h : k0.procs[p]? with
    | none => rw [h] at this; simp at this
    | some _ => rfl
  have hchain0 : isChain k0.procs k0.firstProcess [] = true := by rw [hfirst]; rfl
  obtain ⟨k1, a1, a2, a3, a4, a5, a6, a7⟩ := addAll_chain ps k0 [] hchain0 hsome hnodup
  rw [List.append_nil] at a2
  have hL : k1.Listed ps.reverse := by
    refine ⟨a2, ?_⟩
    intro p hp
    rw [runnable_congr k0 k1 p (a6 p) (by rw [a5])]
    exact (hfresh p (List.mem_reverse.mp hp)).2
  have hidleNot : k0.idleProcess ∉ ps := fun h => (hfresh _ h).1 rfl
  obtain ⟨idle1, hidle1, hnext1⟩ : ∃ r, k1.procs[k1.current]? = some r ∧ r.next = none := by
    have h := a7 k0.idleProcess hidleNot
    rw [a3, hcur]
    rw [hidle] at h
    cases h1 : k1.procs[k0.idleProcess]? with
    | none => rw [h1] at h; simp at h
    | some r =>
      rw [h1] at h
      simp only [Option.map_some', Option.some.injEq] at h
      exact ⟨r, rfl, by rw [h, hnext]⟩
  have hrne : ps.reverse ≠ [] := by simpa using hne
  have hticks := ticks_round_robin ctx k1 ps.reverse idle1 hL hrne hidle1 hnext1
  have hlen : ps.reverse.length = ps.length := List.length_reverse ps
  refine ⟨k1, a1, ?_, ?_⟩
  · intro j
    obtain ⟨k2, t1, _, _, _, t5⟩ := hticks j
    have hlt : j % ps.length < ps.length := Nat.mod_lt _ hpos
    rw [hlen, List.getElem?_reverse hlt] at t5
    refine ⟨k2, t1, t5, ?_⟩
    intro hc
    have hmem : k2.current ∈ ps := getElem?_mem_of_some ps _ _ t5
    exact (hfresh _ hmem).1 hc
  · intro j0
    have heq : (List.range ps.length).map
          (fun i => (Process.ticks ctx (j0 + i + 1) k1).map (·.current))
        = (ps.reverse.rotate j0).map some := by
      apply List.ext_getElem?
      intro i
      rw [List.getElem?_map, List.getElem?_map]
      by_cases hi : i < ps.length
      · rw [List.getElem?_range hi, List.getElem?_rotate (by rw [hlen]; exact hi)]
        obtain ⟨k2, t1, _, _, _, t5⟩ := hticks (j0 + i)
        simp only [Option.map_some', t1]
        rw [Nat.add_comm i j0, t5]
        rfl
      · rw [List.getElem?_eq_none (by simp; omega), List.getElem?_eq_none (by simp; omega)]
        rfl
    rw [heq]
    exact ((List.rotate_perm ps.reverse j0).trans (List.reverse_perm ps)).map some

/-- C6 (witness): the processes 1, 2, 3 (A, B, C) added in that order to the
sample kernel; the first six ticks select 3, 2, 1, 3, 2, 1. -/
theorem round_robin_order_witness :
    (∃ k1, Process.addAll [1, 2, 3] sampleKernel = some k1 ∧
      (∀ j, ∃ k2, Process.ticks sampleFrames (j + 1) k1 = some k2 ∧
        ([1, 2, 3] : List Ptr)[([1, 2, 3] : List Ptr).length - 1
            - j % ([1, 2, 3] : List Ptr).length]? = some k2.current ∧
        k2.current ≠ sampleKernel.idleProcess) ∧
      (∀ j0, List.Perm
        ((List.range ([1, 2, 3] : List Ptr).length).map
          (fun i => (Process.ticks sampleFrames (j0 + i + 1) k1).map (·.current)))
        (([1, 2, 3] : List Ptr).map some))) ∧
    (List.range 6).map (fun j =>
        (Process.addAll [1, 2, 3] sampleKernel).bind
          (fun k1 => (Process.ticks sampleFrames (j + 1) k1).map (·.current)))
      = [some 3, some 2, some 1, some 3, some 2, some 1] :=
  ⟨round_robin_order sampleFrames sampleKernel [1, 2, 3] (Process.sample 0 0 (some 0))
      (by decide) (by decide) (by decide) (by decide) (by decide) (by decide) (by decide),
    by decide⟩

/-- After `Process::initialize`: the idle process is current, alone, with a
null `next`, a clear `contextChanged` flag and the kernel address space. -/
theorem initialize_spec (env : Platform) (kb k0 : Kernel) (rootFd : Option Ptr)
    (h : Process.initialize env kb rootFd = some k0) :
    k0.current = k0.idleProcess ∧ k0.firstProcess = none ∧ k0.spaces = kb.spaces ∧
    ∃ r, k0.procs[k0.idleProcess]? = some r ∧ r.next = none ∧
      r.contextChanged = false ∧ r.addressSpace = some kernelSpace := by
  unfold Process.initialize Process.create at h
  by_cases hp : kb.nextPid < PID_MAX
  · simp only [if_pos hp, List.getElem?_concat_length, Option.some.injEq] at h
    subst h
    refine ⟨rfl, rfl, rfl, ?_⟩
    simp only
    rw [getElem?_set_of_some _ _ _ _ (List.getElem?_concat_length _ _), if_pos rfl]
    exact ⟨_, rfl, rfl, rfl, rfl⟩
  · simp only [if_neg hp] at h
    cases h

/-- A tick in a state where the idle process is current and alone selects the
idle process again and returns the frame it has just saved. -/
theorem schedule_idle_alone (k : Kernel) (context : InterruptContext) (r : Process)
    (hcur : k.current = k.idleProcess) (hfirst : k.firstProcess = none)
    (hr : k.procs[k.idleProcess]? = some r) (hnext : r.next = none)
    (hflag : r.contextChanged = false) (hspace : r.addressSpace = some kernelSpace)
    (hk : 0 < k.spaces.length) :
    ∃ k' r', Process.schedule k context = some (some context, k') ∧
      k'.current = k'.idleProcess ∧ k'.idleProcess = k.idleProcess ∧
      k'.firstProcess = none ∧ k'.procs[k'.idleProcess]? = some r' ∧ r'.next = none ∧
      r'.contextChanged = false ∧ r'.addressSpace = some kernelSpace ∧
      r'.interruptContext = some context ∧
      0 < k'.spaces.length := by
  have hsucc : Process.successor k r = k.current := by
    unfold Process.successor
    rw [hnext, hfirst, hcur]
  have hrun : k.runnable (Process.successor k r) = true := by
    rw [hsucc, hcur]
    unfold Kernel.runnable
    rw [hr]
    simp only [hspace, decide_eq_true_eq]
    exact hk
  rw [← hcur] at hr
  obtain ⟨r1, space, h1, h2, h3, h4⟩ := schedule_eq k context r hr hrun
  have hsave : Process.saveContext r context = { r with interruptContext := some context } := by
    unfold Process.saveContext
    simp [hflag]
  rw [hsucc, getElem?_set_of_some k.procs k.current r _ hr, if_pos rfl, hsave] at h1
  have hr1 : r1 = { r with interruptContext := some context } := (Option.some.inj h1).symm
  subst hr1
  refine ⟨{ k with procs := k.procs.set k.current (Process.saveContext r context)
                   current := Process.successor k r
                   kernelStackTop := (r.kernelStack + 4096) % 4294967296
                   activeSpace := some space },
    { r with interruptContext := some context }, h4, ?_, rfl, hfirst, ?_, hnext, hflag,
    hspace, rfl, hk⟩
  · simp only [hsucc, hcur]
  · simp only
    rw [← hcur, getElem?_set_of_some k.procs k.current r _ hr, if_pos rfl, hsave]

/-- C7: idle selection. In a state whose runnable list is `l` (each process on
it can be switched to), whose idle process is not on the list and has a null
`next`, and where `current` is the idle process or a process on the list,
`schedule` returns and selects the idle process if and only if the list is
empty, i.e. `firstProcess` is null. In particular, after `Process::initialize`
with no process added, every tick selects the idle process and returns the
saved context of the idle process (the frame stored by that tick). -/
theorem idle_selected_iff (k : Kernel) (context : InterruptContext) (l : List Ptr)
    (idle : Process) (hL : k.Listed l)
    (hidle : k.procs[k.idleProcess]? = some idle) (hnext : idle.next = none)
    (hrun : k.runnable k.idleProcess = true) (hnot : k.idleProcess ∉ l)
    (hcur : k.current = k.idleProcess ∨ k.current ∈ l) :
    (∃ ret k', Process.schedule k context = some (ret, k') ∧
      (k'.current = k.idleProcess ↔ l = []) ∧ (l = [] ↔ k.firstProcess = none)) ∧
    (∀ (env : Platform) (kb k0 : Kernel) (rootFd : Option Ptr) (ctx : Nat → InterruptContext),
      Process.initialize env kb rootFd = some k0 → 0 < kb.spaces.length →
      ∀ n, ∃ kn k', Process.ticks ctx n k0 = some kn ∧ kn.current = k0.idleProcess ∧
        Process.schedule kn (ctx n) = some (some (ctx n), k') ∧
        k'.current = k0.idleProcess ∧
        (k'.procs[k0.idleProcess]?).bind (·.interruptContext) = some (ctx n)) := by
  have hfirst := isChain_head k.procs k.firstProcess l hL.chain
  have hempty : l = [] ↔ k.firstProcess = none := by
    rw [hfirst]
    cases l <;> simp
  constructor
  · rcases hcur with hc | hc
    · cases l with
      | nil =>
        have hsucc : Process.successor k idle = k.idleProcess := by
          unfold Process.successor
          rw [hnext, hfirst]
          rfl
        rw [← hc] at hidle
        obtain ⟨ret, k', h1, _, h3, _, _, _, _⟩ :=
          schedule_listed k context [] idle hL hidle (by rw [hsucc]; exact hrun)
        exact ⟨ret, k', h1, by rw [h3, hsucc]; simp, hempty⟩
      | cons a rest =>
        rw [← hc] at hidle
        obtain ⟨ret, k', h1, _, _, _, h5⟩ :=
          schedule_from_idle k context (a :: rest) idle hL (by simp) hidle hnext
        refine ⟨ret, k', h1, ?_, hempty⟩
        have hmem : k'.current ∈ a :: rest := getElem?_mem_of_some _ _ _ h5
        constructor
        · intro e
          exact absurd (e ▸ hmem) hnot
        · intro e
          cases e
    · obtain ⟨i, hi⟩ := List.getElem?_of_mem hc
      obtain ⟨ret, k', h1, _, _, _, h5⟩ := schedule_on_list k context l i hL hi
      refine ⟨ret, k', h1, ?_, hempty⟩
      have hmem : k'.current ∈ l := getElem?_mem_of_some _ _ _ h5
      constructor
      · intro e
        exact absurd (e ▸ hmem) hnot
      · intro e
        rw [e] at hc
        cases hc
  · intro env kb k0 rootFd ctx hinit hk n
    obtain ⟨i1, i2, i3, r0, i4, i5, i6, i7⟩ := initialize_spec env kb k0 rootFd hinit
    have hk0 : 0 < k0.spaces.length := by rw [i3]; exact hk
    have hinv : ∀ m, ∃ km r, Process.ticks ctx m k0 = some km ∧
        km.current = km.idleProcess ∧ km.idleProcess = k0.idleProcess ∧
        km.firstProcess = none ∧ km.procs[km.idleProcess]? = some r ∧ r.next = none ∧
        r.contextChanged = false ∧ r.addressSpace = some kernelSpace ∧
        0 < km.spaces.length := by
      intro m
      induction m with
      | zero => exact ⟨k0, r0, rfl, i1, rfl, i2, i4, i5, i6, i7, hk0⟩
      | succ m ih =>
        obtain ⟨km, r, t1, t2, t3, t4, t5, t6, t7, t8, t9⟩ := ih
        obtain ⟨k', r', s1, s2, s3, s4, s5, s6, s7, s8, _, s9⟩ :=
          schedule_idle_alone km (ctx m) r t2 t4 t5 t6 t7 t8 t9
        refine ⟨k', r', ?_, s2, by rw [s3, t3], s4, s5, s6, s7, s8, s9⟩
        rw [Process.ticks, t1]
        simp only [s1]
    obtain ⟨kn, r, t1, t2, t3, t4, t5, t6, t7, t8, t9⟩ := hinv n
    obtain ⟨k', r', s1, s2, s3, s4, s5, s6, s7, s8, s9, _⟩ :=
      schedule_idle_alone kn (ctx n) r t2 t4 t5 t6 t7 t8 t9
    refine ⟨kn, k', t1, by rw [t2, t3], s1, by rw [s2, s3, t3], ?_⟩
    rw [← t3, ← s3, s5]
    simp only [Option.some_bind, s9]

/-- C7 (witness): the sample kernel with processes 1 and 2 on the list and
process 2 current, where the tick does not select the idle process; and the
sample kernel with an empty list, where it does. -/
theorem idle_selected_iff_witness :
    (∃ ret k', Process.schedule
        { sampleKernel with
          procs := [Process.sample 0 0 (some 0),
            { Process.sample 1 1 none with prev := some 2 },
            { Process.sample 2 2 none with next := some 1 }, Process.sample 3 3 none]
          firstProcess := some 2
          current := 2 } (sampleFrames 0) = some (ret, k') ∧
      (k'.current = 0 ↔ ([2, 1] : List Ptr) = []) ∧
      (([2, 1] : List Ptr) = [] ↔ (some 2 : Option Ptr) = none)) ∧
    (∃ ret k', Process.schedule sampleKernel (sampleFrames 0) = some (ret, k') ∧
      (k'.current = sampleKernel.idleProcess ↔ ([] : List Ptr) = []) ∧
      (([] : List Ptr) = [] ↔ sampleKernel.firstProcess = none)) :=
  ⟨(idle_selected_iff
    { sampleKernel with
      procs := [Process.sample 0 0 (some 0),
        { Process.sample 1 1 none with prev := some 2 },
        { Process.sample 2 2 none with next := some 1 }, Process.sample 3 3 none]
      firstProcess := some 2
      current := 2 } (sampleFrames 0) [2, 1] (Process.sample 0 0 (some 0))
    ⟨by decide, by decide⟩ (by decide) (by decide) (by decide) (by decide) (by decide)).1,
   (idle_selected_iff sampleKernel (sampleFrames 0) [] (Process.sample 0 0 (some 0))
    ⟨by decide, by decide⟩ (by decide) (by decide) (by decide) (by decide) (by decide)).1⟩

/-- C8 (counterexample): with processes 1 and 2 on the list and process 2
running, process 2 calls `execute` on an image whose entry point is
`0x400000`; the next tick selects process 1, not process 2, and the context
it returns has `eip = 0`, not the entry point. -/
theorem execute_next_tick_selects_other :
    executeScenario = some (2, 1, some 0) ∧
    (samplePlatform.decode [127, 69, 76, 70]).header.e_entry = 4194304 := by
  decide

/-- C8 (amended): after the running process `p` returns from `execute(h)` on
a file holding an ELF image, the saved context of `p` has `eip` equal to the
image's `e_entry` (a 32-bit value), the next `schedule` tick leaves that
context in place and switches to the successor of `p` in the round-robin
order (`p.next`, else `firstProcess`, else the idle process); when that
successor is `p` itself, as it is when `p` has no `next` and is
`firstProcess`, the tick returns that context. -/
theorem execute_then_schedule (env : Platform) (k : Kernel) (descr : Ptr)
    (context : InterruptContext) (rv : Int) (k1 : Kernel) (r : Process)
    (hr : k.procs[k.current]? = some r)
    (hex : Process.execute env k k.current descr = some (rv, k1))
    (hnext : Process.successor k r ≠ k.current → k.runnable (Process.successor k r) = true) :
    ∃ ret k2 d file c, Process.schedule k1 context = some (ret, k2) ∧
      k.descriptions[descr]? = some d ∧ k.vnodes[d.vnode]? = some (Vnode.file file) ∧
      (k1.procs[k.current]?).bind (·.interruptContext) = some c ∧
      (k2.procs[k.current]?).bind (·.interruptContext) = some c ∧
      c.eip = (env.decode file.data).header.e_entry % 4294967296 ∧
      ((env.decode file.data).header.e_entry < 4294967296 →
        c.eip = (env.decode file.data).header.e_entry) ∧
      k2.current = Process.successor k r ∧
      (k2.current = k.current → ret = some c) ∧
      (r.next = none → k.firstProcess = some k.current → k2.current = k.current) := by
  obtain ⟨_, r0, r', d, file, stack, e1, e2, e3, e4, e5, e6, e7, e8, e9, e10, e11, e12, e13, e14⟩ :=
    execute_spec env k k.current descr rv k1 hex
  have hrr : r0 = r := by
    rw [hr] at e1
    exact (Option.some.inj e1).symm
  subst hrr
  have hcur1 : k1.procs[k1.current]? = some r' := by
    rw [e12, e4, getElem?_set_of_some k.procs k.current r0 _ hr, if_pos rfl]
  have hflag : r'.contextChanged = true := by rw [e9]; simp
  have hsucc1 : Process.successor k1 r' = Process.successor k r0 := by
    unfold Process.successor
    rw [e5, e13, e14]
  have hrun : k1.runnable (Process.successor k1 r') = true := by
    rw [hsucc1]
    by_cases hs : Process.successor k r0 = k.current
    · rw [hs]
      unfold Kernel.runnable
      rw [← e12, hcur1]
      simp only [e10, decide_eq_true_eq]
      rw [e11]
      exact Nat.lt_succ_self _
    · have h0 := hnext hs
      unfold Kernel.runnable at h0 ⊢
      rw [e4, getElem?_set_of_some k.procs k.current r0 _ hr, if_neg hs]
      cases hq : k.procs[Process.successor k r0]? with
      | none => rw [hq] at h0; simp at h0
      | some rq =>
        rw [hq] at h0
        simp only at h0 ⊢
        cases ha : rq.addressSpace with
        | none => rw [ha] at h0; simp at h0
        | some a =>
          rw [ha] at h0
          simp only [decide_eq_true_eq] at h0 ⊢
          rw [e11]
          exact Nat.lt_succ_of_lt h0
  obtain ⟨rs, space, s1, s2, s3, s4⟩ := schedule_eq k1 context r' hcur1 hrun
  have hsave : Process.saveContext r' context = { r' with contextChanged := false } := by
    unfold Process.saveContext
    simp [hflag]
  have hc : (Process.startContext ((env.decode file.data).header.e_entry % 4294967296)
      stack).eip = (env.decode file.data).header.e_entry % 4294967296 := by
    simp [Process.startContext]
  have hk2 : ({ k1 with procs := k1.procs.set k1.current (Process.saveContext r' context)
                        current := Process.successor k1 r'
                        kernelStackTop := (rs.kernelStack + 4096) % 4294967296
                        activeSpace := some space } : Kernel).procs[k.current]?
      = some { r' with contextChanged := false } := by
    simp only
    rw [e12, getElem?_set_of_some k1.procs k.current r' _ (by rw [← e12]; exact hcur1),
      if_pos rfl, hsave]
  refine ⟨_, _, d, file, _, s4, e2, e3, ?_, ?_, hc, ?_, ?_, ?_, ?_⟩
  · rw [← e12, hcur1]
    simp only [Option.some_bind, e8]
  · rw [hk2]
    simp only [Option.some_bind, e8]
  · intro hlt
    rw [hc, Nat.mod_eq_of_lt hlt]
  · simp only [hsucc1]
  · intro hsel
    simp only [hsucc1] at hsel
    rw [hsucc1, hsel, e12,
      getElem?_set_of_some k1.procs k.current r' _ (by rw [← e12]; exact hcur1), if_pos rfl,
      hsave] at s1
    rw [← Option.some.inj s1]
    exact e8
  · intro hn hf
    simp only [hsucc1]
    unfold Process.successor
    rw [hn, hf]

/-- C8 (witness): process 1, alone on the list and running, calls `execute`;
the next tick selects process 1 again. -/
theorem execute_then_schedule_witness :
    ∃ k1, Process.execute samplePlatform
        { sampleKernel with
          procs := [Process.sample 0 0 (some 0), Process.sample 1 1 none,
            Process.sample 2 2 none, Process.sample 3 3 none]
          firstProcess := some 1
          current := 1 } 1 0 = some (0, k1) ∧
      ∃ ret k2 d file c, Process.schedule k1 (sampleFrames 0) = some (ret, k2) ∧
        sampleKernel.descriptions[0]? = some d ∧
        sampleKernel.vnodes[d.vnode]? = some (Vnode.file file) ∧
        (k1.procs[1]?).bind (·.interruptContext) = some c ∧
        (k2.procs[1]?).bind (·.interruptContext) = some c ∧
        c.eip = (samplePlatform.decode file.data).header.e_entry % 4294967296 ∧
        ((samplePlatform.decode file.data).header.e_entry < 4294967296 →
          c.eip = (samplePlatform.decode file.data).header.e_entry) ∧
        k2.current = Process.successor
          { sampleKernel with
            procs := [Process.sample 0 0 (some 0), Process.sample 1 1 none,
              Process.sample 2 2 none, Process.sample 3 3 none]
            firstProcess := some 1
            current := 1 } (Process.sample 1 1 none) ∧
        (k2.current = 1 → ret = some c) ∧
        ((Process.sample 1 1 none).next = none → some 1 = some 1 → k2.current = 1) :=
  ⟨_, rfl,
    execute_then_schedule samplePlatform
      { sampleKernel with
        procs := [Process.sample 0 0 (some 0), Process.sample 1 1 none,
          Process.sample 2 2 none, Process.sample 3 3 none]
        firstProcess := some 1
        current := 1 } 0 (sampleFrames 0) 0 _ (Process.sample 1 1 none) (by decide) rfl
      (by decide)⟩

/-- C9: context publication. For every state whose current record exists and
whose successor can be switched to, and every incoming frame, `schedule`
returns; the record of the outgoing process gets the frame when its
`contextChanged` flag is clear, and keeps its saved frame and loses the flag
when the flag is set; its flag is clear afterwards, nothing else in it
changes, and no other record is modified. Hence, when the state is the one a
call of `execute` by the current process left, the tick keeps the frame
`execute` wrote instead of storing the incoming one. -/
theorem schedule_context_publication (k : Kernel) (context : InterruptContext)
    (cur : Process) (hcur : k.procs[k.current]? = some cur)
    (hnext : k.runnable (Process.successor k cur) = true) :
    ∃ ret k' cur', Process.schedule k context = some (ret, k') ∧
      k'.procs[k.current]? = some cur' ∧
      (cur.contextChanged = false → cur' = { cur with interruptContext := some context }) ∧
      (cur.contextChanged = true →
        cur' = { cur with contextChanged := false } ∧
        cur'.interruptContext = cur.interruptContext) ∧
      cur'.contextChanged = false ∧
      (∀ q : Ptr, q ≠ k.current → k'.procs[q]? = k.procs[q]?) ∧
      k'.procs.length = k.procs.length ∧
      (∀ (env : Platform) (k0 : Kernel) (descr : Ptr) (rv : Int),
        Process.execute env k0 k0.current descr = some (rv, k) →
        cur.contextChanged = true ∧ cur'.interruptContext = cur.interruptContext ∧
        ∃ entry stack, cur'.interruptContext = some (Process.startContext entry stack)) := by
  obtain ⟨r, space, h1, h2, h3, h4⟩ := schedule_eq k context cur hcur hnext
  have hlook : ∀ q : Ptr, (k.procs.set k.current (Process.saveContext cur context))[q]?
      = if q = k.current then some (Process.saveContext cur context) else k.procs[q]? :=
    fun q => getElem?_set_of_some k.procs k.current cur _ hcur q
  have hclear : cur.contextChanged = false →
      Process.saveContext cur context = { cur with interruptContext := some context } := by
    intro hf
    unfold Process.saveContext
    simp [hf]
  have hset : cur.contextChanged = true →
      Process.saveContext cur context = { cur with contextChanged := false } := by
    intro hf
    unfold Process.saveContext
    simp [hf]
  have hflag : (Process.saveContext cur context).contextChanged = false := by
    cases hf : cur.contextChanged
    · rw [hclear hf]
      exact hf
    · rw [hset hf]
  refine ⟨_, _, Process.saveContext cur context, h4, ?_, hclear, ?_, hflag, ?_, ?_, ?_⟩
  · simp only
    rw [hlook k.current, if_pos rfl]
  · intro hf
    rw [hset hf]
    exact ⟨rfl, rfl⟩
  · intro q hq
    simp only
    rw [hlook q, if_neg hq]
  · simp only [List.length_set]
  · intro env k0 descr rv hex
    obtain ⟨_, r0, r', d, file, stack, _, _, _, e4, _, _, _, e8, e9, _, _, e12, _, _⟩ :=
      execute_spec env k0 k0.current descr rv k hex
    have hr0 : k0.procs[k0.current]? = some r0 := by assumption
    have hcr : cur = r' := by
      rw [e12, e4, getElem?_set_of_some k0.procs k0.current r0 _ hr0, if_pos rfl] at hcur
      exact (Option.some.inj hcur).symm
    have hf : cur.contextChanged = true := by
      rw [hcr, e9]
      simp
    refine ⟨hf, ?_, (env.decode file.data).header.e_entry % 4294967296, stack, ?_⟩
    · rw [hset hf]
    · rw [hset hf]
      simp only
      rw [hcr, e8]

/-- C9 (witness): process 1, alone on the list and running, has its flag set
(as `execute` leaves it); the tick keeps its saved frame and clears the
flag. -/
theorem schedule_context_publication_witness :
    ∃ ret k' cur', Process.schedule
        { sampleKernel with
          procs := [Process.sample 0 0 (some 0),
            { Process.sample 1 1 none with contextChanged := true },
            Process.sample 2 2 none, Process.sample 3 3 none]
          firstProcess := some 1
          current := 1 } (sampleFrames 7) = some (ret, k') ∧
      k'.procs[1]? = some cur' ∧
      cur'.interruptContext = some InterruptContext.zero ∧
      cur'.contextChanged = false := by
  obtain ⟨ret, k', cur', h1, h2, _, h4, h5, _⟩ := schedule_context_publication
    { sampleKernel with
      procs := [Process.sample 0 0 (some 0),
        { Process.sample 1 1 none with contextChanged := true },
        Process.sample 2 2 none, Process.sample 3 3 none]
      firstProcess := some 1
      current := 1 } (sampleFrames 7) { Process.sample 1 1 none with contextChanged := true }
    (by decide) (by decide)
  exact ⟨ret, k', cur', h1, h2, (h4 rfl).2, h5⟩

/-! ## Claims about the descriptor table -/

theorem registerLoop_found (fd : List (Option Ptr)) (descr : Option Ptr) (m : Nat)
    (hm : fd[m]? = some none) :
    ∀ (fuel i : Nat), i ≤ m → m < i + fuel →
      (∀ j, i ≤ j → j < m → fd[j]? ≠ some none) →
      Process.registerLoop fd descr fuel i = some (.ok m, fd.set m descr) := by
  have hmlt : m < fd.length := by
    by_contra hn
    rw [List.getElem?_eq_none (Nat.le_of_not_lt hn)] at hm
    cases hm
  intro fuel
  induction fuel with
  | zero => intro i h1 h2 _; omega
  | succ fuel ih =>
    intro i h1 h2 hfull
    unfold Process.registerLoop
    by_cases him : i = m
    · subst him
      simp only [hm]
    · have hlt : i < m := by omega
      have hi := hfull i (le_refl _) hlt
      have hil : i < fd.length := by omega
      rw [List.getElem?_eq_getElem hil] at hi ⊢
      cases hx : fd[i] with
      | none => rw [hx] at hi; exact absurd rfl hi
      | some x =>
        simp only
        exact ih (i + 1) (by omega) (by omega) (fun j hj1 hj2 => hfull j (by omega) hj2)

theorem registerLoop_full (fd : List (Option Ptr)) (descr : Option Ptr) :
    ∀ (fuel i : Nat), i + fuel ≤ fd.length →
      (∀ j, i ≤ j → j < i + fuel → fd[j]? ≠ some none) →
      Process.registerLoop fd descr fuel i = some (.error .EMFILE, fd) := by
  intro fuel
  induction fuel with
  | zero => intro i _ _; rfl
  | succ fuel ih =>
    intro i hle hfull
    unfold Process.registerLoop
    have hi := hfull i (le_refl _) (by omega)
    have hil : i < fd.length := by omega
    rw [List.getElem?_eq_getElem hil] at hi ⊢
    cases hx : fd[i] with
    | none => rw [hx] at hi; exact absurd rfl hi
    | some x =>
      simp only
      exact ih (i + 1) (by omega) (fun j hj1 hj2 => hfull j (by omega) (by omega))

/-- C10: `registerFileDescriptor` on a table of `OPEN_MAX` slots. If some
slot is empty, it returns the least index `i` whose slot is empty, stores the
handle in slot `i` and leaves every other slot (and the rest of the record)
unchanged; if no slot is empty it fails with `EMFILE` and leaves the table
unchanged. -/
theorem registerFileDescriptor_spec (env : Platform) (self : Process) (descr : Option Ptr)
    (hlen : self.fd.length = env.openMax) :
    (∀ i, i < env.openMax → self.fd[i]? = some none →
      (∀ j, j < i → self.fd[j]? ≠ some none) →
      Process.registerFileDescriptor env self descr
        = some (.ok i, { self with fd := self.fd.set i descr }) ∧
      (self.fd.set i descr)[i]? = some descr ∧
      (∀ j, j ≠ i → (self.fd.set i descr)[j]? = self.fd[j]?) ∧
      (self.fd.set i descr).length = env.openMax) ∧
    ((∀ i, i < env.openMax → self.fd[i]? ≠ some none) →
      Process.registerFileDescriptor env self descr = some (.error .EMFILE, self)) := by
  constructor
  · intro i hi hempty hleast
    refine ⟨?_, ?_, ?_, ?_⟩
    · unfold Process.registerFileDescriptor
      rw [registerLoop_found self.fd descr i hempty env.openMax 0 (Nat.zero_le _) (by omega)
        (fun j _ hj => hleast j hj)]
    · rw [List.getElem?_set]
      simp [hlen, hi]
    · intro j hj
      have hne : ¬ i = j := fun e => hj e.symm
      rw [List.getElem?_set, if_neg hne]
    · rw [List.length_set, hlen]
  · intro hfull
    unfold Process.registerFileDescriptor
    rw [registerLoop_full self.fd descr env.openMax 0 (by omega)
      (fun j _ hj => hfull j (by omega))]

/-- C10 (witness): a four-slot table with slots 0 and 1 taken gets the handle
in slot 2; a full table is refused. -/
theorem registerFileDescriptor_spec_witness :
    Process.registerFileDescriptor samplePlatform
        { Process.sample 1 1 none with fd := [some 5, some 6, none, none] } (some 9)
      = some (.ok 2, { Process.sample 1 1 none with fd := [some 5, some 6, some 9, none] }) ∧
    Process.registerFileDescriptor samplePlatform
        { Process.sample 1 1 none with fd := [some 5, some 6, some 7, some 8] } (some 9)
      = some (.error .EMFILE,
          { Process.sample 1 1 none with fd := [some 5, some 6, some 7, some 8] }) :=
  ⟨((registerFileDescriptor_spec samplePlatform
      { Process.sample 1 1 none with fd := [some 5, some 6, none, none] } (some 9)
      (by decide)).1 2 (by decide) (by decide) (by decide)).1,
    (registerFileDescriptor_spec samplePlatform
      { Process.sample 1 1 none with fd := [some 5, some 6, some 7, some 8] } (some 9)
      (by decide)).2 (by decide)⟩

/-! ## Claims about the ELF loader -/

theorem loadSegment_eq (space : AddressSpace) (elf : ElfImage) (ph : ProgramHeader) :
    Process.loadSegment space elf ph =
      if Process.segmentOffset ph + ph.p_memsz ≤ Process.segmentSize ph ∧
          Process.segmentOffset ph + ph.p_filesz ≤ Process.segmentSize ph ∧
          ph.p_offset + ph.p_filesz ≤ elf.bytes.length then
        some
          { mappings := { base := Process.segmentBase ph, size := Process.segmentSize ph,
                          prot := Prot.rwx } :: space.mappings
            memory := fun a =>
              if ph.p_paddr ≤ a ∧ a < ph.p_paddr + ph.p_filesz then
                elf.bytes.getD (ph.p_offset + (a - ph.p_paddr)) 0
              else if ph.p_paddr ≤ a ∧ a < ph.p_paddr + ph.p_memsz then 0
              else space.memory a }
      else none := rfl

/-- The arithmetic of a segment whose rounded size fits 32 bits. -/
theorem segment_arith (ph : ProgramHeader)
    (hfit : ph.p_memsz + ph.p_paddr % 4096 ≤ 4294963200) :
    Process.segmentBase ph % 4096 = 0 ∧ Process.segmentBase ph ≤ ph.p_paddr ∧
    Process.segmentOffset ph = ph.p_paddr % 4096 ∧
    Process.segmentOffset ph < 4096 ∧
    Process.segmentSize ph = ALIGNUP (ph.p_memsz + Process.segmentOffset ph) 4096 ∧
    Process.segmentSize ph % 4096 = 0 ∧
    ph.p_memsz + Process.segmentOffset ph ≤ Process.segmentSize ph ∧
    Process.segmentSize ph < ph.p_memsz + Process.segmentOffset ph + 4096 ∧
    ph.p_paddr + ph.p_memsz ≤ Process.segmentBase ph + Process.segmentSize ph := by
  have hoff : Process.segmentOffset ph = ph.p_paddr % 4096 := by
    unfold Process.segmentOffset Process.segmentBase
    omega
  have hsize : Process.segmentSize ph = ALIGNUP (ph.p_memsz + Process.segmentOffset ph) 4096 := by
    unfold Process.segmentSize ALIGNUP
    rw [hoff]
    omega
  have hbase : Process.segmentBase ph = ph.p_paddr - ph.p_paddr % 4096 := rfl
  refine ⟨by omega, by omega, hoff, by omega, hsize, ?_, ?_, ?_, ?_⟩
  all_goals
    rw [hsize, hoff]
    unfold ALIGNUP
    omega

/-- A placeable segment satisfies the fit condition of `segment_arith`. -/
theorem placeable_fit (ph : ProgramHeader) (elf : ElfImage) (h : ph.placeable elf) :
    ph.p_memsz + ph.p_paddr % 4096 ≤ 4294963200 := by
  obtain ⟨_, _, h3⟩ := h
  have hoff : Process.segmentOffset ph = ph.p_paddr % 4096 := by
    unfold Process.segmentOffset Process.segmentBase
    omega
  rw [hoff] at h3
  unfold ALIGNUP Process.segmentBase at h3
  omega

theorem loadSegment_placeable (space : AddressSpace) (elf : ElfImage) (ph : ProgramHeader)
    (hfit : ph.p_memsz + ph.p_paddr % 4096 ≤ 4294963200) (hfile : ph.p_filesz ≤ ph.p_memsz)
    (himg : ph.p_offset + ph.p_filesz ≤ elf.bytes.length) :
    ∃ space', Process.loadSegment space elf ph = some space' ∧
      space'.mappings = { base := Process.segmentBase ph, size := Process.segmentSize ph,
                          prot := Prot.rwx } :: space.mappings ∧
      (∀ j, j < ph.p_filesz →
        space'.memory (ph.p_paddr + j) = elf.bytes.getD (ph.p_offset + j) 0) ∧
      (∀ j, ph.p_filesz ≤ j → j < ph.p_memsz → space'.memory (ph.p_paddr + j) = 0) ∧
      (∀ a, ¬ ph.holds a → space'.memory a = space.memory a) := by
  obtain ⟨_, _, _, _, _, _, a7, _, _⟩ := segment_arith ph hfit
  have hcond : Process.segmentOffset ph + ph.p_memsz ≤ Process.segmentSize ph ∧
      Process.segmentOffset ph + ph.p_filesz ≤ Process.segmentSize ph ∧
      ph.p_offset + ph.p_filesz ≤ elf.bytes.length := ⟨by omega, by omega, himg⟩
  rw [loadSegment_eq, if_pos hcond]
  refine ⟨_, rfl, rfl, ?_, ?_, ?_⟩
  · intro j hj
    have c : ph.p_paddr ≤ ph.p_paddr + j ∧ ph.p_paddr + j < ph.p_paddr + ph.p_filesz := by omega
    simp only [if_pos c]
    congr 1
    omega
  · intro j h1 h2
    have c1 : ¬ (ph.p_paddr ≤ ph.p_paddr + j ∧ ph.p_paddr + j < ph.p_paddr + ph.p_filesz) := by
      omega
    have c2 : ph.p_paddr ≤ ph.p_paddr + j ∧ ph.p_paddr + j < ph.p_paddr + ph.p_memsz := by omega
    simp only [if_neg c1, if_pos c2]
  · intro a ha
    unfold ProgramHeader.holds at ha
    have c1 : ¬ (ph.p_paddr ≤ a ∧ a < ph.p_paddr + ph.p_filesz) := by omega
    simp only [if_neg c1, if_neg ha]

/-- The loop of `loadELF` from header `i` on, over placeable segments on
pairwise disjoint pages: every loadable segment from `i` on holds its image,
and addresses outside these segments keep their bytes. -/
theorem loadSegments_image (elf : ElfImage) (n : Nat)
    (hnum : n ≤ elf.programHeader.length)
    (hok : ∀ m ph, m < n → elf.programHeader[m]? = some ph → ph.p_type = PT_LOAD →
      ph.placeable elf)
    (hdis : ∀ m1 m2 p1 p2, m1 < n → m2 < n → m1 ≠ m2 →
      elf.programHeader[m1]? = some p1 → elf.programHeader[m2]? = some p2 →
      p1.p_type = PT_LOAD → p2.p_type = PT_LOAD → p1.disjointPages p2) :
    ∀ (fuel i : Nat) (s : AddressSpace), i + fuel = n →
      ∃ s', Process.loadSegments elf fuel i s = some s' ∧
        (∀ a, (∀ m ph, i ≤ m → m < n → elf.programHeader[m]? = some ph →
            ph.p_type = PT_LOAD → ¬ ph.holds a) → s'.memory a = s.memory a) ∧
        (∀ m ph, i ≤ m → m < n → elf.programHeader[m]? = some ph → ph.p_type = PT_LOAD →
          (∀ j, j < ph.p_filesz →
            s'.memory (ph.p_paddr + j) = elf.bytes.getD (ph.p_offset + j) 0) ∧
          (∀ j, ph.p_filesz ≤ j → j < ph.p_memsz → s'.memory (ph.p_paddr + j) = 0) ∧
          ({ base := Process.segmentBase ph, size := Process.segmentSize ph,
             prot := Prot.rwx } : Mapping) ∈ s'.mappings) ∧
        (∀ x, x ∈ s.mappings → x ∈ s'.mappings) := by
  intro fuel
  induction fuel with
  | zero =>
    intro i s hi
    refine ⟨s, rfl, fun _ _ => rfl, ?_, fun _ hx => hx⟩
    intro m ph h1 h2
    omega
  | succ fuel ih =>
    intro i s hi
    have hilt : i < elf.programHeader.length := by omega
    unfold Process.loadSegments
    rw [List.getElem?_eq_getElem hilt]
    simp only
    have hget : elf.programHeader[i]? = some elf.programHeader[i] :=
      List.getElem?_eq_getElem hilt
    by_cases hty : elf.programHeader[i].p_type ≠ PT_LOAD
    · rw [if_pos hty]
      obtain ⟨s', e1, e2, e3, e4⟩ := ih (i + 1) s (by omega)
      refine ⟨s', e1, ?_, ?_, e4⟩
      · intro a ha
        exact e2 a (fun m ph h1 h2 h3 h4 => ha m ph (by omega) h2 h3 h4)
      · intro m ph h1 h2 h3 h4
        by_cases hm : m = i
        · subst hm
          rw [hget] at h3
          rw [← Option.some.inj h3] at h4
          exact absurd h4 hty
        · exact e3 m ph (by omega) h2 h3 h4
    · rw [if_neg hty]
      have hload : elf.programHeader[i].p_type = PT_LOAD := by
        by_contra h
        exact hty h
      have hpl := hok i _ (by omega) hget hload
      have hfit := placeable_fit _ elf hpl
      obtain ⟨s1, l1, l2, l3, l4, l5⟩ :=
        loadSegment_placeable s elf elf.programHeader[i] hfit hpl.1 hpl.2.1
      rw [l1]
      simp only
      obtain ⟨s', e1, e2, e3, e4⟩ := ih (i + 1) s1 (by omega)
      have hlater : ∀ a, elf.programHeader[i].holds a →
          ∀ m ph, i + 1 ≤ m → m < n → elf.programHeader[m]? = some ph →
            ph.p_type = PT_LOAD → ¬ ph.holds a := by
        intro a ha m ph h1 h2 h3 h4 hb
        have hd := hdis i m _ ph (by omega) h2 (by omega) hget h3 hload h4
        have hfit2 := placeable_fit _ elf (hok m ph h2 h3 h4)
        obtain ⟨_, b2, _, _, _, _, _, _, b9⟩ := segment_arith _ hfit
        obtain ⟨_, c2, _, _, _, _, _, _, c9⟩ := segment_arith ph hfit2
        unfold ProgramHeader.holds at ha hb
        unfold ProgramHeader.disjointPages at hd
        omega
      refine ⟨s', e1, ?_, ?_, ?_⟩
      · intro a ha
        rw [e2 a (fun m ph h1 h2 h3 h4 => ha m ph (by omega) h2 h3 h4)]
        exact l5 a (ha i _ (le_refl _) (by omega) hget hload)
      · intro m ph h1 h2 h3 h4
        by_cases hm : m = i
        · subst hm
          rw [hget] at h3
          have hph := Option.some.inj h3
          subst hph
          refine ⟨?_, ?_, e4 _ (by rw [l2]; exact List.mem_cons_self _ _)⟩
          · intro j hj
            have hin : elf.programHeader[m].holds (elf.programHeader[m].p_paddr + j) := by
              unfold ProgramHeader.holds
              have := hpl.1
              omega
            rw [e2 _ (hlater _ hin)]
            exact l3 j hj
          · intro j hj1 hj2
            have hin : elf.programHeader[m].holds (elf.programHeader[m].p_paddr + j) := by
              unfold ProgramHeader.holds
              omega
            rw [e2 _ (hlater _ hin)]
            exact l4 j hj1 hj2
        · exact e3 m ph (by omega) h2 h3 h4
      · intro x hx
        exact e4 x (by rw [l2]; exact List.mem_cons_of_mem _ hx)

/-- C12: segment image. For an ELF image whose header table holds `e_phnum`
entries and whose `PT_LOAD` headers are placeable (`p_filesz ≤ p_memsz`, the
file part inside the image, the pages inside the 32-bit address space) and
occupy pairwise disjoint pages, `loadELF` returns, and in the address space it
gives the process the byte at `p_paddr + j` is the image byte at
`p_offset + j` for `j < p_filesz` and 0 for `p_filesz ≤ j < p_memsz`, for
every `PT_LOAD` header; its pages `[base, base + size)` are reserved. The
frames the address space is made of hold indeterminate bytes (`k.frames`), and
every address outside the segments still shows them: the zeros are the work of
the `memset`. -/
theorem loadELF_segment_image (k : Kernel) (self : Ptr) (elf : ElfImage) (r : Process)
    (hr : k.procs[self]? = some r)
    (hnum : elf.header.e_phnum ≤ elf.programHeader.length)
    (hok : ∀ m ph, m < elf.header.e_phnum → elf.programHeader[m]? = some ph →
      ph.p_type = PT_LOAD → ph.placeable elf)
    (hdis : ∀ m1 m2 p1 p2, m1 < elf.header.e_phnum → m2 < elf.header.e_phnum → m1 ≠ m2 →
      elf.programHeader[m1]? = some p1 → elf.programHeader[m2]? = some p2 →
      p1.p_type = PT_LOAD → p2.p_type = PT_LOAD → p1.disjointPages p2) :
    ∃ k1 r1 space, Process.loadELF k self elf = some (elf.header.e_entry % 4294967296, k1) ∧
      k1.procs[self]? = some r1 ∧ r1.addressSpace = some k.spaces.length ∧
      k1.spaces[k.spaces.length]? = some space ∧
      (∀ m ph, m < elf.header.e_phnum → elf.programHeader[m]? = some ph →
        ph.p_type = PT_LOAD →
        (∀ j, j < ph.p_filesz →
          space.memory (ph.p_paddr + j) = elf.bytes.getD (ph.p_offset + j) 0) ∧
        (∀ j, ph.p_filesz ≤ j → j < ph.p_memsz → space.memory (ph.p_paddr + j) = 0) ∧
        ({ base := Process.segmentBase ph, size := Process.segmentSize ph,
           prot := Prot.rwx } : Mapping) ∈ space.mappings) ∧
      ∀ a, (∀ m ph, m < elf.header.e_phnum → elf.programHeader[m]? = some ph →
        ph.p_type = PT_LOAD → ¬ ph.holds a) → space.memory a = k.frames a := by
  obtain ⟨s', e1, e2, e3, _⟩ := loadSegments_image elf elf.header.e_phnum hnum hok hdis
    elf.header.e_phnum 0 (AddressSpace.empty k.frames) (by omega)
  unfold Process.loadELF
  simp only [hr, e1]
  refine ⟨_, { r with addressSpace := some k.spaces.length }, s', rfl, ?_, rfl, ?_, ?_, ?_⟩
  · simp only
    rw [getElem?_set_of_some k.procs self r _ hr self, if_pos rfl]
  · simp only
    exact List.getElem?_concat_length _ _
  · intro m ph h1 h2 h3
    exact e3 m ph (Nat.zero_le _) h1 h2 h3
  · intro a ha
    rw [e2 a (fun m ph _ h1 h2 h3 => ha m ph h1 h2 h3)]
    rfl

theorem scenarioImage_length : scenarioImage.bytes.length = 4352 :=
  List.length_replicate _ _

/-- C12 (witness): end-to-end scenario 2 of the spec. The image with one
`PT_LOAD` header (`p_offset = 0x1000`, `p_filesz = 0x100`, `p_memsz = 0x200`,
`p_paddr = 0x400000`) loaded for process 1 of the sample kernel, whose frames
hold `0xCC`: the bytes at `0x400000 ..< 0x400100` are the image bytes (all
`0x5A`), those at `0x400100 ..< 0x400200` are zero, and the byte after them is
still `0xCC`. -/
theorem loadELF_segment_image_witness :
    ∃ k1 space, Process.loadELF sampleKernel 1 scenarioImage = some (4194304, k1) ∧
      k1.spaces[4]? = some space ∧
      (∀ j, j < 256 → space.memory (4194304 + j) = 90) ∧
      (∀ j, 256 ≤ j → j < 512 → space.memory (4194304 + j) = 0) ∧
      space.memory (4194304 + 512) = 204 := by
  have hhead : ∀ m ph, m < scenarioImage.header.e_phnum →
      scenarioImage.programHeader[m]? = some ph →
      ph = { p_type := PT_LOAD, p_offset := 4096, p_paddr := 4194304,
             p_filesz := 256, p_memsz := 512 } := by
    intro m ph hm h
    have hm0 : m = 0 := by
      have : scenarioImage.header.e_phnum = 1 := rfl
      omega
    subst hm0
    simp only [scenarioImage, List.getElem?_cons_zero, Option.some.injEq] at h
    exact h.symm
  obtain ⟨k1, r1, space, h1, _, _, h4, h5, h6⟩ :=
    loadELF_segment_image sampleKernel 1 scenarioImage (Process.sample 1 1 none) (by decide)
      (by decide)
      (by
        intro m ph hm h _
        rw [hhead m ph hm h]
        refine ⟨by decide, ?_, by decide⟩
        rw [scenarioImage_length]
        decide)
      (by
        intro m1 m2 p1 p2 h1 h2 hne
        have : scenarioImage.header.e_phnum = 1 := rfl
        omega)
  obtain ⟨g1, g2, _⟩ := h5 0
    { p_type := PT_LOAD, p_offset := 4096, p_paddr := 4194304, p_filesz := 256, p_memsz := 512 }
    (by decide) rfl rfl
  refine ⟨k1, space, h1, h4, ?_, ?_, ?_⟩
  · intro j hj
    have hlt : 4096 + j < 4352 := by omega
    have hb : scenarioImage.bytes.getD (4096 + j) 0 = 90 := by
      unfold scenarioImage
      rw [List.getD_eq_getElem?_getD, List.getElem?_replicate, if_pos hlt]
      rfl
    rw [← hb]
    exact g1 j hj
  · intro j hj1 hj2
    exact g2 j hj1 hj2
  · rw [h6]
    · rfl
    · intro m ph hm h _
      rw [hhead m ph hm h]
      unfold ProgramHeader.holds
      simp only
      omega

/-- C20 (counterexample): a `PT_LOAD` header with `p_paddr = 0` and
`p_memsz = 0xFFFFFFFF`. The size `loadELF` computes in 32-bit arithmetic is 0,
not a multiple of 4096 at or above `p_memsz + offset`, and
`p_paddr + p_memsz` lies beyond `base + size`. -/
theorem segment_size_wraps :
    Process.segmentSize { p_type := PT_LOAD, p_offset := 0, p_paddr := 0, p_filesz := 0,
                          p_memsz := 4294967295 } = 0 ∧
    Process.segmentOffset { p_type := PT_LOAD, p_offset := 0, p_paddr := 0, p_filesz := 0,
                            p_memsz := 4294967295 } = 0 ∧
    ¬ (4294967295 + 0 ≤ 0) ∧
    Process.loadSegment (AddressSpace.empty (fun _ => 204)) scenarioImage
      { p_type := PT_LOAD, p_offset := 0, p_paddr := 0, p_filesz := 0,
        p_memsz := 4294967295 } = none := by
  refine ⟨by decide, by decide, by decide, ?_⟩
  rw [loadSegment_eq]
  rfl

/-- C20 (amended): segment mapping arithmetic. For a `PT_LOAD` program header
with `p_memsz + offset ≤ 2^32 - 4096`, so that the rounded size fits the 32
bits of `size_t`, with `p_filesz ≤ p_memsz` and its file part inside the
image: `base` is `p_paddr` rounded down to a multiple of 4096,
`offset = p_paddr - base < 4096`, `size` is the least multiple of 4096 that is
at least `p_memsz + offset`, `base ≤ p_paddr` and
`p_paddr + p_memsz ≤ base + size`; the loop body reserves `[base, base + size)`
with `READ|WRITE|EXEC` and changes bytes inside that range only; and the loop
skips every header whose `p_type` is not `PT_LOAD`, reserving and writing
nothing for it. -/
theorem segment_mapping (space : AddressSpace) (elf : ElfImage) (ph : ProgramHeader)
    (hfit : ph.p_memsz + ph.p_paddr % 4096 ≤ 4294963200) (hfile : ph.p_filesz ≤ ph.p_memsz)
    (himg : ph.p_offset + ph.p_filesz ≤ elf.bytes.length) :
    Process.segmentBase ph % 4096 = 0 ∧ Process.segmentBase ph ≤ ph.p_paddr ∧
    ph.p_paddr < Process.segmentBase ph + 4096 ∧
    Process.segmentOffset ph = ph.p_paddr - Process.segmentBase ph ∧
    Process.segmentOffset ph < 4096 ∧
    Process.segmentSize ph % 4096 = 0 ∧
    ph.p_memsz + Process.segmentOffset ph ≤ Process.segmentSize ph ∧
    (∀ m, m % 4096 = 0 → ph.p_memsz + Process.segmentOffset ph ≤ m →
      Process.segmentSize ph ≤ m) ∧
    ph.p_paddr + ph.p_memsz ≤ Process.segmentBase ph + Process.segmentSize ph ∧
    (∃ space', Process.loadSegment space elf ph = some space' ∧
      space'.mappings = { base := Process.segmentBase ph, size := Process.segmentSize ph,
                          prot := Prot.rwx } :: space.mappings ∧
      (∀ a, space'.memory a ≠ space.memory a →
        Process.segmentBase ph ≤ a ∧ a < Process.segmentBase ph + Process.segmentSize ph)) ∧
    (∀ (fuel i : Nat) (s : AddressSpace), elf.programHeader[i]? = some ph →
      ph.p_type = PT_LOAD →
      Process.loadSegments elf (fuel + 1) i s
        = (Process.loadSegment s elf ph).bind (Process.loadSegments elf fuel (i + 1))) ∧
    (∀ (other : ProgramHeader) (fuel i : Nat) (s : AddressSpace),
      elf.programHeader[i]? = some other → other.p_type ≠ PT_LOAD →
      Process.loadSegments elf (fuel + 1) i s = Process.loadSegments elf fuel (i + 1) s) := by
  obtain ⟨a1, a2, a3, a4, a5, a6, a7, a8, a9⟩ := segment_arith ph hfit
  obtain ⟨space', l1, l2, _, _, l5⟩ := loadSegment_placeable space elf ph hfit hfile himg
  refine ⟨a1, a2, ?_, rfl, a4, a6, a7, ?_, a9, ⟨space', l1, l2, ?_⟩, ?_, ?_⟩
  · unfold Process.segmentBase
    omega
  · intro m hm hle
    omega
  · intro a ha
    by_contra hout
    apply ha
    apply l5
    unfold ProgramHeader.holds
    omega
  · intro fuel i s hget hty
    rw [Process.loadSegments]
    simp only [hget]
    have hn : ¬ (ph.p_type ≠ PT_LOAD) := fun h => h hty
    rw [if_neg hn]
    cases Process.loadSegment s elf ph <;> rfl
  · intro other fuel i s hget hty
    rw [Process.loadSegments]
    simp only [hget]
    rw [if_pos hty]

/-- C20 (witness): the header of scenario 2, with `p_paddr = 0x400000` and
`p_memsz = 0x200`: `base = 0x400000`, `offset = 0`, `size = 0x1000`. -/
theorem segment_mapping_witness :
    Process.segmentBase { p_type := PT_LOAD, p_offset := 4096, p_paddr := 4194304,
                          p_filesz := 256, p_memsz := 512 } = 4194304 ∧
    Process.segmentSize { p_type := PT_LOAD, p_offset := 4096, p_paddr := 4194304,
                          p_filesz := 256, p_memsz := 512 } = 4096 ∧
    (4194304 : Nat) + 512 ≤
      Process.segmentBase { p_type := PT_LOAD, p_offset := 4096, p_paddr := 4194304,
                            p_filesz := 256, p_memsz := 512 }
      + Process.segmentSize { p_type := PT_LOAD, p_offset := 4096, p_paddr := 4194304,
                              p_filesz := 256, p_memsz := 512 } :=
  ⟨by decide, by decide,
    (segment_mapping (AddressSpace.empty (fun _ => 204)) scenarioImage
      { p_type := PT_LOAD, p_offset := 4096, p_paddr := 4194304, p_filesz := 256,
        p_memsz := 512 } (by decide) (by decide)
      (by rw [scenarioImage_length]; decide)).2.2.2.2.2.2.2.2.1⟩

/-! ## Facts about the links of the process list -/

theorem isChain_of_next (procs : List Process) :
    ∀ (l : List Ptr) (first : Option Ptr), first = l.head? →
      (∀ i p, l[i]? = some p → ∃ r, procs[p]? = some r ∧ r.next = l[i + 1]?) →
      isChain procs first l = true := by
  intro l
  induction l with
  | nil =>
    intro first h _
    rw [h]
    rfl
  | cons q rest ih =>
    intro first h hnext
    rw [h]
    obtain ⟨r, hr, hrn⟩ := hnext 0 q (by simp)
    simp only [List.head?_cons, isChain, beq_self_eq_true, Bool.true_and, hr]
    apply ih
    · rw [hrn]
      cases rest <;> simp
    · intro i p hi
      obtain ⟨r', h1, h2⟩ := hnext (i + 1) p (by simpa using hi)
      exact ⟨r', h1, by simpa using h2⟩

theorem nodup_index_inj (l : List Ptr) (hnd : l.Nodup) (a b : Nat) (x : Ptr)
    (ha : l[a]? = some x) (hb : l[b]? = some x) : a = b := by
  obtain ⟨hlt, _⟩ := List.getElem?_eq_some.mp ha
  exact List.getElem?_inj hlt hnd (by rw [ha, hb])

/-- The record of a listed process, with both links read off the list. -/
theorem WellLinked.record {procs : List Process} {first : Option Ptr} {l : List Ptr}
    (h : WellLinked procs first l) (i : Nat) (p : Ptr) (hi : l[i]? = some p) :
    ∃ r, procs[p]? = some r ∧ r.next = l[i + 1]? ∧
      r.prev = if i = 0 then none else l[i - 1]? := by
  obtain ⟨r, h1, h2⟩ := isChain_next procs l first h.chain i p hi
  obtain ⟨r', h3, h4⟩ := h.prevs i p hi
  rw [h1] at h3
  have := Option.some.inj h3
  subst this
  exact ⟨r, h1, h2, h4⟩

/-- A list is well linked when its head is `first` and the record of each of
its processes has the neighbours on the list as `next` and `prev`. -/
theorem WellLinked.of_records {procs : List Process} {first : Option Ptr} {l : List Ptr}
    (hhead : first = l.head?) (hnd : l.Nodup)
    (hrec : ∀ i p, l[i]? = some p → ∃ r, procs[p]? = some r ∧ r.next = l[i + 1]? ∧
      r.prev = if i = 0 then none else l[i - 1]?) :
    WellLinked procs first l := by
  refine ⟨isChain_of_next procs l first hhead ?_, hnd, ?_⟩
  · intro i p hi
    obtain ⟨r, h1, h2, _⟩ := hrec i p hi
    exact ⟨r, h1, h2⟩
  · intro i p hi
    obtain ⟨r, h1, _, h3⟩ := hrec i p hi
    exact ⟨r, h1, h3⟩

/-- Well-linkedness depends on the `next` and `prev` fields only. -/
theorem WellLinked.congr {procs procs' : List Process} {first : Option Ptr} {l : List Ptr}
    (h : WellLinked procs first l)
    (hsame : ∀ (q : Ptr) (r : Process), procs[q]? = some r →
      ∃ r' : Process, procs'[q]? = some r' ∧ r'.next = r.next ∧ r'.prev = r.prev) :
    WellLinked procs' first l := by
  apply WellLinked.of_records (isChain_head procs first l h.chain) h.nodup
  intro i p hi
  obtain ⟨r, h1, h2, h3⟩ := h.record i p hi
  obtain ⟨r', g1, g2, g3⟩ := hsame p r h1
  exact ⟨r', g1, by rw [g2, h2], by rw [g3, h3]⟩

/-! ## Facts about `exit` -/

/-- What `exit` does to the records, given that the neighbours named by the
record of the exiting process exist and differ. -/
theorem exit_eq (k : Kernel) (p : Ptr) (status : Int) (r : Process)
    (hr : k.procs[p]? = some r)
    (hnx : ∀ nx, r.next = some nx → ∃ rn, k.procs[nx]? = some rn)
    (hpv : ∀ pv, r.prev = some pv → ∃ rp, k.procs[pv]? = some rp)
    (hne : ∀ a, r.next = some a → r.prev ≠ some a) :
    ∃ k', Process.exit k p status = some k' ∧
      (∀ q : Ptr, k'.procs[q]? =
        if r.prev = some q then (k.procs[q]?).map (fun x => { x with next := r.next })
        else if r.next = some q then (k.procs[q]?).map (fun x => { x with prev := r.prev })
        else k.procs[q]?) ∧
      k'.firstProcess = (if k.firstProcess = some p then r.next else k.firstProcess) ∧
      k'.current = k.current ∧ k'.idleProcess = k.idleProcess ∧ k'.nextPid = k.nextPid ∧
      k'.spaces = k.spaces ∧ k'.descriptions = k.descriptions ∧
      k'.log = k.log ++ [(r.pid, status)] := by
  unfold Process.exit
  simp only [hr]
  cases hn : r.next with
  | none =>
    cases hp : r.prev with
    | none =>
      simp only [Process.unlinkNext, Process.unlinkPrev, hn, hp]
      refine ⟨_, rfl, ?_, rfl, rfl, rfl, rfl, rfl, rfl, rfl⟩
      intro q
      simp
    | some pv =>
      obtain ⟨rp, hrp⟩ := hpv pv hp
      simp only [Process.unlinkNext, Process.unlinkPrev, hn, hp, hrp]
      refine ⟨_, rfl, ?_, rfl, rfl, rfl, rfl, rfl, rfl, rfl⟩
      intro q
      simp only
      rw [getElem?_set_of_some k.procs pv rp _ hrp q]
      by_cases hq : q = pv
      · subst hq
        simp [hrp]
      · have hq' : ¬ (some pv = some q) := fun e => hq (Option.some.inj e).symm
        simp [hq, hq']
  | some nx =>
    obtain ⟨rn, hrn⟩ := hnx nx hn
    cases hp : r.prev with
    | none =>
      simp only [Process.unlinkNext, Process.unlinkPrev, hn, hp, hrn]
      refine ⟨_, rfl, ?_, rfl, rfl, rfl, rfl, rfl, rfl, rfl⟩
      intro q
      simp only
      rw [getElem?_set_of_some k.procs nx rn _ hrn q]
      by_cases hq : q = nx
      · subst hq
        simp [hrn]
      · have hq' : ¬ (some nx = some q) := fun e => hq (Option.some.inj e).symm
        simp [hq, hq']
    | some pv =>
      obtain ⟨rp, hrp⟩ := hpv pv hp
      have hdiff : pv ≠ nx := by
        intro e
        exact hne nx hn (by rw [hp, e])
      have h1 : (k.procs.set nx { rn with prev := some pv })[pv]? = some rp := by
        rw [getElem?_set_of_some k.procs nx rn _ hrn pv, if_neg hdiff, hrp]
      simp only [Process.unlinkNext, Process.unlinkPrev, hn, hp, hrn, h1]
      refine ⟨_, rfl, ?_, rfl, rfl, rfl, rfl, rfl, rfl, rfl⟩
      intro q
      simp only
      rw [getElem?_set_of_some _ pv rp _ h1 q, getElem?_set_of_some k.procs nx rn _ hrn q]
      by_cases hq : q = pv
      · subst hq
        simp [hrp]
      · have hq' : ¬ (some pv = some q) := fun e => hq (Option.some.inj e).symm
        by_cases hq2 : q = nx
        · subst hq2
          simp [hq, hq', hrn]
        · have hq2' : ¬ (some nx = some q) := fun e => hq2 (Option.some.inj e).symm
          simp [hq, hq', hq2, hq2']

/-- The process at index `i` of a well-linked list exits: `exit` returns, the
list is the old one without that index, and a record changes only in the
link that pointed to the exiting process. -/
theorem exit_wellLinked (k : Kernel) (p : Ptr) (status : Int) (l : List Ptr) (i : Nat)
    (hwl : WellLinked k.procs k.firstProcess l) (hi : l[i]? = some p) :
    ∃ k' r, Process.exit k p status = some k' ∧ k.procs[p]? = some r ∧
      WellLinked k'.procs k'.firstProcess (l.eraseIdx i) ∧
      (∀ q : Ptr, k'.procs[q]? =
        if r.prev = some q then (k.procs[q]?).map (fun x => { x with next := r.next })
        else if r.next = some q then (k.procs[q]?).map (fun x => { x with prev := r.prev })
        else k.procs[q]?) ∧
      r.next = l[i + 1]? ∧ (r.prev = if i = 0 then none else l[i - 1]?) ∧
      k'.firstProcess = (if i = 0 then l[1]? else k.firstProcess) ∧
      k'.current = k.current ∧ k'.idleProcess = k.idleProcess ∧ k'.nextPid = k.nextPid ∧
      k'.spaces = k.spaces ∧ k'.descriptions = k.descriptions := by
  obtain ⟨r, hr, hrn, hrp⟩ := hwl.record i p hi
  have hinj := nodup_index_inj l hwl.nodup
  have hfirst : k.firstProcess = l[0]? := by
    rw [isChain_head k.procs k.firstProcess l hwl.chain, List.head?_eq_getElem?]
  obtain ⟨k', e1, e2, e3, e4, e5, e6, e7, e8, _⟩ := exit_eq k p status r hr
    (by
      intro nx hnx
      rw [hrn] at hnx
      obtain ⟨rn, h1, _⟩ := hwl.record (i + 1) nx hnx
      exact ⟨rn, h1⟩)
    (by
      intro pv hpv
      rw [hrp] at hpv
      by_cases h0 : i = 0
      · rw [if_pos h0] at hpv
        cases hpv
      · rw [if_neg h0] at hpv
        obtain ⟨rp, h1, _⟩ := hwl.record (i - 1) pv hpv
        exact ⟨rp, h1⟩)
    (by
      intro a hnx hpv
      rw [hrn] at hnx
      rw [hrp] at hpv
      by_cases h0 : i = 0
      · rw [if_pos h0] at hpv
        cases hpv
      · rw [if_neg h0] at hpv
        have := hinj (i + 1) (i - 1) a hnx hpv
        omega)
  have hfp : k'.firstProcess = if i = 0 then l[1]? else k.firstProcess := by
    rw [e3]
    by_cases h0 : i = 0
    · subst h0
      rw [if_pos rfl, if_pos (by rw [hfirst, hi]), hrn]
    · rw [if_neg h0, if_neg]
      intro hc
      rw [hfirst] at hc
      exact h0 (hinj i 0 p hi hc)
  refine ⟨k', r, e1, hr, ?_, e2, hrn, hrp, hfp, e4, e5, e6, e7, e8⟩
  apply WellLinked.of_records
  · rw [hfp, List.head?_eq_getElem?, List.getElem?_eraseIdx]
    by_cases h0 : i = 0
    · subst h0
      simp
    · have hlt : 0 < i := Nat.pos_of_ne_zero h0
      rw [if_neg h0, if_pos hlt, hfirst]
  · exact hwl.nodup.sublist (List.eraseIdx_sublist l i)
  · intro j q hj
    rw [List.getElem?_eraseIdx] at hj
    by_cases hji : j < i
    · rw [if_pos hji] at hj
      obtain ⟨rq, g1, g2, g3⟩ := hwl.record j q hj
      have hnotnext : ¬ (r.next = some q) := by
        intro hc
        rw [hrn] at hc
        have := hinj (i + 1) j q hc hj
        omega
      have hprevtarget : (if j = 0 then none else (l.eraseIdx i)[j - 1]?)
          = if j = 0 then none else l[j - 1]? := by
        by_cases hj0 : j = 0
        · rw [if_pos hj0, if_pos hj0]
        · rw [if_neg hj0, if_neg hj0, List.getElem?_eraseIdx, if_pos (by omega)]
      rw [hprevtarget, List.getElem?_eraseIdx]
      by_cases hlast : j + 1 < i
      · have hnotprev : ¬ (r.prev = some q) := by
          intro hc
          rw [hrp, if_neg (by omega)] at hc
          have := hinj (i - 1) j q hc hj
          omega
        refine ⟨rq, ?_, ?_, g3⟩
        · rw [e2 q, if_neg hnotprev, if_neg hnotnext, g1]
        · rw [if_pos hlast, g2]
      · have hje : j + 1 = i := by omega
        have hisprev : r.prev = some q := by
          rw [hrp, if_neg (by omega)]
          have : i - 1 = j := by omega
          rw [this, hj]
        refine ⟨{ rq with next := r.next }, ?_, ?_, g3⟩
        · rw [e2 q, if_pos hisprev, g1]
          rfl
        · rw [if_neg hlast, hje]
          exact hrn
    · rw [if_neg hji] at hj
      obtain ⟨rq, g1, g2, g3⟩ := hwl.record (j + 1) q hj
      rw [if_neg (by omega)] at g3
      have hnotprev : ¬ (r.prev = some q) := by
        intro hc
        rw [hrp] at hc
        by_cases h0 : i = 0
        · rw [if_pos h0] at hc
          cases hc
        · rw [if_neg h0] at hc
          have := hinj (i - 1) (j + 1) q hc hj
          omega
      have hnexttarget : (l.eraseIdx i)[j + 1]? = l[j + 1 + 1]? := by
        rw [List.getElem?_eraseIdx, if_neg (by omega)]
      rw [hnexttarget]
      by_cases hjeq : j = i
      · have hisnext : r.next = some q := by
          rw [hrn, ← hjeq, hj]
        refine ⟨{ rq with prev := r.prev }, ?_, g2, ?_⟩
        · rw [e2 q, if_neg hnotprev, if_pos hisnext, g1]
          rfl
        · simp only
          rw [hrp, hjeq]
          by_cases h0 : i = 0
          · rw [if_pos h0, if_pos h0]
          · rw [if_neg h0, if_neg h0, List.getElem?_eraseIdx, if_pos (by omega)]
      · have hnotnext : ¬ (r.next = some q) := by
          intro hc
          rw [hrn] at hc
          have := hinj (i + 1) (j + 1) q hc hj
          omega
        refine ⟨rq, ?_, g2, ?_⟩
        · rw [e2 q, if_neg hnotprev, if_neg hnotnext, g1]
        · rw [if_neg (by omega), List.getElem?_eraseIdx, if_neg (by omega), g3]
          congr 1
          omega

theorem erase_eq_eraseIdx_of_nodup :
    ∀ (l : List Ptr) (i : Nat) (p : Ptr), l.Nodup → l[i]? = some p →
      l.erase p = l.eraseIdx i := by
  intro l
  induction l with
  | nil => intro i p _ h; simp at h
  | cons a rest ih =>
    intro i p hnd hi
    rw [List.nodup_cons] at hnd
    cases i with
    | zero =>
      simp only [List.getElem?_cons_zero, Option.some.injEq] at hi
      subst hi
      simp
    | succ i =>
      simp only [List.getElem?_cons_succ] at hi
      have hmem : p ∈ rest := getElem?_mem_of_some rest i p hi
      have hne : a ≠ p := fun e => hnd.1 (e ▸ hmem)
      rw [List.erase_cons_tail (by simpa using hne), List.eraseIdx_cons_succ,
        ih i p hnd.2 hi]

/-! ## What the operations keep -/

theorem create_spec (env : Platform) (k k1 : Kernel) (p : Ptr)
    (h : Process.create env k = some (p, k1)) :
    p = k.procs.length ∧ k.nextPid < PID_MAX ∧
    ∃ c : Process, k1.procs = k.procs ++ [c] ∧ c.next = none ∧ c.prev = none ∧
      c.pid = k.nextPid ∧ c.fd = List.replicate env.openMax none ∧
      k1.nextPid = k.nextPid + 1 ∧ k1.firstProcess = k.firstProcess ∧
      k1.current = k.current ∧ k1.idleProcess = k.idleProcess ∧ k1.spaces = k.spaces ∧
      k1.descriptions = k.descriptions := by
  unfold Process.create at h
  by_cases hp : k.nextPid < PID_MAX
  · simp only [if_pos hp, Option.some.injEq, Prod.mk.injEq] at h
    obtain ⟨h1, h2⟩ := h
    subst h1 h2
    exact ⟨rfl, hp, _, rfl, rfl, rfl, rfl, rfl, rfl, rfl, rfl, rfl, rfl, rfl⟩
  · simp only [if_neg hp] at h
    cases h

theorem schedule_inv (k : Kernel) (context : InterruptContext) (ret : Option InterruptContext)
    (k' : Kernel) (h : Process.schedule k context = some (ret, k')) :
    ∃ cur, k.procs[k.current]? = some cur ∧
      k'.procs = k.procs.set k.current (Process.saveContext cur context) ∧
      k'.current = Process.successor k cur ∧ k'.firstProcess = k.firstProcess ∧
      k'.idleProcess = k.idleProcess ∧ k'.nextPid = k.nextPid := by
  unfold Process.schedule at h
  split at h
  · cases h
  · rename_i cur hcur
    simp only at h
    split at h
    · cases h
    · split at h
      · cases h
      · split at h
        · cases h
        · simp only [Option.some.injEq, Prod.mk.injEq] at h
          obtain ⟨_, h2⟩ := h
          subst h2
          exact ⟨cur, hcur, rfl, by simp only [successor_saveContext], rfl, rfl, rfl⟩

theorem initDescriptors_nextPid (k : Kernel) (r r2 : Process) (k3 : Kernel)
    (h : Process.initDescriptors k r = some (r2, k3)) : k3.nextPid = k.nextPid := by
  unfold Process.initDescriptors at h
  split at h
  · cases h
  · split at h
    · cases h
    · split at h
      · cases h
      · simp only [Option.some.injEq, Prod.mk.injEq] at h
        obtain ⟨_, h2⟩ := h
        subst h2
        rfl

theorem loadELF_nextPid (k : Kernel) (self : Ptr) (elf : ElfImage) (entry : Nat) (k1 : Kernel)
    (h : Process.loadELF k self elf = some (entry, k1)) : k1.nextPid = k.nextPid :=
  (loadELF_spec k self elf entry k1 h).2.choose_spec.2.2.2.2.2.2.2.2

theorem execute_nextPid (env : Platform) (k : Kernel) (self descr : Ptr) (rv : Int)
    (k' : Kernel) (h : Process.execute env k self descr = some (rv, k')) :
    k'.nextPid = k.nextPid := by
  unfold Process.execute at h
  split at h
  · cases h
  · split at h
    · split at h
      · cases h
      · rename_i entry k1 hload
        have hl := loadELF_nextPid k self _ entry k1 hload
        split at h
        · cases h
        · split at h
          · cases h
          · split at h
            · cases h
            · simp only [AddressSpace.mapMemory] at h
              split at h
              · cases h
              · split at h
                · cases h
                · rename_i r2 k3 hinit
                  simp only [Option.some.injEq, Prod.mk.injEq] at h
                  obtain ⟨_, h2⟩ := h
                  subst h2
                  simp only
                  split at hinit
                  · rw [initDescriptors_nextPid _ _ _ _ hinit]
                    exact hl
                  · simp only [Option.some.injEq, Prod.mk.injEq] at hinit
                    obtain ⟨_, e2⟩ := hinit
                    subst e2
                    exact hl
    · cases h

/-- After `Process::initialize` on a kernel without process records and with
`nextPid = 0`: the one record is the idle process, with pid 0 and null
links. -/
theorem initialize_pristine (env : Platform) (kb k0 : Kernel) (rootFd : Option Ptr)
    (hprocs : kb.procs = []) (hpid : kb.nextPid = 0)
    (h : Process.initialize env kb rootFd = some k0) :
    ∃ ri : Process, k0.procs = [ri] ∧ ri.next = none ∧ ri.prev = none ∧ ri.pid = 0 ∧
      k0.nextPid = 1 ∧ k0.idleProcess = 0 ∧ k0.current = 0 ∧ k0.firstProcess = none := by
  unfold Process.initialize Process.create at h
  rw [hprocs, hpid] at h
  have hp : 0 < PID_MAX := by decide
  simp only [if_pos hp, List.nil_append, List.length_nil, List.getElem?_cons_zero,
    Option.some.injEq] at h
  subst h
  exact ⟨_, rfl, rfl, rfl, rfl, rfl, rfl, rfl, rfl⟩

/-- What `addProcess` does to the records when the process added is not the
first of the list. -/
theorem addProcess_eq (k : Kernel) (p : Ptr) (r : Process) (hr : k.procs[p]? = some r)
    (hfirst : ∀ nx, k.firstProcess = some nx → nx ≠ p ∧ ∃ rn, k.procs[nx]? = some rn) :
    ∃ k', Process.addProcess k p = some k' ∧
      (∀ q : Ptr, k'.procs[q]? =
        if q = p then some { r with next := k.firstProcess }
        else if k.firstProcess = some q then
          (k.procs[q]?).map (fun x => { x with prev := some p })
        else k.procs[q]?) ∧
      k'.firstProcess = some p ∧ k'.current = k.current ∧ k'.idleProcess = k.idleProcess ∧
      k'.nextPid = k.nextPid ∧ k'.spaces = k.spaces ∧ k'.descriptions = k.descriptions := by
  unfold Process.addProcess
  simp only [hr]
  cases hf : k.firstProcess with
  | none =>
    refine ⟨_, rfl, ?_, rfl, rfl, rfl, rfl, rfl, rfl⟩
    intro q
    simp only
    rw [getElem?_set_of_some k.procs p r _ hr q]
    by_cases hq : q = p
    · rw [if_pos hq, if_pos hq]
    · rw [if_neg hq, if_neg hq, if_neg (by simp)]
  | some nx =>
    obtain ⟨hne, rn, hrn⟩ := hfirst nx hf
    have h1 : (k.procs.set p { r with next := some nx })[nx]? = some rn := by
      rw [getElem?_set_of_some k.procs p r _ hr nx, if_neg hne, hrn]
    simp only [h1]
    refine ⟨_, rfl, ?_, rfl, rfl, rfl, rfl, rfl, rfl⟩
    intro q
    simp only
    rw [getElem?_set_of_some _ nx rn _ h1 q, getElem?_set_of_some k.procs p r _ hr q]
    by_cases hq : q = p
    · subst hq
      have : ¬ q = nx := fun e => hne e.symm
      rw [if_neg this, if_pos rfl, if_pos rfl]
    · rw [if_neg hq, if_neg hq]
      by_cases hq2 : q = nx
      · subst hq2
        rw [if_pos rfl, if_pos rfl, hrn]
        rfl
      · have : ¬ (some nx = some q) := fun e => hq2 (Option.some.inj e).symm
        rw [if_neg hq2, if_neg this]

/-- A process off the list with a null `prev` is added: the list is the old
one with that process in front. -/
theorem addProcess_wellLinked (k : Kernel) (p : Ptr) (r : Process) (l : List Ptr)
    (hwl : WellLinked k.procs k.firstProcess l) (hp : p ∉ l)
    (hr : k.procs[p]? = some r) (hprev : r.prev = none) :
    ∃ k', Process.addProcess k p = some k' ∧
      WellLinked k'.procs k'.firstProcess (p :: l) ∧
      (∀ q : Ptr, k'.procs[q]? =
        if q = p then some { r with next := k.firstProcess }
        else if k.firstProcess = some q then
          (k.procs[q]?).map (fun x => { x with prev := some p })
        else k.procs[q]?) ∧
      k'.current = k.current ∧ k'.idleProcess = k.idleProcess ∧
      k'.nextPid = k.nextPid ∧ k'.spaces = k.spaces ∧ k'.descriptions = k.descriptions := by
  have hfirst : k.firstProcess = l[0]? := by
    rw [isChain_head k.procs k.firstProcess l hwl.chain, List.head?_eq_getElem?]
  have hinj := nodup_index_inj l hwl.nodup
  obtain ⟨k', e1, e2, e3, e4, e5, e6, e7, e8⟩ := addProcess_eq k p r hr
    (by
      intro nx hnx
      rw [hfirst] at hnx
      obtain ⟨rn, h1, _⟩ := hwl.record 0 nx hnx
      exact ⟨fun e => hp (e ▸ getElem?_mem_of_some l 0 nx hnx), rn, h1⟩)
  refine ⟨k', e1, ?_, e2, e4, e5, e6, e7, e8⟩
  apply WellLinked.of_records
  · rw [e3]
    rfl
  · exact List.nodup_cons.mpr ⟨hp, hwl.nodup⟩
  · intro j q hj
    cases j with
    | zero =>
      simp only [List.getElem?_cons_zero, Option.some.injEq] at hj
      subst hj
      refine ⟨{ r with next := k.firstProcess }, ?_, ?_, ?_⟩
      · rw [e2 p, if_pos rfl]
      · simp only [zero_add, List.getElem?_cons_succ]
        exact hfirst
      · rw [if_pos rfl]
        exact hprev
    | succ j =>
      simp only [List.getElem?_cons_succ] at hj
      obtain ⟨rq, g1, g2, g3⟩ := hwl.record j q hj
      have hqp : ¬ q = p := fun e => hp (e ▸ getElem?_mem_of_some l j q hj)
      have hnz : ¬ (j + 1 = 0) := by omega
      rw [if_neg hnz]
      simp only [List.getElem?_cons_succ, Nat.add_sub_cancel]
      by_cases hj0 : j = 0
      · subst hj0
        have hisfirst : k.firstProcess = some q := by rw [hfirst, hj]
        refine ⟨{ rq with prev := some p }, ?_, g2, ?_⟩
        · rw [e2 q, if_neg hqp, if_pos hisfirst, g1]
          rfl
        · simp
      · have hnotfirst : ¬ (k.firstProcess = some q) := by
          intro hc
          rw [hfirst] at hc
          exact hj0 (hinj j 0 q hj hc)
        refine ⟨rq, ?_, g2, ?_⟩
        · rw [e2 q, if_neg hqp, if_neg hnotfirst, g1]
        · rw [g3, if_neg hj0]
          cases j with
          | zero => exact absurd rfl hj0
          | succ j => simp

/-! ## The invariant of the reachable states -/

theorem isChain_unique (procs : List Process) :
    ∀ (l1 l2 : List Ptr) (first : Option Ptr), isChain procs first l1 = true →
      isChain procs first l2 = true → l1 = l2 := by
  intro l1
  induction l1 with
  | nil =>
    intro l2 first h1 h2
    have e1 := isChain_head procs first [] h1
    have e2 := isChain_head procs first l2 h2
    rw [e1] at e2
    cases l2 with
    | nil => rfl
    | cons a t => simp at e2
  | cons a t ih =>
    intro l2 first h1 h2
    have e1 := isChain_head procs first (a :: t) h1
    have e2 := isChain_head procs first l2 h2
    rw [e1] at e2
    cases l2 with
    | nil => simp at e2
    | cons b u =>
      simp only [List.head?_cons, Option.some.injEq] at e2
      subst e2
      rw [e1] at h1 h2
      simp only [List.head?_cons, isChain, beq_self_eq_true, Bool.true_and] at h1 h2
      cases hr : procs[a]? with
      | none => rw [hr] at h1; simp at h1
      | some r =>
        rw [hr] at h1 h2
        simp only at h1 h2
        rw [ih u r.next h1 h2]

theorem linkedPrevs_spec (procs : List Process) :
    ∀ (l : List Ptr) (expected : Option Ptr), linkedPrevs procs expected l = true →
      ∀ i p, l[i]? = some p →
        ∃ r, procs[p]? = some r ∧ r.prev = if i = 0 then expected else l[i - 1]? := by
  intro l
  induction l with
  | nil => intro expected _ i p hi; simp at hi
  | cons a t ih =>
    intro expected h i p hi
    unfold linkedPrevs at h
    cases hr : procs[a]? with
    | none => rw [hr] at h; simp at h
    | some r =>
      rw [hr] at h
      simp only [Bool.and_eq_true, beq_iff_eq] at h
      cases i with
      | zero =>
        simp only [List.getElem?_cons_zero, Option.some.injEq] at hi
        subst hi
        exact ⟨r, hr, by rw [if_pos rfl]; exact h.1⟩
      | succ i =>
        simp only [List.getElem?_cons_succ] at hi
        obtain ⟨r', g1, g2⟩ := ih (some a) h.2 i p hi
        refine ⟨r', g1, ?_⟩
        rw [g2, if_neg (Nat.succ_ne_zero i)]
        cases i with
        | zero => simp
        | succ i => simp

/-- A list that passes the three checks is well linked. -/
theorem WellLinked.of_checks (procs : List Process) (first : Option Ptr) (l : List Ptr)
    (h1 : isChain procs first l = true) (h2 : l.Nodup)
    (h3 : linkedPrevs procs none l = true) : WellLinked procs first l :=
  ⟨h1, h2, linkedPrevs_spec procs l none h3⟩

theorem core_of_map {procs procs' : List Process} {q : Ptr} {r : Process}
    (h : (procs'[q]?).map Process.core = (procs[q]?).map Process.core)
    (hr : procs[q]? = some r) :
    ∃ r', procs'[q]? = some r' ∧ r'.next = r.next ∧ r'.prev = r.prev ∧ r'.pid = r.pid := by
  rw [hr] at h
  cases h' : procs'[q]? with
  | none => rw [h'] at h; simp at h
  | some r' =>
    rw [h'] at h
    simp only [Option.map_some', Option.some.injEq, Process.core, Prod.mk.injEq] at h
    exact ⟨r', rfl, h.1, h.2.1, h.2.2⟩

theorem core_set (procs : List Process) (c : Ptr) (x y : Process) (hc : procs[c]? = some x)
    (hcore : y.core = x.core) (q : Ptr) :
    ((procs.set c y)[q]?).map Process.core = (procs[q]?).map Process.core := by
  rw [getElem?_set_of_some procs c x y hc q]
  by_cases h : q = c
  · subst h
    rw [if_pos rfl, hc]
    simp [hcore]
  · rw [if_neg h]

/-- An operation that keeps the links and pids of all records, and the
globals of the list, keeps the state sound. -/
theorem Kernel.Sound.core_congr {k k' : Kernel} {l : List Ptr} (h : k.Sound l)
    (hcore : ∀ q : Ptr, (k'.procs[q]?).map Process.core = (k.procs[q]?).map Process.core)
    (hfirst : k'.firstProcess = k.firstProcess) (hidle : k'.idleProcess = k.idleProcess)
    (hpid : k'.nextPid = k.nextPid) : k'.Sound l := by
  have hback : ∀ (q : Ptr) (r' : Process), k'.procs[q]? = some r' →
      ∃ r, k.procs[q]? = some r ∧ r.next = r'.next ∧ r.prev = r'.prev ∧ r.pid = r'.pid :=
    fun q r' hr' => core_of_map (hcore q).symm hr'
  refine ⟨?_, ?_, ?_, ?_, ?_⟩
  · rw [hfirst]
    apply h.linked.congr
    intro q r hr
    obtain ⟨r', g1, g2, g3, _⟩ := core_of_map (hcore q) hr
    exact ⟨r', g1, g2, g3⟩
  · obtain ⟨ri, h1, h2⟩ := h.idle
    obtain ⟨r', g1, g2, _, _⟩ := core_of_map (hcore k.idleProcess) h1
    exact ⟨r', by rw [hidle]; exact g1, by rw [g2, h2]⟩
  · rw [hidle]
    exact h.idleOff
  · intro q r' hr'
    obtain ⟨r, g1, _, _, g4⟩ := hback q r' hr'
    rw [hpid, ← g4]
    exact h.pidBound q r g1
  · intro q q' r1 r2 h1 h2 he
    obtain ⟨s1, g1, _, _, g4⟩ := hback q r1 h1
    obtain ⟨s2, g1', _, _, g4'⟩ := hback q' r2 h2
    exact h.pidInj q q' s1 s2 g1 g1' (by rw [g4, g4', he])

/-- A tick from a sound state in which the current process is placed: the
state stays sound and the process selected is the idle process or on the
list. -/
theorem tick_sound (k k' : Kernel) (l : List Ptr) (context : InterruptContext)
    (ret : Option InterruptContext) (h : k.Sound l)
    (hs : Process.schedule k context = some (ret, k')) :
    k'.Sound l ∧ (k.currentPlaced l → k'.current = k'.idleProcess ∨ k'.current ∈ l) := by
  obtain ⟨cur, s1, s2, s3, s4, s5, s6⟩ := schedule_inv k context ret k' hs
  have hcoreEq : (Process.saveContext cur context).core = cur.core := by
    unfold Process.saveContext Process.core
    cases cur.contextChanged <;> rfl
  refine ⟨h.core_congr (by rw [s2]; exact core_set k.procs k.current cur _ s1 hcoreEq) s4 s5 s6,
    ?_⟩
  intro hplaced
  have hfirst := isChain_head k.procs k.firstProcess l h.linked.chain
  have hfromNone : cur.next = none →
      Process.successor k cur = k.idleProcess ∨ Process.successor k cur ∈ l := by
    intro hn
    unfold Process.successor
    rw [hn, hfirst]
    cases l with
    | nil => exact Or.inl rfl
    | cons a t => exact Or.inr (List.mem_cons_self _ _)
  rw [s3, s5]
  rcases hplaced with hc | hc | hc
  · obtain ⟨ri, h1, h2⟩ := h.idle
    rw [← hc, s1] at h1
    rw [← Option.some.inj h1] at h2
    exact hfromNone h2
  · obtain ⟨i, hi⟩ := List.getElem?_of_mem hc
    obtain ⟨r, g1, g2, _⟩ := h.linked.record i k.current hi
    rw [s1] at g1
    have hrr := Option.some.inj g1
    subst hrr
    cases hnx : l[i + 1]? with
    | none => exact hfromNone (by rw [g2, hnx])
    | some q =>
      right
      unfold Process.successor
      rw [g2, hnx]
      exact getElem?_mem_of_some l (i + 1) q hnx
  · obtain ⟨_, _, r, g1, g2⟩ := hc
    rw [s1] at g1
    have hrr := Option.some.inj g1
    subst hrr
    rcases g2 with g2 | ⟨q, hq, g2⟩
    · exact hfromNone g2
    · right
      unfold Process.successor
      rw [g2]
      exact hq

/-- The step of `execute` keeps the state sound and the current process
placed. -/
theorem execute_sound (env : Platform) (k k' : Kernel) (l : List Ptr) (self descr : Ptr)
    (rv : Int) (h : k.Sound l) (he : Process.execute env k self descr = some (rv, k')) :
    k'.Sound l ∧ (k.currentPlaced l → k'.currentPlaced l) := by
  obtain ⟨_, r, r', d, file, stack, e1, _, _, e4, e5, e6, e7, _, _, _, _, e12, e13, e14⟩ :=
    execute_spec env k self descr rv k' he
  have hcoreEq : r'.core = r.core := by
    unfold Process.core
    rw [e5, e6, e7]
  have hcore : ∀ q : Ptr, (k'.procs[q]?).map Process.core = (k.procs[q]?).map Process.core := by
    rw [e4]
    exact core_set k.procs self r r' e1 hcoreEq
  refine ⟨h.core_congr hcore e13 e14 (execute_nextPid env k self descr rv k' he), ?_⟩
  intro hplaced
  unfold Kernel.currentPlaced Kernel.currentExited at hplaced ⊢
  rw [e12, e14]
  rcases hplaced with hc | hc | ⟨hc1, hc2, r0, g1, g2⟩
  · exact Or.inl hc
  · exact Or.inr (Or.inl hc)
  · obtain ⟨r1, f1, f2, _, _⟩ := core_of_map (hcore k.current) g1
    exact Or.inr (Or.inr ⟨hc1, hc2, r1, f1, by rw [f2]; exact g2⟩)

theorem pid_of_map {procs : List Process} {q : Ptr} {n : Nat}
    (h : (procs[q]?).map (fun x => x.pid) = some n) : ∃ r, procs[q]? = some r ∧ r.pid = n := by
  cases hq : procs[q]? with
  | none => rw [hq] at h; simp at h
  | some r =>
    rw [hq] at h
    exact ⟨r, rfl, Option.some.inj h⟩

/-- Bounds and uniqueness of the pids carry over to a table with the same pids. -/
theorem pids_congr {procs procs' : List Process} {n : Nat}
    (hmap : ∀ q : Ptr, (procs'[q]?).map (fun x => x.pid) = (procs[q]?).map (fun x => x.pid))
    (hb : ∀ (q : Ptr) (r : Process), procs[q]? = some r → r.pid < n)
    (hinj : ∀ (q q' : Ptr) (r r' : Process), procs[q]? = some r → procs[q']? = some r' →
      r.pid = r'.pid → q = q') :
    (∀ (q : Ptr) (r : Process), procs'[q]? = some r → r.pid < n) ∧
    (∀ (q q' : Ptr) (r r' : Process), procs'[q]? = some r → procs'[q']? = some r' →
      r.pid = r'.pid → q = q') := by
  have hback : ∀ (q : Ptr) (r : Process), procs'[q]? = some r →
      ∃ r0, procs[q]? = some r0 ∧ r0.pid = r.pid := by
    intro q r hr
    have := hmap q
    rw [hr] at this
    exact pid_of_map this.symm
  constructor
  · intro q r hr
    obtain ⟨r0, g1, g2⟩ := hback q r hr
    rw [← g2]
    exact hb q r0 g1
  · intro q q' r r' hr hr' he
    obtain ⟨r0, g1, g2⟩ := hback q r hr
    obtain ⟨r1, f1, f2⟩ := hback q' r' hr'
    exact hinj q q' r0 r1 g1 f1 (by rw [g2, f2, he])

theorem head?_eq_first (l : List Ptr) : l.head? = l[0]? := by
  cases l with
  | nil => rfl
  | cons a t => simp

theorem mem_of_prev_index {l : List Ptr} {i : Nat} {q : Ptr}
    (h : (if i = 0 then none else l[i - 1]?) = some q) : q ∈ l := by
  by_cases hi : i = 0
  · rw [if_pos hi] at h
    cases h
  · rw [if_neg hi] at h
    exact getElem?_mem_of_some l (i - 1) q h

theorem listed_lt {procs : List Process} {first : Option Ptr} {l : List Ptr}
    (h : WellLinked procs first l) (q : Ptr) (hq : q ∈ l) : q < procs.length := by
  obtain ⟨i, hi⟩ := List.getElem?_of_mem hq
  obtain ⟨r, g1, _⟩ := h.record i q hi
  exact (List.getElem?_eq_some.mp g1).1

theorem getElem?_append_one (procs : List Process) (c : Process) (q : Ptr)
    (hq : q ≠ procs.length) : (procs ++ [c])[q]? = procs[q]? := by
  by_cases hlt : q < procs.length
  · exact List.getElem?_append_left hlt
  · have hgt : procs.length < q := Nat.lt_of_le_of_ne (Nat.le_of_not_lt hlt) (Ne.symm hq)
    rw [List.getElem?_eq_none (Nat.le_of_not_lt hlt), List.getElem?_eq_none]
    rw [List.length_append, List.length_singleton]
    exact hgt

theorem getElem?_append_last {α : Type} (procs : List α) (c : α) :
    (procs ++ [c])[procs.length]? = some c := by
  rw [List.getElem?_append_right (Nat.le_refl _), Nat.sub_self]
  rfl

/-- A fresh record appended to the table and put on the list by `addProcess`:
the state stays sound, with the new process in front, and a placed current
process stays placed. -/
theorem append_add_sound (k k1 k2 : Kernel) (l : List Ptr) (c : Process) (h : k.Sound l)
    (hprocs : k1.procs = k.procs ++ [c]) (hprev : c.prev = none) (hpid : c.pid = k.nextPid)
    (hnp : k1.nextPid = k.nextPid + 1) (hf : k1.firstProcess = k.firstProcess)
    (hc : k1.current = k.current) (hidle : k1.idleProcess = k.idleProcess)
    (hadd : Process.addProcess k1 k.procs.length = some k2) :
    k2.Sound (k.procs.length :: l) ∧
      (k.currentPlaced l → k2.currentPlaced (k.procs.length :: l)) := by
  have hk1 : ∀ q : Ptr, q ≠ k.procs.length → k1.procs[q]? = k.procs[q]? := by
    intro q hq
    rw [hprocs]
    exact getElem?_append_one k.procs c q hq
  have hne : ∀ (q : Ptr) (r : Process), k.procs[q]? = some r → q ≠ k.procs.length := by
    intro q r hr
    exact Nat.ne_of_lt (List.getElem?_eq_some.mp hr).1
  have hp : k.procs.length ∉ l := by
    intro hmem
    exact Nat.lt_irrefl _ (listed_lt h.linked _ hmem)
  have hwl1 : WellLinked k1.procs k1.firstProcess l := by
    rw [hf]
    apply h.linked.congr
    intro q r hr
    exact ⟨r, by rw [hk1 q (hne q r hr)]; exact hr, rfl, rfl⟩
  have hrp : k1.procs[k.procs.length]? = some c := by
    rw [hprocs]
    exact getElem?_append_last k.procs c
  obtain ⟨k', e1, e2, e3, e4, e5, e6, _, _⟩ :=
    addProcess_wellLinked k1 k.procs.length c l hwl1 hp hrp hprev
  rw [hadd] at e1
  have hkk := Option.some.inj e1
  subst hkk
  have hfirstMem : ∀ q : Ptr, k.firstProcess = some q → q ∈ l := by
    intro q hq
    have := isChain_head k.procs k.firstProcess l h.linked.chain
    rw [hq] at this
    exact List.mem_of_mem_head? this.symm
  have hoff : ∀ (q : Ptr) (r : Process), k.procs[q]? = some r → q ∉ l →
      k2.procs[q]? = some r := by
    intro q r hr hq
    rw [e3 q, if_neg (hne q r hr), if_neg, hk1 q (hne q r hr), hr]
    rw [hf]
    intro hfq
    exact hq (hfirstMem q hfq)
  have hpidmap : ∀ q : Ptr, q ≠ k.procs.length →
      (k2.procs[q]?).map (fun x => x.pid) = (k.procs[q]?).map (fun x => x.pid) := by
    intro q hq
    rw [e3 q, if_neg hq, hk1 q hq]
    split
    · cases k.procs[q]? <;> rfl
    · rfl
  have hpidNew : ∀ r : Process, k2.procs[k.procs.length]? = some r → r.pid = k.nextPid := by
    intro r hr
    rw [e3, if_pos rfl] at hr
    rw [← Option.some.inj hr]
    exact hpid
  have hpidOld : ∀ (q : Ptr) (r : Process), q ≠ k.procs.length → k2.procs[q]? = some r →
      ∃ r0, k.procs[q]? = some r0 ∧ r0.pid = r.pid := by
    intro q r hq hr
    have := hpidmap q hq
    rw [hr] at this
    exact pid_of_map this.symm
  refine ⟨⟨e2, ?_, ?_, ?_, ?_⟩, ?_⟩
  · obtain ⟨ri, h1, h2⟩ := h.idle
    exact ⟨ri, by rw [e5, hidle]; exact hoff _ ri h1 h.idleOff, h2⟩
  · rw [e5, hidle]
    intro hmem
    rcases List.mem_cons.mp hmem with hm | hm
    · obtain ⟨ri, h1, _⟩ := h.idle
      exact hne _ ri h1 hm
    · exact h.idleOff hm
  · intro q r hr
    rw [e6, hnp]
    by_cases hq : q = k.procs.length
    · subst hq
      rw [hpidNew r hr]
      exact Nat.lt_succ_self _
    · obtain ⟨r0, g1, g2⟩ := hpidOld q r hq hr
      rw [← g2]
      exact Nat.lt_succ_of_lt (h.pidBound q r0 g1)
  · intro q q' r r' hr hr' he
    by_cases hq : q = k.procs.length
    · by_cases hq' : q' = k.procs.length
      · rw [hq, hq']
      · exfalso
        subst hq
        obtain ⟨r0, g1, g2⟩ := hpidOld q' r' hq' hr'
        have := h.pidBound q' r0 g1
        rw [g2, ← he, hpidNew r hr] at this
        exact Nat.lt_irrefl _ this
    · by_cases hq' : q' = k.procs.length
      · exfalso
        subst hq'
        obtain ⟨r0, g1, g2⟩ := hpidOld q r hq hr
        have := h.pidBound q r0 g1
        rw [g2, he, hpidNew r' hr'] at this
        exact Nat.lt_irrefl _ this
      · obtain ⟨r0, g1, g2⟩ := hpidOld q r hq hr
        obtain ⟨r1, f1, f2⟩ := hpidOld q' r' hq' hr'
        exact h.pidInj q q' r0 r1 g1 f1 (by rw [g2, f2, he])
  · intro hplaced
    unfold Kernel.currentPlaced Kernel.currentExited at hplaced ⊢
    rw [e4, e5, hc, hidle]
    rcases hplaced with hcur | hcur | ⟨hc1, hc2, r0, g1, g2⟩
    · exact Or.inl hcur
    · exact Or.inr (Or.inl (List.mem_cons_of_mem _ hcur))
    · refine Or.inr (Or.inr ⟨?_, hc2, r0, hoff _ r0 g1 hc1, ?_⟩)
      · intro hmem
        rcases List.mem_cons.mp hmem with hm | hm
        · exact hne _ r0 g1 hm
        · exact hc1 hm
      · rcases g2 with g2 | ⟨q, hq, g2⟩
        · exact Or.inl g2
        · exact Or.inr ⟨q, List.mem_cons_of_mem _ hq, g2⟩

/-- A listed process exits: the state stays sound for the list without it,
and when it was the current process it is now in the exited position. -/
theorem exit_sound (k k' : Kernel) (l : List Ptr) (p : Ptr) (status : Int) (h : k.Sound l)
    (hp : p ∈ l) (he : Process.exit k p status = some k') :
    k'.Sound (l.erase p) ∧ (p = k.current → k'.currentPlaced (l.erase p)) := by
  obtain ⟨i, hi⟩ := List.getElem?_of_mem hp
  obtain ⟨k'', r, e1, e2, e3, e4, e5, e6, _, e8, e9, e10, _, _⟩ :=
    exit_wellLinked k p status l i h.linked hi
  rw [he] at e1
  have hkk := Option.some.inj e1
  subst hkk
  rw [erase_eq_eraseIdx_of_nodup l i p h.linked.nodup hi]
  have hsub : ∀ q : Ptr, q ∈ l.eraseIdx i → q ∈ l := fun q hq =>
    (List.eraseIdx_sublist l i).subset hq
  have hoff : ∀ q : Ptr, (q ∈ l → q = p) → k'.procs[q]? = k.procs[q]? := by
    intro q hq
    have hnid : ∀ a b : Nat, a ≠ b → l[a]? = some p → l[b]? ≠ some p := by
      intro a b hab ha hb
      exact hab (nodup_index_inj l h.linked.nodup a b p ha hb)
    rw [e4 q, if_neg, if_neg]
    · rw [e5]
      intro hn
      have hm := getElem?_mem_of_some l (i + 1) q hn
      have := hq hm
      subst this
      exact hnid i (i + 1) (Nat.ne_of_lt (Nat.lt_succ_self i)) hi hn
    · rw [e6]
      intro hn
      have hm := mem_of_prev_index hn
      have := hq hm
      subst this
      by_cases hi0 : i = 0
      · rw [if_pos hi0] at hn
        cases hn
      · rw [if_neg hi0] at hn
        exact hnid i (i - 1) (by omega) hi hn
  have hpidmap : ∀ q : Ptr,
      (k'.procs[q]?).map (fun x => x.pid) = (k.procs[q]?).map (fun x => x.pid) := by
    intro q
    rw [e4 q]
    split
    · cases k.procs[q]? <;> rfl
    · split
      · cases k.procs[q]? <;> rfl
      · rfl
  obtain ⟨hb, hinj⟩ := pids_congr hpidmap h.pidBound h.pidInj
  refine ⟨⟨e3, ?_, ?_, ?_, hinj⟩, ?_⟩
  · obtain ⟨ri, h1, h2⟩ := h.idle
    refine ⟨ri, ?_, h2⟩
    rw [e9, hoff k.idleProcess (fun hm => absurd hm h.idleOff)]
    exact h1
  · rw [e9]
    exact fun hm => h.idleOff (hsub _ hm)
  · rw [e10]
    exact hb
  · intro hcur
    right
    right
    unfold Kernel.currentExited
    rw [e8, e9, ← hcur]
    have hpoff : p ∉ l.eraseIdx i := by
      rw [← erase_eq_eraseIdx_of_nodup l i p h.linked.nodup hi]
      exact fun hm => ((List.Nodup.mem_erase_iff h.linked.nodup).mp hm).1 rfl
    refine ⟨hpoff, ?_, r, ?_, ?_⟩
    · intro hpi
      rw [hpi] at hp
      exact h.idleOff hp
    · rw [hoff p (fun _ => rfl)]
      exact e2
    · rw [e5]
      cases hn : l[i + 1]? with
      | none => exact Or.inl rfl
      | some q =>
        refine Or.inr ⟨q, ?_, rfl⟩
        have hm := getElem?_mem_of_some l (i + 1) q hn
        have hqp : q ≠ p := by
          intro hqp
          subst hqp
          exact absurd (nodup_index_inj l h.linked.nodup i (i + 1) q hi hn)
            (Nat.ne_of_lt (Nat.lt_succ_self i))
        rw [← erase_eq_eraseIdx_of_nodup l i p h.linked.nodup hi]
        exact (List.Nodup.mem_erase_iff h.linked.nodup).mpr ⟨hqp, hm⟩

/-! ## Facts about `regfork` -/

theorem clone_eq (descriptions : List FileDescription) (h : Ptr) (d : FileDescription)
    (hd : descriptions[h]? = some d) :
    FileDescription.clone descriptions (some h) =
      some (descriptions.length, descriptions ++ [d]) := by
  unfold FileDescription.clone
  simp only [hd]

theorem clone_spec (descriptions descriptions' : List FileDescription) (source : Option Ptr)
    (h' : Ptr) (hc : FileDescription.clone descriptions source = some (h', descriptions')) :
    ∃ h d, source = some h ∧ descriptions[h]? = some d ∧ h' = descriptions.length ∧
      descriptions' = descriptions ++ [d] := by
  unfold FileDescription.clone at hc
  cases source with
  | none => cases hc
  | some h =>
    simp only at hc
    cases hd : descriptions[h]? with
    | none => rw [hd] at hc; cases hc
    | some d =>
      rw [hd] at hc
      simp only [Option.some.injEq, Prod.mk.injEq] at hc
      exact ⟨h, d, rfl, hd, hc.1.symm, hc.2.symm⟩

/-- The loop of `regfork` from the slot `i` on: it ends, the arena of handles
only grows, slots outside the range are left alone, a null slot of the parent
leaves the slot of the child as it is, and a present one gets a handle from
the new part of the arena that holds what the handle of the parent holds. -/
theorem forkLoop_spec (fd : List (Option Ptr)) :
    ∀ (fuel i : Nat) (childFd : List (Option Ptr)) (descs : List FileDescription),
      i + fuel ≤ fd.length → i + fuel ≤ childFd.length →
      (∀ (j : Nat) (h : Ptr), fd[j]? = some (some h) → h < descs.length) →
      ∃ childFd' ext, Process.forkLoop fd fuel i (childFd, descs) =
          some (childFd', descs ++ ext) ∧
        childFd'.length = childFd.length ∧
        (∀ j : Nat, ¬(i ≤ j ∧ j < i + fuel) → childFd'[j]? = childFd[j]?) ∧
        (∀ j : Nat, i ≤ j → j < i + fuel → fd[j]? = some none →
          childFd'[j]? = childFd[j]?) ∧
        (∀ (j : Nat) (h : Ptr), i ≤ j → j < i + fuel → fd[j]? = some (some h) →
          ∃ h', childFd'[j]? = some (some h') ∧ descs.length ≤ h' ∧
            (descs ++ ext)[h']? = descs[h]?) := by
  intro fuel
  induction fuel with
  | zero =>
    intro i childFd descs _ _ _
    refine ⟨childFd, [], ?_, rfl, fun _ _ => rfl, fun _ _ _ _ => rfl, ?_⟩
    · unfold Process.forkLoop
      rw [List.append_nil]
    · intro j h h1 h2
      omega
  | succ fuel ih =>
    intro i childFd descs hlen hclen hvalid
    have hi : i < fd.length := by omega
    have hic : i < childFd.length := by omega
    obtain ⟨slot, hslot⟩ : ∃ slot, fd[i]? = some slot := ⟨fd[i], List.getElem?_eq_getElem hi⟩
    cases slot with
    | none =>
      obtain ⟨childFd', ext, g1, g2, g3, g4, g5⟩ :=
        ih (i + 1) childFd descs (by omega) (by omega) hvalid
      refine ⟨childFd', ext, ?_, g2, ?_, ?_, ?_⟩
      · unfold Process.forkLoop
        simp only [hslot]
        exact g1
      · intro j hj
        exact g3 j (by omega)
      · intro j h1 h2 hn
        by_cases hji : j = i
        · exact g3 j (by omega)
        · exact g4 j (by omega) (by omega) hn
      · intro j h h1 h2 hs
        by_cases hji : j = i
        · subst hji
          rw [hslot] at hs
          cases hs
        · exact g5 j h (by omega) (by omega) hs
    | some h0 =>
      have hh0 : h0 < descs.length := hvalid i h0 hslot
      have hd : descs[h0]? = some descs[h0] := List.getElem?_eq_getElem hh0
      obtain ⟨childFd', ext, g1, g2, g3, g4, g5⟩ :=
        ih (i + 1) (childFd.set i (some descs.length)) (descs ++ [descs[h0]]) (by omega)
          (by rw [List.length_set]; omega)
          (fun j h hj => by
            rw [List.length_append]
            exact Nat.lt_add_right _ (hvalid j h hj))
      have hset : ∀ j, j ≠ i →
          (childFd.set i (some descs.length))[j]? = childFd[j]? := by
        intro j hj
        rw [List.getElem?_set_ne (Ne.symm hj)]
      refine ⟨childFd', [descs[h0]] ++ ext, ?_, ?_, ?_, ?_, ?_⟩
      · unfold Process.forkLoop
        simp only [hslot, clone_eq descs h0 _ hd]
        rw [g1, List.append_assoc]
      · rw [g2, List.length_set]
      · intro j hj
        rw [g3 j (by omega)]
        exact hset j (by omega)
      · intro j h1 h2 hn
        by_cases hji : j = i
        · subst hji
          rw [hslot] at hn
          cases hn
        · rw [g4 j (by omega) (by omega) hn]
          exact hset j hji
      · intro j h h1 h2 hs
        by_cases hji : j = i
        · subst hji
          rw [hslot] at hs
          have hh := Option.some.inj (Option.some.inj hs)
          subst hh
          refine ⟨descs.length, ?_, Nat.le_refl _, ?_⟩
          · rw [g3 j (by omega)]
            exact List.getElem?_set_self hic
          · rw [← List.append_assoc, List.getElem?_append_left, List.getElem?_append_right (Nat.le_refl _), Nat.sub_self, hd]
            · rfl
            rw [List.length_append, List.length_singleton]
            exact Nat.lt_succ_self _
        · obtain ⟨h', f1, f2, f3⟩ := g5 j h (by omega) (by omega) hs
          refine ⟨h', f1, ?_, ?_⟩
          · rw [List.length_append, List.length_singleton] at f2
            omega
          · rw [← List.append_assoc, f3]
            exact List.getElem?_append_left (hvalid j h hs)

theorem set_append_last (procs : List Process) (c c' : Process) :
    (procs ++ [c]).set procs.length c' = procs ++ [c'] := by
  induction procs with
  | nil => rfl
  | cons a t ih =>
    simp only [List.cons_append, List.length_cons, List.set_cons_succ, ih]

/-- What a successful `forkChild` leaves behind, as far as the process table
goes: one record more, with null `prev` and the pid `nextPid` had. -/
theorem forkChild_shape (env : Platform) (k : Kernel) (self : Ptr) (registers : Regfork)
    (p : Ptr) (k1 : Kernel) (h : Process.forkChild env k self registers = some (p, k1)) :
    p = k.procs.length ∧ ∃ child : Process, k1.procs = k.procs ++ [child] ∧
      child.prev = none ∧ child.pid = k.nextPid ∧ k1.nextPid = k.nextPid + 1 ∧
      k1.firstProcess = k.firstProcess ∧ k1.current = k.current ∧
      k1.idleProcess = k.idleProcess := by
  unfold Process.forkChild at h
  split at h
  · cases h
  · split at h
    · cases h
    · rename_i process kc hcreate
      obtain ⟨c1, _, c0, c2, _, c4, c5, _, c7, c8, c9, c10, _, _⟩ :=
        create_spec env k kc process hcreate
      split at h
      · rename_i c kspace hc hks
        simp only at h
        split at h
        · cases h
        · split at h
          · cases h
          · split at h
            · cases h
            · split at h
              · cases h
              · split at h
                · cases h
                · simp only [Option.some.injEq, Prod.mk.injEq] at h
                  obtain ⟨h1, h2⟩ := h
                  subst h1 h2
                  rw [c2, c1, getElem?_append_last] at hc
                  have := Option.some.inj hc
                  subst this
                  refine ⟨c1, ?_⟩
                  simp only [c2, c1, set_append_last]
                  exact ⟨_, rfl, c4, c5, c7, c8, c9, c10⟩
      · cases h

/-- One operation from a sound state gives a sound state, and keeps the
current process placed when `exit` is called on the current process only. -/
theorem step_sound (env : Platform) (own : Bool) (k k1 : Kernel) (l : List Ptr)
    (hs : Step env own k k1) (h : k.Sound l) (hplaced : own = true → k.currentPlaced l) :
    ∃ l1, k1.Sound l1 ∧ (own = true → k1.currentPlaced l1) := by
  cases hs
  case add kc p hcreate hadd =>
    obtain ⟨c1, _, c0, c2, _, c4, c5, _, c7, c8, c9, c10, _, _⟩ :=
      create_spec env k kc p hcreate
    subst c1
    obtain ⟨g1, g2⟩ := append_add_sound k kc k1 l c0 h c2 c4 c5 c7 c8 c9 c10 hadd
    exact ⟨_, g1, fun ho => g2 (hplaced ho)⟩
  case fork self child registers hfork =>
    unfold Process.regfork at hfork
    split at hfork
    · cases hfork
    · rename_i process kc hchild
      split at hfork
      · cases hfork
      · rename_i k2 hadd
        simp only [Option.some.injEq, Prod.mk.injEq] at hfork
        obtain ⟨_, hk⟩ := hfork
        subst hk
        obtain ⟨c1, c0, c2, c4, c5, c7, c8, c9, c10⟩ :=
          forkChild_shape env k self registers process kc hchild
        subst c1
        obtain ⟨g1, g2⟩ := append_add_sound k kc k2 l c0 h c2 c4 c5 c7 c8 c9 c10 hadd
        exact ⟨_, g1, fun ho => g2 (hplaced ho)⟩
  case execute self descr rv hexec =>
    obtain ⟨g1, g2⟩ := execute_sound env k k1 l self descr rv h hexec
    exact ⟨l, g1, fun ho => g2 (hplaced ho)⟩
  case exit p status l0 hchain hp hown hexit =>
    have hl := isChain_unique k.procs l0 l k.firstProcess hchain h.linked.chain
    subst hl
    obtain ⟨g1, g2⟩ := exit_sound k k1 l0 p status h hp hexit
    exact ⟨_, g1, fun ho => g2 (hown ho)⟩
  case tick context ret htick =>
    obtain ⟨g1, g2⟩ := tick_sound k k1 l context ret h htick
    refine ⟨l, g1, fun ho => ?_⟩
    rcases g2 (hplaced ho) with g | g
    · exact Or.inl g
    · exact Or.inr (Or.inl g)

/-- Every reachable state is sound for some list, and the current process is
placed when `exit` is called on the current process only. -/
theorem reachable_inv (env : Platform) (own : Bool) (k : Kernel) (h : Reachable env own k) :
    ∃ l, k.Sound l ∧ (own = true → k.currentPlaced l) := by
  induction h with
  | init kb k0 rootFd hprocs hpid hinit =>
    obtain ⟨ri, e1, e2, _, e4, e5, e6, e7, e8⟩ :=
      initialize_pristine env kb k0 rootFd hprocs hpid hinit
    have hrec : ∀ (q : Ptr) (r : Process), k0.procs[q]? = some r → q = 0 ∧ r = ri := by
      intro q r hr
      rw [e1] at hr
      cases q with
      | zero => exact ⟨rfl, (Option.some.inj hr).symm⟩
      | succ q => simp at hr
    refine ⟨[], ⟨⟨?_, List.nodup_nil, ?_⟩, ?_, ?_, ?_, ?_⟩, fun _ => Or.inl (by rw [e6, e7])⟩
    · rw [e8]
      rfl
    · intro i p hi
      simp at hi
    · exact ⟨ri, by rw [e6, e1]; rfl, e2⟩
    · exact List.not_mem_nil _
    · intro q r hr
      rw [(hrec q r hr).2, e4, e5]
      exact Nat.zero_lt_one
    · intro q q' r r' hr hr' _
      rw [(hrec q r hr).1, (hrec q' r' hr').1]
  | step k k1 _ hs ih =>
    obtain ⟨l, g1, g2⟩ := ih
    exact step_sound env own k k1 l hs g1 g2

/-- The scenario states are reachable, with `exit` called on the current
process. -/
theorem scenarioTicked_reachable (own : Bool) : Reachable samplePlatform own scenarioTicked := by
  have h0 : Reachable samplePlatform own scenarioInit :=
    Reachable.init scenarioBoot scenarioInit (some 0) rfl rfl rfl
  have h2 : Reachable samplePlatform own scenarioAdded :=
    Reachable.step _ _ h0 (Step.add scenarioInit scenarioCreated scenarioAdded 1 rfl rfl)
  have h3 : Reachable samplePlatform own scenarioExecuted :=
    Reachable.step _ _ h2 (Step.execute scenarioAdded scenarioExecuted 1 0 0 rfl)
  exact Reachable.step _ _ h3
    (Step.tick scenarioExecuted scenarioTicked (sampleFrames 0) _ rfl)

theorem scenarioExited_reachable : Reachable samplePlatform true scenarioExited :=
  Reachable.step _ _ (scenarioTicked_reachable true)
    (Step.exit scenarioTicked scenarioExited 1 0 [1] rfl (List.mem_singleton.mpr rfl)
      (fun _ => rfl) rfl)

theorem scenarioForked_reachable (own : Bool) : Reachable samplePlatform own scenarioForked :=
  Reachable.step _ _ (scenarioTicked_reachable own)
    (Step.fork scenarioTicked scenarioForked 1 2 ⟨1, 2, 3, 4, 5, 6, 7, 8, 9⟩ rfl)

/-- With a parent whose descriptors are initialised, `forkChild` returns: the
record of the child is appended to the table, the arena of handles only grows,
and each handle of the child is a new one that holds what the handle of the
parent holds. -/
theorem forkChild_total (env : Platform) (k : Kernel) (self : Ptr) (registers : Regfork)
    (parent : Process) (hpar : k.procs[self]? = some parent) (hpid : k.nextPid < PID_MAX)
    (hks : 0 < k.spaces.length)
    (hspace : ∃ own, parent.addressSpace = some own ∧ own < k.spaces.length)
    (hlen : parent.fd.length = env.openMax)
    (hfd : ∀ (i : Nat) (h : Ptr), parent.fd[i]? = some (some h) → h < k.descriptions.length)
    (hroot : ∃ h, parent.rootFd = some h ∧ h < k.descriptions.length)
    (hcwd : ∃ h, parent.cwdFd = some h ∧ h < k.descriptions.length) :
    ∃ (k1 : Kernel) (c : Process) (ext : List FileDescription),
      Process.forkChild env k self registers = some (k.procs.length, k1) ∧
      k1.procs = k.procs ++ [c] ∧ k1.firstProcess = k.firstProcess ∧
      k1.descriptions = k.descriptions ++ ext ∧
      (∀ i : Nat, i < env.openMax → parent.fd[i]? = some none → c.fd[i]? = some none) ∧
      (∀ (i : Nat) (h : Ptr), i < env.openMax → parent.fd[i]? = some (some h) →
        ∃ h', c.fd[i]? = some (some h') ∧ k.descriptions.length ≤ h' ∧
          k1.descriptions[h']? = k.descriptions[h]?) ∧
      (∃ h h', parent.rootFd = some h ∧ c.rootFd = some h' ∧ k.descriptions.length ≤ h' ∧
        k1.descriptions[h']? = k.descriptions[h]?) ∧
      (∃ h h', parent.cwdFd = some h ∧ c.cwdFd = some h' ∧ k.descriptions.length ≤ h' ∧
        k1.descriptions[h']? = k.descriptions[h]?) := by
  obtain ⟨own, hown, hownlt⟩ := hspace
  obtain ⟨hr, hroot, hrlt⟩ := hroot
  obtain ⟨hc, hcwd, hclt⟩ := hcwd
  have hkspace : k.spaces[kernelSpace]? = some k.spaces[kernelSpace] :=
    List.getElem?_eq_getElem hks
  obtain ⟨childFd, ext, g1, g2, _, g4, g5⟩ :=
    forkLoop_spec parent.fd env.openMax 0 (List.replicate env.openMax none) k.descriptions
      (by rw [hlen, Nat.zero_add]) (by rw [List.length_replicate, Nat.zero_add]) hfd
  have hrd : (k.descriptions ++ ext)[hr]? = some k.descriptions[hr] := by
    rw [List.getElem?_append_left hrlt]
    exact List.getElem?_eq_getElem hrlt
  have hcd : (k.descriptions ++ ext ++ [k.descriptions[hr]])[hc]? = some k.descriptions[hc] := by
    rw [List.append_assoc, List.getElem?_append_left hclt]
    exact List.getElem?_eq_getElem hclt
  have hsp : ∃ space, (k.spaces.set kernelSpace
      (AddressSpace.mapMemory env k.spaces[kernelSpace] 4096 Prot.rw).2)[own]? = some space := by
    refine ⟨_, List.getElem?_eq_getElem ?_⟩
    rw [List.length_set]
    exact hownlt
  obtain ⟨space, hsp⟩ := hsp
  refine ⟨?k1, ?c, ext ++ [k.descriptions[hr]] ++ [k.descriptions[hc]], ?h1, ?h2, ?_, ?_, ?_, ?_,
    ?_, ?_⟩
  case h1 =>
    unfold Process.forkChild Process.create
    simp only [hpar, if_pos hpid, getElem?_append_last, hkspace, hown, hsp, g1, hroot, hcwd,
      clone_eq _ hr _ hrd, clone_eq _ hc _ hcd, set_append_last]
    exact rfl
  case h2 => exact rfl
  · rfl
  · show k.descriptions ++ ext ++ [k.descriptions[hr]] ++ [k.descriptions[hc]] = _
    simp only [List.append_assoc]
  · intro i hi hn
    show childFd[i]? = some none
    rw [g4 i (Nat.zero_le i) (by omega) hn, List.getElem?_replicate, if_pos hi]
  · intro i h hi hs
    obtain ⟨h', f1, f2, f3⟩ := g5 i h (Nat.zero_le i) (by omega) hs
    refine ⟨h', f1, f2, ?_⟩
    have hlt : h' < (k.descriptions ++ ext).length := by
      have hh := hfd i h hs
      rw [List.getElem?_eq_getElem hh] at f3
      exact (List.getElem?_eq_some.mp f3).1
    show (k.descriptions ++ ext ++ [k.descriptions[hr]] ++ [k.descriptions[hc]])[h']? = _
    rw [List.append_assoc, List.getElem?_append_left hlt, f3]
  · refine ⟨hr, (k.descriptions ++ ext).length, hroot, rfl, ?_, ?_⟩
    · rw [List.length_append]
      exact Nat.le_add_right _ _
    · show (k.descriptions ++ ext ++ [k.descriptions[hr]] ++ [k.descriptions[hc]])[_]? = _
      rw [List.getElem?_append_left, getElem?_append_last, List.getElem?_eq_getElem hrlt]
      simp only [List.length_append, List.length_singleton]
      omega
  · refine ⟨hc, (k.descriptions ++ ext ++ [k.descriptions[hr]]).length, hcwd, rfl, ?_, ?_⟩
    · rw [List.length_append, List.length_append]
      omega
    · show (k.descriptions ++ ext ++ [k.descriptions[hr]] ++ [k.descriptions[hc]])[_]? = _
      rw [getElem?_append_last, List.getElem?_eq_getElem hclt]

/-! ## The descriptor table of a forked process -/

/-- C11: for a parent whose descriptors are initialised (its table has
`OPEN_MAX` slots, every present slot and `rootFd` and `cwdFd` are handles of
the kernel) and that can be forked at all (it has an address space, a pid is
left, `firstProcess` is a record), `regfork` returns a child such that, for
every index below `OPEN_MAX`, the slot of the child is null when that of the
parent is, and otherwise a handle that did not exist before, differs from the
handle of the parent and refers to the same vnode; `rootFd` and `cwdFd` of the
child are new handles to the vnodes of those of the parent; and the table,
`rootFd` and `cwdFd` of the parent, and every handle that existed before, are
unchanged. -/
theorem regfork_descriptors (env : Platform) (k : Kernel) (self : Ptr) (registers : Regfork)
    (parent : Process) (hpar : k.procs[self]? = some parent) (hpid : k.nextPid < PID_MAX)
    (hks : 0 < k.spaces.length)
    (hspace : ∃ own, parent.addressSpace = some own ∧ own < k.spaces.length)
    (hfirst : ∀ nx, k.firstProcess = some nx → nx < k.procs.length)
    (hlen : parent.fd.length = env.openMax)
    (hfd : ∀ (i : Nat) (h : Ptr), parent.fd[i]? = some (some h) → h < k.descriptions.length)
    (hroot : ∃ h, parent.rootFd = some h ∧ h < k.descriptions.length)
    (hcwd : ∃ h, parent.cwdFd = some h ∧ h < k.descriptions.length) :
    ∃ (child : Ptr) (k' : Kernel) (c parent' : Process),
      Process.regfork env k self registers = some (child, k') ∧
      child ≠ self ∧ k'.procs[child]? = some c ∧ k'.procs[self]? = some parent' ∧
      (∀ i : Nat, i < env.openMax →
        (parent.fd[i]? = some none ∧ c.fd[i]? = some none) ∨
        ∃ (h h' : Ptr) (d d' : FileDescription), parent.fd[i]? = some (some h) ∧
          c.fd[i]? = some (some h') ∧ h' ≠ h ∧ k.descriptions.length ≤ h' ∧
          k.descriptions[h]? = some d ∧ k'.descriptions[h']? = some d' ∧ d'.vnode = d.vnode) ∧
      (∃ (h h' : Ptr) (d d' : FileDescription), parent.rootFd = some h ∧ c.rootFd = some h' ∧
        h' ≠ h ∧ k.descriptions[h]? = some d ∧ k'.descriptions[h']? = some d' ∧
        d'.vnode = d.vnode) ∧
      (∃ (h h' : Ptr) (d d' : FileDescription), parent.cwdFd = some h ∧ c.cwdFd = some h' ∧
        h' ≠ h ∧ k.descriptions[h]? = some d ∧ k'.descriptions[h']? = some d' ∧
        d'.vnode = d.vnode) ∧
      parent'.fd = parent.fd ∧ parent'.rootFd = parent.rootFd ∧
      parent'.cwdFd = parent.cwdFd ∧
      ∀ h : Ptr, h < k.descriptions.length → k'.descriptions[h]? = k.descriptions[h]? := by
  obtain ⟨k1, c, ext, e1, e2, e3, e4, e5, e6, e7, e8⟩ :=
    forkChild_total env k self registers parent hpar hpid hks hspace hlen hfd hroot hcwd
  have hself : self < k.procs.length := (List.getElem?_eq_some.mp hpar).1
  have hc : k1.procs[k.procs.length]? = some c := by
    rw [e2]
    exact getElem?_append_last k.procs c
  have hold : ∀ q : Ptr, q < k.procs.length → k1.procs[q]? = k.procs[q]? := by
    intro q hq
    rw [e2]
    exact List.getElem?_append_left hq
  obtain ⟨k', a1, a2, _, _, _, _, _, a8⟩ := addProcess_eq k1 k.procs.length c hc (by
    intro nx hnx
    rw [e3] at hnx
    have hlt := hfirst nx hnx
    exact ⟨Nat.ne_of_lt hlt, k.procs[nx], by rw [hold nx hlt]; exact List.getElem?_eq_getElem hlt⟩)
  have hdesc : ∀ (h : Ptr) (d : FileDescription), k.descriptions[h]? = some d →
      k'.descriptions[h]? = some d := by
    intro h d hd
    rw [a8, e4, List.getElem?_append_left (List.getElem?_eq_some.mp hd).1]
    exact hd
  have hsame : ∀ h h' : Ptr, h < k.descriptions.length → k.descriptions.length ≤ h' →
      k1.descriptions[h']? = k.descriptions[h]? →
      ∃ d d' : FileDescription, h' ≠ h ∧ k.descriptions[h]? = some d ∧
        k'.descriptions[h']? = some d' ∧ d'.vnode = d.vnode := by
    intro h h' hlt hle heq
    refine ⟨k.descriptions[h], k.descriptions[h], ?_, List.getElem?_eq_getElem hlt, ?_, rfl⟩
    · intro hh
      rw [hh] at hle
      exact Nat.lt_irrefl _ (Nat.lt_of_lt_of_le hlt hle)
    · rw [a8, heq]
      exact List.getElem?_eq_getElem hlt
  have hparent : ∃ parent' : Process, k'.procs[self]? = some parent' ∧ parent'.fd = parent.fd ∧
      parent'.rootFd = parent.rootFd ∧ parent'.cwdFd = parent.cwdFd := by
    rw [a2 self, if_neg (Nat.ne_of_lt hself), hold self hself, hpar]
    split
    · exact ⟨_, rfl, rfl, rfl, rfl⟩
    · exact ⟨_, rfl, rfl, rfl, rfl⟩
  obtain ⟨parent', p1, p2, p3, p4⟩ := hparent
  refine ⟨k.procs.length, k', { c with next := k1.firstProcess }, parent', ?_,
    Ne.symm (Nat.ne_of_lt hself), ?_, p1, ?_, ?_, ?_, p2, p3, p4, ?_⟩
  · unfold Process.regfork
    simp only [e1, a1]
  · rw [a2, if_pos rfl]
  · intro i hi
    have hil : i < parent.fd.length := by rw [hlen]; exact hi
    cases hslot : parent.fd[i] with
    | none =>
      have hn : parent.fd[i]? = some none := by rw [List.getElem?_eq_getElem hil, hslot]
      exact Or.inl ⟨hn, e5 i hi hn⟩
    | some h =>
      have hs : parent.fd[i]? = some (some h) := by rw [List.getElem?_eq_getElem hil, hslot]
      obtain ⟨h', f1, f2, f3⟩ := e6 i h hi hs
      obtain ⟨d, d', g1, g2, g3, g4⟩ := hsame h h' (hfd i h hs) f2 f3
      exact Or.inr ⟨h, h', d, d', hs, f1, g1, f2, g2, g3, g4⟩
  · obtain ⟨h, h', f1, f2, f3, f4⟩ := e7
    obtain ⟨h0, r1, r2⟩ := hroot
    rw [f1] at r1
    have := Option.some.inj r1
    subst this
    obtain ⟨d, d', g1, g2, g3, g4⟩ := hsame h h' r2 f3 f4
    exact ⟨h, h', d, d', f1, f2, g1, g2, g3, g4⟩
  · obtain ⟨h, h', f1, f2, f3, f4⟩ := e8
    obtain ⟨h0, r1, r2⟩ := hcwd
    rw [f1] at r1
    have := Option.some.inj r1
    subst this
    obtain ⟨d, d', g1, g2, g3, g4⟩ := hsame h h' r2 f3 f4
    exact ⟨h, h', d, d', f1, f2, g1, g2, g3, g4⟩
  · intro h hlt
    rw [a8, e4]
    exact List.getElem?_append_left hlt

theorem regfork_descriptors_witness :
    ∃ (child : Ptr) (k' : Kernel) (c parent' : Process),
      Process.regfork samplePlatform scenarioTicked 1 ⟨1, 2, 3, 4, 5, 6, 7, 8, 9⟩ =
        some (child, k') ∧
      child ≠ 1 ∧ k'.procs[child]? = some c ∧ k'.procs[1]? = some parent' ∧
      (∀ i : Nat, i < samplePlatform.openMax →
        (scenarioParent.fd[i]? = some none ∧
          c.fd[i]? = some none) ∨
        ∃ (h h' : Ptr) (d d' : FileDescription),
          scenarioParent.fd[i]? = some (some h) ∧
          c.fd[i]? = some (some h') ∧ h' ≠ h ∧ scenarioTicked.descriptions.length ≤ h' ∧
          scenarioTicked.descriptions[h]? = some d ∧ k'.descriptions[h']? = some d' ∧
          d'.vnode = d.vnode) ∧
      (∃ (h h' : Ptr) (d d' : FileDescription),
        scenarioParent.rootFd = some h ∧ c.rootFd = some h' ∧
        h' ≠ h ∧ scenarioTicked.descriptions[h]? = some d ∧ k'.descriptions[h']? = some d' ∧
        d'.vnode = d.vnode) ∧
      (∃ (h h' : Ptr) (d d' : FileDescription),
        scenarioParent.cwdFd = some h ∧ c.cwdFd = some h' ∧
        h' ≠ h ∧ scenarioTicked.descriptions[h]? = some d ∧ k'.descriptions[h']? = some d' ∧
        d'.vnode = d.vnode) ∧
      parent'.fd = scenarioParent.fd ∧
      parent'.rootFd = scenarioParent.rootFd ∧
      parent'.cwdFd = scenarioParent.cwdFd ∧
      ∀ h : Ptr, h < scenarioTicked.descriptions.length →
        k'.descriptions[h]? = scenarioTicked.descriptions[h]? :=
  regfork_descriptors samplePlatform scenarioTicked 1 ⟨1, 2, 3, 4, 5, 6, 7, 8, 9⟩
    scenarioParent rfl (by decide) (by decide)
    ⟨1, rfl, by decide⟩ (by decide) rfl
    (fun i h hs => by
      have hfd : scenarioParent.fd = [some 1, some 2, some 3, none] := rfl
      have hl : scenarioTicked.descriptions.length = 6 := rfl
      rw [hfd] at hs
      rw [hl]
      rcases i with _ | _ | _ | _ | i
      · cases hs
        decide
      · cases hs
        decide
      · cases hs
        decide
      · cases hs
      · simp at hs)
    ⟨4, rfl, by decide⟩ ⟨5, rfl, by decide⟩

/-! ## The invariants P1, P2 and P3 -/

/-- C13: P1 is an invariant. In every state reached from `Process::initialize`
by `addProcess` of freshly constructed processes, `regfork`, `execute`, `exit`
of a listed process and `schedule`, the chain from `firstProcess` along `next`
is a finite list without repetition that ends in a null `next`, the first
process has a null `prev`, and every process `p` on it has `p.next.prev = p`
when `p.next` is not null and `p.prev.next = p` when `p.prev` is not null. -/
theorem list_wellformed_invariant (env : Platform) (own : Bool) (k : Kernel)
    (h : Reachable env own k) :
    ∃ l : List Ptr, isChain k.procs k.firstProcess l = true ∧ l.Nodup ∧
      (∀ first : Ptr, k.firstProcess = some first →
        ∃ r : Process, k.procs[first]? = some r ∧ r.prev = none) ∧
      ∀ p : Ptr, p ∈ l → ∃ r : Process, k.procs[p]? = some r ∧
        (∀ n : Ptr, r.next = some n →
          ∃ rn : Process, k.procs[n]? = some rn ∧ rn.prev = some p) ∧
        (∀ m : Ptr, r.prev = some m →
          ∃ rm : Process, k.procs[m]? = some rm ∧ rm.next = some p) := by
  obtain ⟨l, hs, _⟩ := reachable_inv env own k h
  have hwl := hs.linked
  refine ⟨l, hwl.chain, hwl.nodup, ?_, ?_⟩
  · intro first hfirst
    have hhead := isChain_head k.procs k.firstProcess l hwl.chain
    rw [hfirst] at hhead
    have h0 : l[0]? = some first := by
      rw [← head?_eq_first]
      exact hhead.symm
    obtain ⟨r, g1, _, g3⟩ := hwl.record 0 first h0
    exact ⟨r, g1, by rw [g3, if_pos rfl]⟩
  · intro p hp
    obtain ⟨i, hi⟩ := List.getElem?_of_mem hp
    obtain ⟨r, g1, g2, g3⟩ := hwl.record i p hi
    refine ⟨r, g1, ?_, ?_⟩
    · intro n hn
      rw [g2] at hn
      obtain ⟨rn, f1, _, f3⟩ := hwl.record (i + 1) n hn
      refine ⟨rn, f1, ?_⟩
      rw [f3, if_neg (Nat.succ_ne_zero i), Nat.add_sub_cancel]
      exact hi
    · intro m hm
      rw [g3] at hm
      by_cases hi0 : i = 0
      · rw [if_pos hi0] at hm
        cases hm
      · rw [if_neg hi0] at hm
        obtain ⟨rm, f1, f2, _⟩ := hwl.record (i - 1) m hm
        refine ⟨rm, f1, ?_⟩
        rw [f2, Nat.sub_add_cancel (Nat.pos_of_ne_zero hi0)]
        exact hi

theorem list_wellformed_invariant_witness :
    ∃ l : List Ptr, isChain scenarioForked.procs scenarioForked.firstProcess l = true ∧
      l.Nodup ∧
      (∀ first : Ptr, scenarioForked.firstProcess = some first →
        ∃ r : Process, scenarioForked.procs[first]? = some r ∧ r.prev = none) ∧
      ∀ p : Ptr, p ∈ l → ∃ r : Process, scenarioForked.procs[p]? = some r ∧
        (∀ n : Ptr, r.next = some n →
          ∃ rn : Process, scenarioForked.procs[n]? = some rn ∧ rn.prev = some p) ∧
        (∀ m : Ptr, r.prev = some m →
          ∃ rm : Process, scenarioForked.procs[m]? = some rm ∧ rm.next = some p) :=
  list_wellformed_invariant samplePlatform false scenarioForked
    (Reachable.step _ _ (scenarioTicked_reachable false)
      (Step.fork scenarioTicked scenarioForked 1 2 ⟨1, 2, 3, 4, 5, 6, 7, 8, 9⟩ rfl))

/-- C14, counterexample: after boot, one process created, added, executing an
image, switched to by a tick and then calling `exit`, the state is reachable
with `exit` called on the current process only, and `current` is neither the
idle process nor on the chain from `firstProcess`. -/
theorem exit_leaves_current_off_list :
    Reachable samplePlatform true scenarioExited ∧
      scenarioExited.current ≠ scenarioExited.idleProcess ∧
      ∀ l : List Ptr, isChain scenarioExited.procs scenarioExited.firstProcess l = true →
        scenarioExited.current ∉ l := by
  refine ⟨scenarioExited_reachable, by decide, ?_⟩
  intro l hl
  have hnil : isChain scenarioExited.procs scenarioExited.firstProcess [] = true := rfl
  rw [isChain_unique scenarioExited.procs l [] scenarioExited.firstProcess hl hnil]
  exact List.not_mem_nil _

/-- C14, as the code has it: in every state reached from `Process::initialize`
by `addProcess` of freshly constructed processes, `regfork`, `execute`, `exit`
called on the current process and `schedule`, `current` is the idle process, or on the chain from
`firstProcess`, or a process that has called `exit` and not been switched away
from yet (off the chain, not the idle process, its `next` null or on the
chain); and after every `schedule` from such a state the chain is the same and
`current` is the idle process or on the chain. -/
theorem current_placed_invariant (env : Platform) (k : Kernel) (h : Reachable env true k) :
    ∃ l : List Ptr, isChain k.procs k.firstProcess l = true ∧
      (k.current = k.idleProcess ∨ k.current ∈ l ∨ k.currentExited l) ∧
      ∀ (context : InterruptContext) (ret : Option InterruptContext) (k' : Kernel),
        Process.schedule k context = some (ret, k') →
        isChain k'.procs k'.firstProcess l = true ∧
          (k'.current = k'.idleProcess ∨ k'.current ∈ l) := by
  obtain ⟨l, hs, hp⟩ := reachable_inv env true k h
  refine ⟨l, hs.linked.chain, hp rfl, ?_⟩
  intro context ret k' hsched
  obtain ⟨g1, g2⟩ := tick_sound k k' l context ret hs hsched
  exact ⟨g1.linked.chain, g2 (hp rfl)⟩

theorem current_placed_invariant_witness :
    ∃ l : List Ptr, isChain scenarioExited.procs scenarioExited.firstProcess l = true ∧
      (scenarioExited.current = scenarioExited.idleProcess ∨ scenarioExited.current ∈ l ∨
        scenarioExited.currentExited l) ∧
      ∀ (context : InterruptContext) (ret : Option InterruptContext) (k' : Kernel),
        Process.schedule scenarioExited context = some (ret, k') →
        isChain k'.procs k'.firstProcess l = true ∧
          (k'.current = k'.idleProcess ∨ k'.current ∈ l) :=
  current_placed_invariant samplePlatform scenarioExited
    (Reachable.step _ _ (scenarioTicked_reachable true)
      (Step.exit scenarioTicked scenarioExited 1 0 [1] rfl (List.mem_singleton.mpr rfl)
        (fun _ => rfl) rfl))

/-- C15: P3 is an invariant. In every reachable state every pid is below
`nextPid` and two distinct records have distinct pids; and the constructor
gives the new record the value of `nextPid` and increments the counter. -/
theorem pid_unique (env : Platform) (own : Bool) (k : Kernel) (h : Reachable env own k) :
    (∀ (q : Ptr) (r : Process), k.procs[q]? = some r → r.pid < k.nextPid) ∧
    (∀ (q q' : Ptr) (r r' : Process), k.procs[q]? = some r → k.procs[q']? = some r' →
      q ≠ q' → r.pid ≠ r'.pid) ∧
    ∀ (p : Ptr) (k1 : Kernel), Process.create env k = some (p, k1) →
      ∃ c : Process, k1.procs[p]? = some c ∧ c.pid = k.nextPid ∧
        k1.nextPid = k.nextPid + 1 := by
  obtain ⟨l, hs, _⟩ := reachable_inv env own k h
  refine ⟨hs.pidBound, ?_, ?_⟩
  · intro q q' r r' hr hr' hne he
    exact hne (hs.pidInj q q' r r' hr hr' he)
  · intro p k1 hc
    obtain ⟨c1, _, c0, c2, _, _, c5, _, c7, _⟩ := create_spec env k k1 p hc
    refine ⟨c0, ?_, c5, c7⟩
    rw [c1, c2]
    exact getElem?_append_last k.procs c0

theorem pid_unique_witness :
    (∀ (q : Ptr) (r : Process), scenarioForked.procs[q]? = some r →
      r.pid < scenarioForked.nextPid) ∧
    (∀ (q q' : Ptr) (r r' : Process), scenarioForked.procs[q]? = some r →
      scenarioForked.procs[q']? = some r' → q ≠ q' → r.pid ≠ r'.pid) ∧
    ∀ (p : Ptr) (k1 : Kernel), Process.create samplePlatform scenarioForked = some (p, k1) →
      ∃ c : Process, k1.procs[p]? = some c ∧ c.pid = scenarioForked.nextPid ∧
        k1.nextPid = scenarioForked.nextPid + 1 :=
  pid_unique samplePlatform true scenarioForked (scenarioForked_reachable true)

/-! ## `exit` as removal from the list -/

/-- C19: for a well-formed list `l` from `firstProcess` and a process `p` on
it, `p.exit(status)` returns; afterwards the list from `firstProcess` is `l`
with `p` erased (and again well formed), `firstProcess` is the old `next` of
`p` exactly when `p` was first and is unchanged otherwise, and every record
keeps its pid, saved context and descriptor table. -/
theorem exit_removes (k : Kernel) (p : Ptr) (status : Int) (l : List Ptr)
    (hwl : WellLinked k.procs k.firstProcess l) (hp : p ∈ l) :
    ∃ (k' : Kernel) (r : Process), Process.exit k p status = some k' ∧
      k.procs[p]? = some r ∧
      isChain k'.procs k'.firstProcess (l.erase p) = true ∧
      WellLinked k'.procs k'.firstProcess (l.erase p) ∧
      (k'.firstProcess = r.next ↔ k.firstProcess = some p) ∧
      (k.firstProcess ≠ some p → k'.firstProcess = k.firstProcess) ∧
      ∀ (q : Ptr) (x : Process), k.procs[q]? = some x →
        ∃ x' : Process, k'.procs[q]? = some x' ∧ x'.pid = x.pid ∧
          x'.interruptContext = x.interruptContext ∧ x'.fd = x.fd := by
  obtain ⟨i, hi⟩ := List.getElem?_of_mem hp
  obtain ⟨k', r, e1, e2, e3, e4, e5, _, e7, _⟩ := exit_wellLinked k p status l i hwl hi
  rw [← erase_eq_eraseIdx_of_nodup l i p hwl.nodup hi] at e3
  have hhead := isChain_head k.procs k.firstProcess l hwl.chain
  have hfirst : k.firstProcess = l[0]? := by
    rw [hhead]
    exact head?_eq_first l
  have hiff : k.firstProcess = some p ↔ i = 0 := by
    constructor
    · intro hf
      rw [hfirst] at hf
      exact nodup_index_inj l hwl.nodup i 0 p hi hf
    · intro h0
      rw [hfirst, ← h0]
      exact hi
  refine ⟨k', r, e1, e2, e3.chain, e3, ?_, ?_, ?_⟩
  · rw [hiff, e7, e5]
    constructor
    · intro hn
      by_cases h0 : i = 0
      · exact h0
      · exfalso
        rw [if_neg h0, hfirst] at hn
        obtain ⟨hlt, _⟩ := List.getElem?_eq_some.mp hi
        have hl0 : 0 < l.length := Nat.lt_of_le_of_lt (Nat.zero_le i) hlt
        have hz : l[0]? = some l[0] := List.getElem?_eq_getElem hl0
        rw [hz] at hn
        exact absurd (nodup_index_inj l hwl.nodup 0 (i + 1) l[0] hz hn.symm)
          (Nat.succ_ne_zero i).symm
    · intro h0
      rw [if_pos h0, h0]
  · intro hne
    rw [e7, if_neg (fun h0 => hne (hiff.mpr h0))]
  · intro q x hx
    rw [e4 q, hx]
    split
    · exact ⟨_, rfl, rfl, rfl, rfl⟩
    · split
      · exact ⟨_, rfl, rfl, rfl, rfl⟩
      · exact ⟨x, rfl, rfl, rfl, rfl⟩

theorem exit_removes_witness :
    ∃ (k' : Kernel) (r : Process), Process.exit linkedKernel 2 7 = some k' ∧
      linkedKernel.procs[2]? = some r ∧
      isChain k'.procs k'.firstProcess ([3, 2, 1].erase 2) = true ∧
      WellLinked k'.procs k'.firstProcess ([3, 2, 1].erase 2) ∧
      (k'.firstProcess = r.next ↔ linkedKernel.firstProcess = some 2) ∧
      (linkedKernel.firstProcess ≠ some 2 → k'.firstProcess = linkedKernel.firstProcess) ∧
      ∀ (q : Ptr) (x : Process), linkedKernel.procs[q]? = some x →
        ∃ x' : Process, k'.procs[q]? = some x' ∧ x'.pid = x.pid ∧
          x'.interruptContext = x.interruptContext ∧ x'.fd = x.fd :=
  exit_removes linkedKernel 2 7 [3, 2, 1]
    (WellLinked.of_checks linkedKernel.procs linkedKernel.firstProcess [3, 2, 1] rfl
      (by decide) rfl)
    (by decide)

end Dennix
